import Mathlib

/-!
ARAP solver (demo/arapsolver.cc): shallow embedding.

Scalars are the elements of a linearly ordered field `K` (exact arithmetic in
place of `double`).  Dense `n x 3` matrices are coefficient functions
`Nat → Fin 3 → K` with the row count kept beside them, sparse matrices are
coefficient functions `Nat → Nat → K` (an entry that was never written is `0`),
integer index vectors are lists of naturals.  The library routines the solver
calls but does not implement (`sqrt` behind `norm()`, the sparse LU
factorisation, `igl::polar_svd3x3`) are parameters.

The field quotient stands for the division of the source wherever the divisor
is not zero.  The division by four_area = 0 of ComputeCotangent is kept in a
second embedding of the weight loop (the definitions ending in `Ext`), whose
values are `Option K` with `none` for a non-finite double.
-/

set_option linter.unusedSectionVars false

namespace arap
namespace demo

/-- Eigen::Vector3d. -/
abbrev Vector3 (K : Type) := Fin 3 → K

/-- Eigen::Matrix3d. -/
abbrev Matrix3 (K : Type) := Matrix (Fin 3) (Fin 3) K

/-- Eigen::MatrixXd with three columns, as its coefficient function. -/
abbrev MatrixX3 (K : Type) := Nat → Fin 3 → K

/-- Eigen::SparseMatrix<double>, as its coefficient function. -/
abbrev SparseMatrix (K : Type) := Nat → Nat → K

/-- Modelled from the spec: the enumeration VertexType is declared in the solver
header, which is not among the sources; each vertex has exactly one role,
Fixed or Free. -/
inductive VertexType where
  | Fixed : VertexType
  | Free : VertexType
deriving DecidableEq, Repr

/-- Modelled from the spec: the entry type of vertex_info_ is declared in the
solver header; it holds the role of a vertex and its compact position, the row
index in the fixed targets for a Fixed vertex and in the reduced system for a
Free one. -/
structure VertexInfo where
  type : VertexType
  pos : Nat
deriving DecidableEq, Repr

/-- Result of a call that may end the process: `exited` stands for
`exit(EXIT_FAILURE)`, `returned` for a normal return with the new state. -/
inductive Outcome (α : Type) where
  | exited : Outcome α
  | returned : α → Outcome α

/-- Handle of a computed sparse LU factorisation: `solve` on a vector and on a
three-column matrix; `none` stands for `info() != Eigen::Success`. -/
structure LUHandle (K : Type) where
  solveVec : (Nat → K) → Option (Nat → K)
  solveMat : MatrixX3 K → Option (MatrixX3 K)

/-- Eigen::SparseLU::compute on an `n x n` matrix; `none` stands for
`info() != Eigen::Success`. -/
abbrev SparseLU (K : Type) := Nat → SparseMatrix K → Option (LUHandle K)

/-- Modelled from the spec: the Energy class is declared outside this source
file; it is a table of labelled scalars, extended by AddEnergyType. -/
structure Energy (K : Type) where
  types : List (String × K)

/-- Energy::AddEnergyType. -/
def Energy.AddEnergyType {K : Type} (e : Energy K) (name : String) (value : K) : Energy K :=
  ⟨e.types ++ [(name, value)]⟩

/-- Value stored under a label, if any. -/
def Energy.GetEnergy {K : Type} (e : Energy K) (name : String) : Option K :=
  (e.types.find? (fun p => p.1 == name)).map Prod.snd

/-- Modelled from the spec: the class declarations of ArapSolver and of its base
class Solver are not among the sources; the members are those that the member
functions of arapsolver.cc read and write. -/
structure ArapSolver (K : Type) where
  /-- vertices_.rows() -/
  vertex_num : Nat
  vertices_ : MatrixX3 K
  /-- faces_.rows() -/
  face_num : Nat
  faces_ : Nat → Fin 3 → Nat
  fixed_ : List Nat
  free_ : List Nat
  vertex_info_ : Nat → VertexInfo
  weight_ : SparseMatrix K
  /-- Keys of the map neighbors_[v] (each value equals its key), in insertion
  order. -/
  neighbors_ : Nat → List Nat
  lb_operator_ : SparseMatrix K
  solver_ : LUHandle K
  fixed_vertices_ : MatrixX3 K
  vertices_updated_ : MatrixX3 K
  rotations_ : List (Matrix3 K)

section Defs

variable {K : Type} [LinearOrderedField K]

/-- kMatrixDiffThreshold = 1e-6. -/
def kMatrixDiffThreshold : K := 1 / 1000000

/-- Eigen squaredNorm of a 3-vector. -/
def squaredNorm (v : Vector3 K) : K := v 0 * v 0 + v 1 * v 1 + v 2 * v 2

/-- Eigen dot of two 3-vectors. -/
def dot (u v : Vector3 K) : K := u 0 * v 0 + u 1 * v 1 + u 2 * v 2

/-- Eigen cross of two 3-vectors. -/
def cross (u v : Vector3 K) : Vector3 K :=
  ![u 1 * v 2 - u 2 * v 1, u 2 * v 0 - u 0 * v 2, u 0 * v 1 - u 1 * v 0]

/-- Eigen norm: the square root of squaredNorm. -/
def norm (sqrt : K → K) (v : Vector3 K) : K := sqrt (squaredNorm v)

/-- The index_map of Precompute: the two corners of the edge opposite corner i. -/
def index_map : Fin 3 → Fin 2 → Fin 3 := ![![1, 2], ![2, 0], ![0, 1]]

/-- The sparse update m.coeffRef(r, c) += v. -/
def coeffRefAdd (m : SparseMatrix K) (r c : Nat) (v : K) : SparseMatrix K :=
  fun a b => if a = r ∧ b = c then m a b + v else m a b

/-- Area of face face_id as computed in ComputeCotangent (line 257). -/
def faceArea (sqrt : K → K) (s : ArapSolver K) (face_id : Nat) : K :=
  let A : Vector3 K := s.vertices_ (s.faces_ face_id 0)
  let B : Vector3 K := s.vertices_ (s.faces_ face_id 1)
  let C : Vector3 K := s.vertices_ (s.faces_ face_id 2)
  norm sqrt (cross (B - A) (C - A)) / 2

/-- ArapSolver::ComputeCotangent on a face with four_area != 0.  The three
quotients are quotients of the field; the division by four_area = 0, which the
source performs without a test and which yields a non-finite double, is kept in
ComputeCotangentExt. -/
def ComputeCotangent (sqrt : K → K) (s : ArapSolver K) (face_id : Nat) : Vector3 K :=
  let A : Vector3 K := s.vertices_ (s.faces_ face_id 0)
  let B : Vector3 K := s.vertices_ (s.faces_ face_id 1)
  let C : Vector3 K := s.vertices_ (s.faces_ face_id 2)
  let a_squared := squaredNorm (B - C)
  let b_squared := squaredNorm (C - A)
  let c_squared := squaredNorm (A - B)
  let area := norm sqrt (cross (B - A) (C - A)) / 2
  let four_area := 4 * area
  ![(b_squared + c_squared - a_squared) / four_area,
    (c_squared + a_squared - b_squared) / four_area,
    (a_squared + b_squared - c_squared) / four_area]

/-- Body of the inner weight loop (lines 39-46) for one edge. -/
def weightEdge (w : SparseMatrix K) (first second : Nat) (half_cot : K) : SparseMatrix K :=
  let w := coeffRefAdd w first second half_cot
  let w := coeffRefAdd w second first half_cot
  let w := coeffRefAdd w first first (-half_cot)
  coeffRefAdd w second second (-half_cot)

/-- Body of the outer weight loop (lines 32-47) for face f. -/
def weightFace (sqrt : K → K) (s : ArapSolver K) (w : SparseMatrix K) (f : Nat) :
    SparseMatrix K :=
  let cotangent := ComputeCotangent sqrt s f
  (List.finRange 3).foldl
    (fun w i =>
      let first := s.faces_ f (index_map i 0)
      let second := s.faces_ f (index_map i 1)
      let half_cot := cotangent i / 2
      weightEdge w first second half_cot)
    w

/-- Precompute, lines 25-48: weight_ after the loop over all faces, starting
from the zero matrix left by resize. -/
def PrecomputeWeight (sqrt : K → K) (s : ArapSolver K) : SparseMatrix K :=
  (List.range s.face_num).foldl (weightFace sqrt s) (fun _ _ => 0)

/-- The map insertion neighbors_[v][k] = k.  The source does not fix the
iteration order of the map; the keys are kept in insertion order, and the sums
that run over them do not depend on it. -/
def insertNeighbor (nb : Nat → List Nat) (v k : Nat) : Nat → List Nat :=
  fun u => if u = v then (if k ∈ nb u then nb u else nb u ++ [k]) else nb u

/-- Body of the outer neighbour loop (lines 53-58) for face f. -/
def neighborsFace (s : ArapSolver K) (nb : Nat → List Nat) (f : Nat) : Nat → List Nat :=
  (List.finRange 3).foldl
    (fun nb i =>
      let first := s.faces_ f (index_map i 0)
      let second := s.faces_ f (index_map i 1)
      insertNeighbor (insertNeighbor nb first second) second first)
    nb

/-- Precompute, lines 50-59: neighbors_ after the loop over all faces, starting
from the empty maps of a newly constructed solver. -/
def PrecomputeNeighbors (s : ArapSolver K) : Nat → List Nat :=
  (List.range s.face_num).foldl (neighborsFace s) (fun _ => [])

/-- Body of the neighbour loop of the system matrix (lines 70-75). -/
def lbNeighbor (s : ArapSolver K) (i pos : Nat) (lb : SparseMatrix K) (neighbor_pos : Nat) :
    SparseMatrix K :=
  let weight := s.weight_ pos neighbor_pos
  let lb := coeffRefAdd lb i i weight
  if (s.vertex_info_ neighbor_pos).type = VertexType.Free then
    coeffRefAdd lb i (s.vertex_info_ neighbor_pos).pos (-weight)
  else lb

/-- Body of the row loop of the system matrix (lines 65-76). -/
def lbRow (s : ArapSolver K) (lb : SparseMatrix K) (i : Nat) : SparseMatrix K :=
  let pos := s.free_.getD i 0
  (s.neighbors_ pos).foldl (lbNeighbor s i pos) lb

/-- Precompute, lines 61-77: lb_operator_ built from weight_ and neighbors_ of
the state, starting from the zero matrix left by resize. -/
def PrecomputeLbOperator (s : ArapSolver K) : SparseMatrix K :=
  (List.range s.free_.length).foldl (lbRow s) (fun _ _ => 0)

/-- Precompute, lines 21-78: the solver after the three loops, before the
factorisation. -/
def PrecomputeTables (sqrt : K → K) (s : ArapSolver K) : ArapSolver K :=
  let s := { s with weight_ := PrecomputeWeight sqrt s }
  let s := { s with neighbors_ := PrecomputeNeighbors s }
  { s with lb_operator_ := PrecomputeLbOperator s }

/-- ArapSolver::Precompute. -/
def Precompute (sqrt : K → K) (lu : SparseLU K) (s : ArapSolver K) : Outcome (ArapSolver K) :=
  let s := PrecomputeTables sqrt s
  match lu s.free_.length s.lb_operator_ with
  | none => Outcome.exited
  | some h => Outcome.returned { s with solver_ := h }

/-- The accumulation of edge_product[i] over the neighbours of i
(lines 158-165 and 188-195). -/
def edgeProductAt (s : ArapSolver K) (i : Nat) : Matrix3 K :=
  (s.neighbors_ i).foldl
    (fun acc j =>
      let weight := s.weight_ i j
      let edge : Vector3 K := s.vertices_ i - s.vertices_ j
      let edge_update : Vector3 K := s.vertices_updated_ i - s.vertices_updated_ j
      acc + weight • Matrix.vecMulVec edge edge_update)
    0

/-- The vector edge_product after the loop over all vertices. -/
def edgeProduct (s : ArapSolver K) : List (Matrix3 K) :=
  (List.range s.vertex_num).map (edgeProductAt s)

/-- The slice A of SolvePreprocess (line 116): all rows, the columns free_. -/
def sliceFree (s : ArapSolver K) : SparseMatrix K :=
  fun r c => s.weight_ r (s.free_.getD c 0)

/-- The slice B of SolvePreprocess (line 117): all rows, the columns fixed_. -/
def sliceFixed (s : ArapSolver K) : SparseMatrix K :=
  fun r c => s.weight_ r (s.fixed_.getD c 0)

/-- The matrix left = A' * A of SolvePreprocess (line 121). -/
def naiveLeft (s : ArapSolver K) : SparseMatrix K :=
  fun i j => ∑ r in Finset.range s.vertex_num, sliceFree s r i * sliceFree s r j

/-- The vector b = weight_ * p_c - B * y_c of SolvePreprocess (line 131). -/
def naiveB (s : ArapSolver K) (c : Fin 3) : Nat → K :=
  fun r => (∑ k in Finset.range s.vertex_num, s.weight_ r k * s.vertices_ k c)
    - ∑ k in Finset.range s.fixed_.length, sliceFixed s r k * s.fixed_vertices_ k c

/-- The vector right = A' * b of SolvePreprocess (line 132). -/
def naiveRight (s : ArapSolver K) (c : Fin 3) : Nat → K :=
  fun i => ∑ r in Finset.range s.vertex_num, sliceFree s r i * naiveB s c r

/-- The residual (left * x - right).squaredNorm() of SolvePreprocess (line 139). -/
def naiveResidual (s : ArapSolver K) (c : Fin 3) (x : Nat → K) : K :=
  ∑ i in Finset.range s.free_.length,
    ((∑ j in Finset.range s.free_.length, naiveLeft s i j * x j) - naiveRight s c i) ^ 2

/-- The write-back loop of one coordinate (lines 144-146). -/
def writeBackColumn (free : List Nat) (c : Fin 3) (x : Nat → K) (vu : MatrixX3 K) :
    MatrixX3 K :=
  (List.range free.length).foldl
    (fun vu i => Function.update vu (free.getD i 0) (Function.update (vu (free.getD i 0)) c (x i)))
    vu

/-- How the coordinate loop of SolvePreprocess (lines 130-147) ends. -/
inductive ColumnLoop (K : Type) where
  /-- exit(EXIT_FAILURE) at line 136 -/
  | exited : ColumnLoop K
  /-- The return at line 141, with vertices_updated_ as it is then. -/
  | returnedEarly : MatrixX3 K → ColumnLoop K
  /-- The loop ran through all coordinates. -/
  | completed : MatrixX3 K → ColumnLoop K

/-- The coordinate loop of SolvePreprocess (lines 130-147) over the
coordinates still to do. -/
def naiveColumns (s : ArapSolver K) (naive_lap_solver : LUHandle K) :
    List (Fin 3) → MatrixX3 K → ColumnLoop K
  | [], vu => ColumnLoop.completed vu
  | c :: rest, vu =>
    match naive_lap_solver.solveVec (naiveRight s c) with
    | none => ColumnLoop.exited
    | some x =>
      if naiveResidual s c x > kMatrixDiffThreshold then ColumnLoop.returnedEarly vu
      else naiveColumns s naive_lap_solver rest (writeBackColumn s.free_ c x vu)

/-- The write-back of the fixed rows (lines 150-152). -/
def writeBackFixed (fixed : List Nat) (fixed_vertices : MatrixX3 K) (vu : MatrixX3 K) :
    MatrixX3 K :=
  (List.range fixed.length).foldl
    (fun vu i => Function.update vu (fixed.getD i 0) (fixed_vertices i))
    vu

/-- ArapSolver::SolvePreprocess, with dims = vertices_.cols() = 3.  The resize
of vertices_updated_ (line 106) keeps the coefficients when the size is
unchanged and leaves them unspecified otherwise; the coefficients of the
incoming state stand for both. -/
def SolvePreprocess (lu : SparseLU K) (polar : Matrix3 K → Matrix3 K) (s : ArapSolver K)
    (fixed_vertices : MatrixX3 K) : Outcome (ArapSolver K) :=
  let s := { s with fixed_vertices_ := fixed_vertices }
  match lu s.free_.length (naiveLeft s) with
  | none => Outcome.exited
  | some naive_lap_solver =>
    match naiveColumns s naive_lap_solver (List.finRange 3) s.vertices_updated_ with
    | ColumnLoop.exited => Outcome.exited
    | ColumnLoop.returnedEarly vu => Outcome.returned { s with vertices_updated_ := vu }
    | ColumnLoop.completed vu =>
      let s := { s with vertices_updated_ := writeBackFixed s.fixed_ s.fixed_vertices_ vu }
      Outcome.returned
        { s with rotations_ := (edgeProduct s).map (fun e => (polar e).transpose) }

/-- Step 1 of SolveOneIteration (lines 183-201): the rotations.  A write
rotations_[v] beyond the size of rotations_ is undefined in the source and
leaves the list as it is here. -/
def fitRotations (polar : Matrix3 K → Matrix3 K) (s : ArapSolver K) : List (Matrix3 K) :=
  (List.range s.vertex_num).foldl
    (fun rot v => rot.set v (polar ((edgeProduct s).getD v 0)).transpose)
    s.rotations_

/-- Body of the neighbour loop of step 2 (lines 210-218). -/
def rhsNeighbor (s : ArapSolver K) (i_pos : Nat) (row : Vector3 K) (j_pos : Nat) : Vector3 K :=
  let weight := s.weight_ i_pos j_pos
  let vec : Vector3 K :=
    Matrix.mulVec ((weight / 2) • (s.rotations_.getD i_pos 0 + s.rotations_.getD j_pos 0))
      (s.vertices_ i_pos - s.vertices_ j_pos)
  let row := row + vec
  if (s.vertex_info_ j_pos).type = VertexType.Fixed then
    row + weight • s.vertices_updated_ j_pos
  else row

/-- Step 2 of SolveOneIteration (lines 206-220): the right-hand side; rows
beyond free_num do not exist and read as zero. -/
def buildRhs (s : ArapSolver K) : MatrixX3 K :=
  fun i =>
    if i < s.free_.length then
      (s.neighbors_ (s.free_.getD i 0)).foldl (rhsNeighbor s (s.free_.getD i 0)) 0
    else 0

/-- The write-back loop of SolveOneIteration (lines 227-230). -/
def writeBackFree (free : List Nat) (solution : MatrixX3 K) (vu : MatrixX3 K) : MatrixX3 K :=
  (List.range free.length).foldl
    (fun vu i => Function.update vu (free.getD i 0) (solution i))
    vu

/-- ArapSolver::SolveOneIteration. -/
def SolveOneIteration (polar : Matrix3 K → Matrix3 K) (s : ArapSolver K) :
    Outcome (ArapSolver K) :=
  let s := { s with rotations_ := fitRotations polar s }
  let rhs := buildRhs s
  match s.solver_.solveMat rhs with
  | none => Outcome.exited
  | some solution =>
    Outcome.returned
      { s with vertices_updated_ := writeBackFree s.free_ solution s.vertices_updated_ }

/-- A number of SolveOneIteration calls in a row; exited as soon as one call
exits. -/
def iterate (polar : Matrix3 K → Matrix3 K) : Nat → ArapSolver K → Outcome (ArapSolver K)
  | 0, s => Outcome.returned s
  | n + 1, s =>
    match SolveOneIteration polar s with
    | Outcome.exited => Outcome.exited
    | Outcome.returned t => iterate polar n t

/-- The energy of one edge (lines 276-282). -/
def edgeEnergy (s : ArapSolver K) (i j : Nat) : K :=
  let weight := s.weight_ i j
  let vec : Vector3 K :=
    (s.vertices_updated_ i - s.vertices_updated_ j)
      - Matrix.mulVec (s.rotations_.getD i 0) (s.vertices_ i - s.vertices_ j)
  weight * squaredNorm vec

/-- The accumulated total of ComputeEnergy (lines 271-285). -/
def energyTotal (s : ArapSolver K) : K :=
  (List.range s.vertex_num).foldl
    (fun total i => (s.neighbors_ i).foldl (fun total j => total + edgeEnergy s i j) total)
    0

/-- ArapSolver::ComputeEnergy, a const member: the call returns the solver it
was called on together with the energy table. -/
def ComputeEnergy (s : ArapSolver K) : ArapSolver K × Energy K :=
  (s, Energy.AddEnergyType ⟨[]⟩ "Total" (energyTotal s))

/-- What one pass of the edge body adds to entry (a, b) of weight_. -/
def edgeContrib (first second : Nat) (half_cot : K) (a b : Nat) : K :=
  (if a = first ∧ b = second then half_cot else 0)
    + (if a = second ∧ b = first then half_cot else 0)
    - (if a = first ∧ b = first then half_cot else 0)
    - (if a = second ∧ b = second then half_cot else 0)

/-- What the three edges of face f add to entry (a, b) of weight_. -/
def faceContrib (sqrt : K → K) (s : ArapSolver K) (f a b : Nat) : K :=
  ((List.finRange 3).map (fun i =>
    edgeContrib (s.faces_ f (index_map i 0)) (s.faces_ f (index_map i 1))
      (ComputeCotangent sqrt s f i / 2) a b)).sum

/-- Every face index is a vertex index. -/
def FacesInRange (s : ArapSolver K) : Prop :=
  ∀ f, f < s.face_num → ∀ k : Fin 3, s.faces_ f k < s.vertex_num

instance (s : ArapSolver K) : Decidable (FacesInRange s) := by
  unfold FacesInRange
  infer_instance

/-- A solver as constructed, before Precompute: the mesh and the vertex roles
are set, the containers filled later are empty. -/
def newSolver (vertex_num : Nat) (vertices : MatrixX3 K) (face_num : Nat)
    (faces : Nat → Fin 3 → Nat) (fixed free : List Nat) (info : Nat → VertexInfo) :
    ArapSolver K :=
  { vertex_num := vertex_num, vertices_ := vertices, face_num := face_num, faces_ := faces,
    fixed_ := fixed, free_ := free, vertex_info_ := info,
    weight_ := fun _ _ => 0, neighbors_ := fun _ => [], lb_operator_ := fun _ _ => 0,
    solver_ := ⟨fun _ => none, fun _ => none⟩,
    fixed_vertices_ := fun _ _ => 0, vertices_updated_ := vertices, rotations_ := [] }

/-- The right triangle (0,0,0), (1,0,0), (0,1,0) as a one-face mesh; vertex 0
is free, vertices 1 and 2 are fixed. -/
def triangleMesh (K : Type) [LinearOrderedField K] : ArapSolver K :=
  newSolver 3
    (fun v => if v = 0 then ![0, 0, 0] else if v = 1 then ![1, 0, 0] else ![0, 1, 0])
    1 (fun _ k => k.val) [1, 2] [0]
    (fun v => if v = 0 then ⟨VertexType.Free, 0⟩ else ⟨VertexType.Fixed, v - 1⟩)

/-- Every face lists three different vertex indices. -/
def FacesDistinct (s : ArapSolver K) : Prop :=
  ∀ f, f < s.face_num →
    s.faces_ f 0 ≠ s.faces_ f 1 ∧ s.faces_ f 1 ≠ s.faces_ f 2 ∧ s.faces_ f 0 ≠ s.faces_ f 2

instance (s : ArapSolver K) : Decidable (FacesDistinct s) := by
  unfold FacesDistinct
  infer_instance

/-- Every face has positive area. -/
def FacesPositiveArea (sqrt : K → K) (s : ArapSolver K) : Prop :=
  ∀ f, f < s.face_num → 0 < faceArea sqrt s f

instance (sqrt : K → K) (s : ArapSolver K) : Decidable (FacesPositiveArea sqrt s) := by
  unfold FacesPositiveArea
  infer_instance

/-- Cotangent of the interior angle of face f at its corner k, as cos / sin: the
dot product of the two edge vectors leaving the corner over the norm of their
cross product. -/
def cornerCot (sqrt : K → K) (s : ArapSolver K) (f : Nat) (k : Fin 3) : K :=
  dot (s.vertices_ (s.faces_ f (k + 1)) - s.vertices_ (s.faces_ f k))
      (s.vertices_ (s.faces_ f (k + 2)) - s.vertices_ (s.faces_ f k))
    / norm sqrt (cross
      (s.vertices_ (s.faces_ f (k + 1)) - s.vertices_ (s.faces_ f k))
      (s.vertices_ (s.faces_ f (k + 2)) - s.vertices_ (s.faces_ f k)))

/-- Face f lists vertex v at one of its corners. -/
def faceContains (s : ArapSolver K) (f v : Nat) : Prop := ∃ k : Fin 3, s.faces_ f k = v

instance (s : ArapSolver K) (f v : Nat) : Decidable (faceContains s f v) := by
  unfold faceContains
  infer_instance

/-- The corner of face f whose vertex is neither i nor j: the third vertex of
a face that contains the edge between i and j. -/
def thirdCorner (s : ArapSolver K) (f i j : Nat) : Fin 3 :=
  if s.faces_ f 0 ≠ i ∧ s.faces_ f 0 ≠ j then 0
  else if s.faces_ f 1 ≠ i ∧ s.faces_ f 1 ≠ j then 1
  else 2

/-- The cotangent weight of the pair (i, j) in the words of the specification:
the sum, over the faces that contain both i and j, of half the cotangent of the
angle at the third vertex. -/
def cotangentWeight (sqrt : K → K) (s : ArapSolver K) (i j : Nat) : K :=
  ∑ f in (Finset.range s.face_num).filter (fun f => faceContains s f i ∧ faceContains s f j),
    cornerCot sqrt s f (thirdCorner s f i j) / 2

/-- What one pass of the neighbour body of the system matrix adds to entry
(a, b) of lb_operator_. -/
def lbNeighborContrib (s : ArapSolver K) (i pos neighbor_pos a b : Nat) : K :=
  (if a = i ∧ b = i then s.weight_ pos neighbor_pos else 0)
    + (if (s.vertex_info_ neighbor_pos).type = VertexType.Free
          ∧ a = i ∧ b = (s.vertex_info_ neighbor_pos).pos
       then - s.weight_ pos neighbor_pos else 0)

/-- The roles in vertex_info_ agree with free_: the i-th entry of free_ is Free
with compact position i, and every vertex that free_ does not list is Fixed. -/
def VertexInfoConsistent (s : ArapSolver K) : Prop :=
  (∀ i, i < s.free_.length → s.vertex_info_ (s.free_.getD i 0) = ⟨VertexType.Free, i⟩) ∧
  (∀ v, v < s.vertex_num → v ∉ s.free_ → (s.vertex_info_ v).type = VertexType.Fixed)

instance (s : ArapSolver K) : Decidable (VertexInfoConsistent s) := by
  unfold VertexInfoConsistent
  infer_instance

/-- The two ways in which the edge opposite corner k of face f joins u to x. -/
def edgeJoins (s : ArapSolver K) (f : Nat) (k : Fin 3) (u x : Nat) : Prop :=
  (u = s.faces_ f (index_map k 0) ∧ x = s.faces_ f (index_map k 1)) ∨
  (u = s.faces_ f (index_map k 1) ∧ x = s.faces_ f (index_map k 0))

instance (s : ArapSolver K) (f : Nat) (k : Fin 3) (u x : Nat) :
    Decidable (edgeJoins s f k u x) := by
  unfold edgeJoins
  infer_instance

/-- The unit square (0,0,0), (1,0,0), (1,1,0), (0,1,0) cut into the faces
(0,1,2) and (0,2,3); vertices 0 and 1 are fixed, vertices 2 and 3 are free. -/
def squareMesh (K : Type) [LinearOrderedField K] : ArapSolver K :=
  newSolver 4
    (fun v => if v = 0 then ![0, 0, 0] else if v = 1 then ![1, 0, 0]
      else if v = 2 then ![1, 1, 0] else ![0, 1, 0])
    2 (fun f k => if f = 0 then k.val else if k = 0 then 0 else k.val + 1) [0, 1] [2, 3]
    (fun v => if v < 2 then ⟨VertexType.Fixed, v⟩ else ⟨VertexType.Free, v - 2⟩)

/-- Exact solution of a 2 x 2 system by Cramer's rule, as a factorisation
handle. -/
def cramerHandle (m : SparseMatrix K) : LUHandle K :=
  let det := m 0 0 * m 1 1 - m 0 1 * m 1 0
  ⟨fun b => some (fun i =>
      if i = 0 then (m 1 1 * b 0 - m 0 1 * b 1) / det
      else if i = 1 then (m 0 0 * b 1 - m 1 0 * b 0) / det else 0),
   fun b => some (fun i c =>
      if i = 0 then (m 1 1 * b 0 c - m 0 1 * b 1 c) / det
      else if i = 1 then (m 0 0 * b 1 c - m 1 0 * b 0 c) / det else 0)⟩

/-- A sparse LU for systems of size 2: it fails on a singular matrix and on
every other size. -/
def cramerLU : SparseLU K :=
  fun n m => if n = 2 ∧ m 0 0 * m 1 1 - m 0 1 * m 1 0 ≠ 0 then some (cramerHandle m) else none

/-- The square mesh with a fifth vertex at the position of vertex 0 and the
zero-area face (0, 1, 4) added; vertices 0, 1 and 4 are fixed, 2 and 3 free. -/
def degenerateMesh (K : Type) [LinearOrderedField K] : ArapSolver K :=
  newSolver 5
    (fun v => if v = 0 then ![0, 0, 0] else if v = 1 then ![1, 0, 0]
      else if v = 2 then ![1, 1, 0] else if v = 3 then ![0, 1, 0] else ![0, 0, 0])
    3 (fun f k => if f = 0 then k.val else if f = 1 then (if k = 0 then 0 else k.val + 1)
        else (if k = 2 then 4 else k.val))
    [0, 1, 4] [2, 3]
    (fun v => if v < 2 then ⟨VertexType.Fixed, v⟩ else if v < 4 then ⟨VertexType.Free, v - 2⟩
      else ⟨VertexType.Fixed, 2⟩)

/-- The square mesh after the loops of Precompute, with the exact solver of its
system matrix as factorisation handle and identity rotations. -/
def squareSolver (sqrt : K → K) : ArapSolver K :=
  { PrecomputeTables sqrt (squareMesh K) with
    solver_ := cramerHandle (PrecomputeTables sqrt (squareMesh K)).lb_operator_,
    rotations_ := List.replicate 4 1 }

/-- A factorisation handle whose solutions are those of h displaced by err in
every coefficient: a solve with numerical error err. -/
def displaced (err : K) (h : LUHandle K) : LUHandle K :=
  ⟨fun b => (h.solveVec b).map (fun x i => x i + err),
   fun b => (h.solveMat b).map (fun x i c => x i c + err)⟩

/-- The sparse LU cramerLU with solutions displaced by err. -/
def inexactLU (err : K) : SparseLU K :=
  fun n m => (cramerLU n m).map (displaced err)

/-- Targets for the fixed vertices 0 and 1 of the square mesh: vertex 0 stays
at (0,0,0), vertex 1 moves from (1,0,0) to (2,0,0). -/
def squareTargets (K : Type) [LinearOrderedField K] : MatrixX3 K :=
  fun i => if i = 0 then ![0, 0, 0] else ![2, 0, 0]

/-- Some face lists i and j at two different corner slots. -/
def sharesEdge (s : ArapSolver K) (i j : Nat) : Prop :=
  ∃ f, f < s.face_num ∧ ∃ a b : Fin 3, a ≠ b ∧ s.faces_ f a = i ∧ s.faces_ f b = j

instance (s : ArapSolver K) (i j : Nat) : Decidable (sharesEdge s i j) := by
  unfold sharesEdge
  infer_instance

/-- Every key of every neighbour map is a vertex index. -/
def NeighborsInRange (s : ArapSolver K) : Prop :=
  ∀ i, i < s.vertex_num → ∀ j, j ∈ s.neighbors_ i → j < s.vertex_num

instance (s : ArapSolver K) : Decidable (NeighborsInRange s) := by
  unfold NeighborsInRange
  infer_instance

/-- The square solver with every vertex moved by the translation t. -/
def squareTranslated (sqrt : K → K) (t : Vector3 K) : ArapSolver K :=
  { squareSolver sqrt with
    vertices_updated_ := fun v => Matrix.mulVec 1 ((squareMesh K).vertices_ v) + t }

/-- The covariance matrix S_v of the rotation fit in the words of the
specification: the sum over the neighbours j of v of
weight_(v, j) * (p_v - p_j) * (p'_v - p'_j)^T. -/
def rotationCovariance (s : ArapSolver K) (v : Nat) : Matrix3 K :=
  ((s.neighbors_ v).map (fun j =>
    s.weight_ v j • Matrix.vecMulVec (s.vertices_ v - s.vertices_ j)
      (s.vertices_updated_ v - s.vertices_updated_ j))).sum

/-- The write-backs of the coordinates in cols, in that order, with x a the
solution of coordinate a. -/
def writeBackColumns (free : List Nat) (x : Fin 3 → Nat → K) (cols : List (Fin 3))
    (vu : MatrixX3 K) : MatrixX3 K :=
  cols.foldl (fun vu a => writeBackColumn free a (x a) vu) vu

/-- The product lb_operator_ * X of the system matrix with a table of
free_num rows. -/
def lbTimes (s : ArapSolver K) (X : MatrixX3 K) : MatrixX3 K :=
  fun i c => ∑ k in Finset.range s.free_.length, s.lb_operator_ i k * X k c

/-- The solve of solver_ is exact: what it returns for a right-hand side rhs is
a table X with lb_operator_ * X = rhs. -/
def SolverExact (s : ArapSolver K) : Prop :=
  ∀ rhs X, s.solver_.solveMat rhs = some X →
    ∀ i, i < s.free_.length → ∀ c, lbTimes s X i c = rhs i c

/-- The system matrix is non-singular: lb_operator_ * Y = lb_operator_ * Z only
for Y = Z. -/
def LbNonsingular (s : ArapSolver K) : Prop :=
  ∀ Y Z : MatrixX3 K,
    (∀ i, i < s.free_.length → ∀ c, lbTimes s Y i c = lbTimes s Z i c) →
    ∀ i, i < s.free_.length → ∀ c, Y i c = Z i c

/-- Every entry of free_ is a vertex index. -/
def FreeInRange (s : ArapSolver K) : Prop := ∀ v, v ∈ s.free_ → v < s.vertex_num

instance (s : ArapSolver K) : Decidable (FreeInRange s) := by
  unfold FreeInRange
  infer_instance

/-- What the neighbour j_pos adds to the row of the right-hand side of the free
vertex i_pos (lines 210-218). -/
def rhsContrib (s : ArapSolver K) (i_pos j_pos : Nat) : Vector3 K :=
  Matrix.mulVec ((s.weight_ i_pos j_pos / 2)
      • (s.rotations_.getD i_pos 0 + s.rotations_.getD j_pos 0))
    (s.vertices_ i_pos - s.vertices_ j_pos)
  + (if (s.vertex_info_ j_pos).type = VertexType.Fixed
     then s.weight_ i_pos j_pos • s.vertices_updated_ j_pos else 0)

/-- The index vectors free_ and fixed_ list every vertex index exactly once
between them. -/
def PartitionsVertices (s : ArapSolver K) : Prop :=
  (s.free_ ++ s.fixed_).Perm (List.range s.vertex_num)

instance (s : ArapSolver K) : Decidable (PartitionsVertices s) := by
  unfold PartitionsVertices
  infer_instance

/-- The candidate solution of coordinate c for a mesh translated by t: the
original coordinate of the free vertex plus t(c). -/
def translatedGuess (s : ArapSolver K) (t : Vector3 K) (c : Fin 3) : Nat → K :=
  fun i => s.vertices_ (s.free_.getD i 0) c + t c

/-- The product left * x of the normal-equations matrix with a vector of
free_num entries. -/
def naiveLeftTimes (s : ArapSolver K) (x : Nat → K) : Nat → K :=
  fun i => ∑ j in Finset.range s.free_.length, naiveLeft s i j * x j

/-- The quadratic form x^T * lb_operator_ * x over the free indices. -/
def quadForm (s : ArapSolver K) (x : Nat → K) : K :=
  ∑ i in Finset.range s.free_.length, ∑ j in Finset.range s.free_.length,
    x i * s.lb_operator_ i j * x j

/-- The obtuse triangle (0,0,0), (1,0,0), (-1,1,0) as a one-face mesh (the angle
at vertex 0 is obtuse); vertex 0 is fixed, vertices 1 and 2 are free. -/
def obtuseMesh (K : Type) [LinearOrderedField K] : ArapSolver K :=
  newSolver 3
    (fun v => if v = 0 then ![0, 0, 0] else if v = 1 then ![1, 0, 0] else ![-1, 1, 0])
    1 (fun _ k => k.val) [0] [1, 2]
    (fun v => if v = 0 then ⟨VertexType.Fixed, 0⟩ else ⟨VertexType.Free, v - 1⟩)

/-- The quadratic form of x in the matrix with entries g (p i) (p j). -/
def pullForm (x : Nat → K) (p : Nat → Nat) (n : Nat) (g : Nat → Nat → K) : K :=
  ∑ i in Finset.range n, ∑ j in Finset.range n, x i * g (p i) (p j) * x j

/-- The sum of the entries of x that belong to the vertex v. -/
def vertexValue (x : Nat → K) (p : Nat → Nat) (n : Nat) (v : Nat) : K :=
  ∑ i in Finset.range n, if p i = v then x i else 0

/-- Quotient of two doubles with the division by zero of the source kept:
`none` stands for a non-finite double (NaN or an infinity), which is what
x / 0 is. -/
def divExt (x y : K) : Option K := if y = 0 then none else some (x / y)

/-- Sum of two doubles that may be non-finite: a non-finite operand gives a
non-finite result. -/
def addExt (a b : Option K) : Option K :=
  match a, b with
  | some x, some y => some (x + y)
  | _, _ => none

/-- Difference of two doubles that may be non-finite. -/
def subExt (a b : Option K) : Option K :=
  match a, b with
  | some x, some y => some (x - y)
  | _, _ => none

/-- Half of a double that may be non-finite. -/
def halfExt (a : Option K) : Option K :=
  match a with
  | some x => some (x / 2)
  | none => none

/-- ArapSolver::ComputeCotangent with the three divisions by four_area as the
source performs them: for four_area = 0 every component is non-finite. -/
def ComputeCotangentExt (sqrt : K → K) (s : ArapSolver K) (face_id : Nat) : Fin 3 → Option K :=
  let A : Vector3 K := s.vertices_ (s.faces_ face_id 0)
  let B : Vector3 K := s.vertices_ (s.faces_ face_id 1)
  let C : Vector3 K := s.vertices_ (s.faces_ face_id 2)
  let a_squared := squaredNorm (B - C)
  let b_squared := squaredNorm (C - A)
  let c_squared := squaredNorm (A - B)
  let area := norm sqrt (cross (B - A) (C - A)) / 2
  let four_area := 4 * area
  ![divExt (b_squared + c_squared - a_squared) four_area,
    divExt (c_squared + a_squared - b_squared) four_area,
    divExt (a_squared + b_squared - c_squared) four_area]

/-- The sparse update m.coeffRef(r, c) += v on doubles that may be non-finite. -/
def coeffRefAddExt (m : Nat → Nat → Option K) (r c : Nat) (v : Option K) :
    Nat → Nat → Option K :=
  fun a b => if a = r ∧ b = c then addExt (m a b) v else m a b

/-- The sparse update m.coeffRef(r, c) -= v on doubles that may be non-finite. -/
def coeffRefSubExt (m : Nat → Nat → Option K) (r c : Nat) (v : Option K) :
    Nat → Nat → Option K :=
  fun a b => if a = r ∧ b = c then subExt (m a b) v else m a b

/-- Body of the inner weight loop (lines 39-46) on doubles that may be
non-finite. -/
def weightEdgeExt (w : Nat → Nat → Option K) (first second : Nat) (half_cot : Option K) :
    Nat → Nat → Option K :=
  let w := coeffRefAddExt w first second half_cot
  let w := coeffRefAddExt w second first half_cot
  let w := coeffRefSubExt w first first half_cot
  coeffRefSubExt w second second half_cot

/-- Body of the outer weight loop (lines 32-47) on doubles that may be
non-finite. -/
def weightFaceExt (sqrt : K → K) (s : ArapSolver K) (w : Nat → Nat → Option K) (f : Nat) :
    Nat → Nat → Option K :=
  let cotangent := ComputeCotangentExt sqrt s f
  (List.finRange 3).foldl
    (fun w i =>
      let first := s.faces_ f (index_map i 0)
      let second := s.faces_ f (index_map i 1)
      let half_cot := halfExt (cotangent i)
      weightEdgeExt w first second half_cot)
    w

/-- Precompute, lines 25-48, on doubles that may be non-finite: weight_ after
the loop over all faces, starting from the zero matrix. -/
def PrecomputeWeightExt (sqrt : K → K) (s : ArapSolver K) : Nat → Nat → Option K :=
  (List.range s.face_num).foldl (weightFaceExt sqrt s) (fun _ _ => some 0)

/-- The sum of row i of weight_ over all columns, the diagonal included, on
doubles that may be non-finite. -/
def rowSumExt (sqrt : K → K) (s : ArapSolver K) (i : Nat) : Option K :=
  (List.range s.vertex_num).foldl (fun acc j => addExt acc (PrecomputeWeightExt sqrt s i j))
    (some 0)

/-- Targets of the fixed vertices for a mesh translated by t: row i is the
original position of fixed_(i) plus t. -/
def translatedTargets (s : ArapSolver K) (t : Vector3 K) : MatrixX3 K :=
  fun i => s.vertices_ (s.fixed_.getD i 0) + t

end Defs

section Theorems

variable {K : Type} [LinearOrderedField K]

theorem weightEdge_apply (w : SparseMatrix K) (first second : Nat) (half_cot : K) (a b : Nat) :
    weightEdge w first second half_cot a b = w a b + edgeContrib first second half_cot a b := by
  unfold weightEdge coeffRefAdd edgeContrib
  split_ifs <;> ring

theorem foldl_sparse_add {α : Type} (step : SparseMatrix K → α → SparseMatrix K)
    (g : α → Nat → Nat → K) (hstep : ∀ w x a b, step w x a b = w a b + g x a b)
    (l : List α) (w0 : SparseMatrix K) (a b : Nat) :
    (l.foldl step w0) a b = w0 a b + (l.map (fun x => g x a b)).sum := by
  induction l generalizing w0 with
  | nil => simp
  | cons x xs ih =>
    rw [List.foldl_cons, ih, hstep, List.map_cons, List.sum_cons]
    ring

theorem weightFace_apply (sqrt : K → K) (s : ArapSolver K) (w : SparseMatrix K) (f a b : Nat) :
    weightFace sqrt s w f a b = w a b + faceContrib sqrt s f a b := by
  unfold weightFace faceContrib
  exact foldl_sparse_add _
    (fun i a b => edgeContrib (s.faces_ f (index_map i 0)) (s.faces_ f (index_map i 1))
      (ComputeCotangent sqrt s f i / 2) a b)
    (fun w i a b => weightEdge_apply w _ _ _ a b) _ w a b

theorem PrecomputeWeight_apply (sqrt : K → K) (s : ArapSolver K) (a b : Nat) :
    PrecomputeWeight sqrt s a b
      = ((List.range s.face_num).map (fun f => faceContrib sqrt s f a b)).sum := by
  unfold PrecomputeWeight
  rw [foldl_sparse_add _ (faceContrib sqrt s) (weightFace_apply sqrt s)]
  simp

theorem edgeContrib_symm (first second : Nat) (half_cot : K) (a b : Nat) :
    edgeContrib first second half_cot a b = edgeContrib first second half_cot b a := by
  unfold edgeContrib
  have e1 : (b = first ∧ a = second) = (a = second ∧ b = first) := by rw [and_comm]
  have e2 : (b = second ∧ a = first) = (a = first ∧ b = second) := by rw [and_comm]
  have e3 : (b = first ∧ a = first) = (a = first ∧ b = first) := by rw [and_comm]
  have e4 : (b = second ∧ a = second) = (a = second ∧ b = second) := by rw [and_comm]
  simp only [e1, e2, e3, e4]
  ring

theorem edgeContrib_rowSum (n first second : Nat) (half_cot : K) (a : Nat)
    (hf : first < n) (hs : second < n) :
    ∑ b in Finset.range n, edgeContrib first second half_cot a b = 0 := by
  unfold edgeContrib
  have key : ∀ p q : Nat, q < n →
      ∑ b in Finset.range n, (if a = p ∧ b = q then half_cot else 0)
        = if a = p then half_cot else 0 := by
    intro p q hq
    by_cases h : a = p
    · simp [h, Finset.sum_ite_eq', hq]
    · simp [h]
  rw [Finset.sum_sub_distrib, Finset.sum_sub_distrib, Finset.sum_add_distrib,
    key first second hs, key second first hf, key first first hf, key second second hs]
  ring

theorem sum_range_list_sum {α : Type} (l : List α) (g : α → Nat → K) (n : Nat) :
    ∑ b in Finset.range n, (l.map (fun x => g x b)).sum
      = (l.map (fun x => ∑ b in Finset.range n, g x b)).sum := by
  induction l with
  | nil => simp
  | cons x xs ih => simp [Finset.sum_add_distrib, ih]

theorem faceContrib_rowSum (sqrt : K → K) (s : ArapSolver K) (h : FacesInRange s)
    (f : Nat) (hf : f < s.face_num) (a : Nat) :
    ∑ b in Finset.range s.vertex_num, faceContrib sqrt s f a b = 0 := by
  unfold faceContrib
  rw [sum_range_list_sum (List.finRange 3)
    (fun i b => edgeContrib (s.faces_ f (index_map i 0)) (s.faces_ f (index_map i 1))
      (ComputeCotangent sqrt s f i / 2) a b)]
  apply List.sum_eq_zero
  intro x hx
  obtain ⟨i, _, rfl⟩ := List.mem_map.mp hx
  exact edgeContrib_rowSum _ _ _ _ _ (h f hf _) (h f hf _)

theorem PrecomputeWeight_rowSum (sqrt : K → K) (s : ArapSolver K) (h : FacesInRange s)
    (i : Nat) : ∑ j in Finset.range s.vertex_num, PrecomputeWeight sqrt s i j = 0 := by
  simp only [PrecomputeWeight_apply]
  rw [sum_range_list_sum (List.range s.face_num) (fun f b => faceContrib sqrt s f i b)]
  apply List.sum_eq_zero
  intro x hx
  obtain ⟨f, hf, rfl⟩ := List.mem_map.mp hx
  exact faceContrib_rowSum sqrt s h f (List.mem_range.mp hf) i

theorem PrecomputeWeight_symm (sqrt : K → K) (s : ArapSolver K) (i j : Nat) :
    PrecomputeWeight sqrt s i j = PrecomputeWeight sqrt s j i := by
  simp only [PrecomputeWeight_apply, faceContrib]
  congr 1
  apply List.map_congr_left
  intro f _
  congr 1
  apply List.map_congr_left
  intro k _
  exact edgeContrib_symm _ _ _ _ _

/-- C8: after the weight loop of Precompute weight_ is symmetric,
weight_(i, j) = weight_(j, i) for all i and j. -/
theorem C8_weight_symmetric (sqrt : K → K) (s : ArapSolver K) (i j : Nat) :
    PrecomputeWeight sqrt s i j = PrecomputeWeight sqrt s j i :=
  PrecomputeWeight_symm sqrt s i j

theorem squaredNorm_cross_at_B (A B C : Vector3 K) :
    squaredNorm (cross (C - B) (A - B)) = squaredNorm (cross (B - A) (C - A)) := by
  simp only [squaredNorm, cross, Pi.sub_apply, Matrix.cons_val_zero, Matrix.cons_val_one,
    Matrix.head_cons, Matrix.cons_val_two, Matrix.tail_cons]
  ring

theorem squaredNorm_cross_at_C (A B C : Vector3 K) :
    squaredNorm (cross (A - C) (B - C)) = squaredNorm (cross (B - A) (C - A)) := by
  simp only [squaredNorm, cross, Pi.sub_apply, Matrix.cons_val_zero, Matrix.cons_val_one,
    Matrix.head_cons, Matrix.cons_val_two, Matrix.tail_cons]
  ring

theorem ComputeCotangent_explicit (sqrt : K → K) (s : ArapSolver K) (face_id : Nat)
    (harea : 0 < faceArea sqrt s face_id) :
    ComputeCotangent sqrt s face_id 0
      = dot (s.vertices_ (s.faces_ face_id 1) - s.vertices_ (s.faces_ face_id 0))
            (s.vertices_ (s.faces_ face_id 2) - s.vertices_ (s.faces_ face_id 0))
        / norm sqrt (cross
            (s.vertices_ (s.faces_ face_id 1) - s.vertices_ (s.faces_ face_id 0))
            (s.vertices_ (s.faces_ face_id 2) - s.vertices_ (s.faces_ face_id 0))) ∧
    ComputeCotangent sqrt s face_id 1
      = dot (s.vertices_ (s.faces_ face_id 2) - s.vertices_ (s.faces_ face_id 1))
            (s.vertices_ (s.faces_ face_id 0) - s.vertices_ (s.faces_ face_id 1))
        / norm sqrt (cross
            (s.vertices_ (s.faces_ face_id 2) - s.vertices_ (s.faces_ face_id 1))
            (s.vertices_ (s.faces_ face_id 0) - s.vertices_ (s.faces_ face_id 1))) ∧
    ComputeCotangent sqrt s face_id 2
      = dot (s.vertices_ (s.faces_ face_id 0) - s.vertices_ (s.faces_ face_id 2))
            (s.vertices_ (s.faces_ face_id 1) - s.vertices_ (s.faces_ face_id 2))
        / norm sqrt (cross
            (s.vertices_ (s.faces_ face_id 0) - s.vertices_ (s.faces_ face_id 2))
            (s.vertices_ (s.faces_ face_id 1) - s.vertices_ (s.faces_ face_id 2))) := by
  generalize hA : s.vertices_ (s.faces_ face_id 0) = A
  generalize hB : s.vertices_ (s.faces_ face_id 1) = B
  generalize hC : s.vertices_ (s.faces_ face_id 2) = C
  have hn : 0 < sqrt (squaredNorm (cross (B - A) (C - A))) := by
    have h2 : 0 < norm sqrt (cross (B - A) (C - A)) / 2 := by
      simpa only [faceArea, hA, hB, hC] using harea
    unfold norm at h2
    linarith
  have hne : sqrt (squaredNorm (cross (B - A) (C - A))) ≠ 0 := ne_of_gt hn
  simp only [ComputeCotangent, hA, hB, hC, norm, Matrix.cons_val_zero, Matrix.cons_val_one,
    Matrix.head_cons, Matrix.cons_val_two, Matrix.tail_cons]
  rw [squaredNorm_cross_at_B A B C, squaredNorm_cross_at_C A B C]
  refine ⟨?_, ?_, ?_⟩ <;>
  · rw [div_eq_div_iff (by positivity) hne]
    simp only [squaredNorm, dot, Pi.sub_apply]
    ring

theorem ComputeCotangent_eq_cornerCot (sqrt : K → K) (s : ArapSolver K) (face_id : Nat)
    (harea : 0 < faceArea sqrt s face_id) (k : Fin 3) :
    ComputeCotangent sqrt s face_id k = cornerCot sqrt s face_id k := by
  obtain ⟨h0, h1, h2⟩ := ComputeCotangent_explicit sqrt s face_id harea
  fin_cases k
  · exact h0
  · exact h1
  · exact h2

/-- C2: for a face of positive area ComputeCotangent returns, at each corner,
the dot product of the two edge vectors leaving that corner divided by the norm
of their cross product (cos / sin of the interior angle). -/
theorem C2_cotangent_is_dot_over_cross (sqrt : K → K) (s : ArapSolver K) (face_id : Nat)
    (harea : 0 < faceArea sqrt s face_id) :
    ComputeCotangent sqrt s face_id 0
      = dot (s.vertices_ (s.faces_ face_id 1) - s.vertices_ (s.faces_ face_id 0))
            (s.vertices_ (s.faces_ face_id 2) - s.vertices_ (s.faces_ face_id 0))
        / norm sqrt (cross
            (s.vertices_ (s.faces_ face_id 1) - s.vertices_ (s.faces_ face_id 0))
            (s.vertices_ (s.faces_ face_id 2) - s.vertices_ (s.faces_ face_id 0))) ∧
    ComputeCotangent sqrt s face_id 1
      = dot (s.vertices_ (s.faces_ face_id 2) - s.vertices_ (s.faces_ face_id 1))
            (s.vertices_ (s.faces_ face_id 0) - s.vertices_ (s.faces_ face_id 1))
        / norm sqrt (cross
            (s.vertices_ (s.faces_ face_id 2) - s.vertices_ (s.faces_ face_id 1))
            (s.vertices_ (s.faces_ face_id 0) - s.vertices_ (s.faces_ face_id 1))) ∧
    ComputeCotangent sqrt s face_id 2
      = dot (s.vertices_ (s.faces_ face_id 0) - s.vertices_ (s.faces_ face_id 2))
            (s.vertices_ (s.faces_ face_id 1) - s.vertices_ (s.faces_ face_id 2))
        / norm sqrt (cross
            (s.vertices_ (s.faces_ face_id 0) - s.vertices_ (s.faces_ face_id 2))
            (s.vertices_ (s.faces_ face_id 1) - s.vertices_ (s.faces_ face_id 2))) :=
  ComputeCotangent_explicit sqrt s face_id harea

/-- C2 at the right triangle (0,0,0), (1,0,0), (0,1,0) with the real square
root: its area is positive. -/
theorem C2_cotangent_is_dot_over_cross_witness :
    0 < faceArea Real.sqrt (triangleMesh ℝ) 0 ∧
    ComputeCotangent Real.sqrt (triangleMesh ℝ) 0 0
      = dot ((triangleMesh ℝ).vertices_ ((triangleMesh ℝ).faces_ 0 1)
              - (triangleMesh ℝ).vertices_ ((triangleMesh ℝ).faces_ 0 0))
            ((triangleMesh ℝ).vertices_ ((triangleMesh ℝ).faces_ 0 2)
              - (triangleMesh ℝ).vertices_ ((triangleMesh ℝ).faces_ 0 0))
        / norm Real.sqrt (cross
            ((triangleMesh ℝ).vertices_ ((triangleMesh ℝ).faces_ 0 1)
              - (triangleMesh ℝ).vertices_ ((triangleMesh ℝ).faces_ 0 0))
            ((triangleMesh ℝ).vertices_ ((triangleMesh ℝ).faces_ 0 2)
              - (triangleMesh ℝ).vertices_ ((triangleMesh ℝ).faces_ 0 0))) := by
  have harea : 0 < faceArea Real.sqrt (triangleMesh ℝ) 0 := by
    simp [faceArea, norm, squaredNorm, cross, triangleMesh, newSolver]
  exact ⟨harea, (C2_cotangent_is_dot_over_cross Real.sqrt (triangleMesh ℝ) 0 harea).1⟩

theorem list_range_sum (g : Nat → K) (n : Nat) :
    ((List.range n).map g).sum = ∑ f in Finset.range n, g f := by
  induction n with
  | zero => simp
  | succ n ih => simp [List.range_succ, Finset.sum_range_succ, ih]

theorem faceContrib_expand (sqrt : K → K) (s : ArapSolver K) (f a b : Nat) :
    faceContrib sqrt s f a b
      = edgeContrib (s.faces_ f 1) (s.faces_ f 2) (ComputeCotangent sqrt s f 0 / 2) a b
        + edgeContrib (s.faces_ f 2) (s.faces_ f 0) (ComputeCotangent sqrt s f 1 / 2) a b
        + edgeContrib (s.faces_ f 0) (s.faces_ f 1) (ComputeCotangent sqrt s f 2 / 2) a b := by
  have h3 : List.finRange 3 = [0, 1, 2] := rfl
  simp only [faceContrib, h3, List.map_cons, List.map_nil, List.sum_cons, List.sum_nil, index_map,
    Matrix.cons_val_zero, Matrix.cons_val_one, Matrix.head_cons, Matrix.cons_val_two,
    Matrix.tail_cons, add_zero, add_assoc]

theorem faceContains_iff (s : ArapSolver K) (f v : Nat) :
    faceContains s f v ↔ v = s.faces_ f 0 ∨ v = s.faces_ f 1 ∨ v = s.faces_ f 2 := by
  unfold faceContains
  constructor
  · rintro ⟨k, rfl⟩
    fin_cases k
    · exact Or.inl rfl
    · exact Or.inr (Or.inl rfl)
    · exact Or.inr (Or.inr rfl)
  · rintro (h | h | h)
    · exact ⟨0, h.symm⟩
    · exact ⟨1, h.symm⟩
    · exact ⟨2, h.symm⟩

theorem faceContrib_offdiag (sqrt : K → K) (s : ArapSolver K) (f i j : Nat) (hij : i ≠ j)
    (hd : s.faces_ f 0 ≠ s.faces_ f 1 ∧ s.faces_ f 1 ≠ s.faces_ f 2 ∧ s.faces_ f 0 ≠ s.faces_ f 2)
    (harea : 0 < faceArea sqrt s f) :
    faceContrib sqrt s f i j
      = if faceContains s f i ∧ faceContains s f j
        then cornerCot sqrt s f (thirdCorner s f i j) / 2 else 0 := by
  rw [faceContrib_expand]
  simp only [ComputeCotangent_eq_cornerCot sqrt s f harea, faceContains_iff, thirdCorner,
    edgeContrib]
  obtain ⟨h01, h12, h02⟩ := hd
  generalize cornerCot sqrt s f = cc
  generalize s.faces_ f 0 = a at *
  generalize s.faces_ f 1 = b at *
  generalize s.faces_ f 2 = c at *
  have h10 := Ne.symm h01
  have h21 := Ne.symm h12
  have h20 := Ne.symm h02
  by_cases hia : i = a <;> by_cases hib : i = b <;> by_cases hic : i = c <;>
  by_cases hja : j = a <;> by_cases hjb : j = b <;> by_cases hjc : j = c <;>
  simp_all

theorem PrecomputeWeight_eq_cotangentWeight (sqrt : K → K) (s : ArapSolver K)
    (hd : FacesDistinct s) (ha : FacesPositiveArea sqrt s) (i j : Nat) (hij : i ≠ j) :
    PrecomputeWeight sqrt s i j = cotangentWeight sqrt s i j := by
  rw [PrecomputeWeight_apply, list_range_sum, cotangentWeight, Finset.sum_filter]
  apply Finset.sum_congr rfl
  intro f hf
  have hf2 := Finset.mem_range.mp hf
  exact faceContrib_offdiag sqrt s f i j hij (hd f hf2) (ha f hf2)

/-- C7: in a mesh whose faces have three distinct indices and positive area,
every off-diagonal entry weight_(i, j) after Precompute is the sum, over the
faces that contain both i and j, of half the cotangent of the angle at the
third vertex; it is 0 when no face contains both. -/
theorem C7_offdiagonal_weight_is_half_cotangent_sum (sqrt : K → K) (s : ArapSolver K)
    (hd : FacesDistinct s) (ha : FacesPositiveArea sqrt s) (i j : Nat) (hij : i ≠ j) :
    PrecomputeWeight sqrt s i j = cotangentWeight sqrt s i j ∧
    ((∀ f, f < s.face_num → ¬ (faceContains s f i ∧ faceContains s f j)) →
      PrecomputeWeight sqrt s i j = 0) := by
  have h := PrecomputeWeight_eq_cotangentWeight sqrt s hd ha i j hij
  refine ⟨h, fun hno => ?_⟩
  rw [h, cotangentWeight]
  apply Finset.sum_eq_zero
  intro f hf
  rw [Finset.mem_filter, Finset.mem_range] at hf
  exact absurd hf.2 (hno f hf.1)

theorem triangleMesh_positiveArea : FacesPositiveArea Real.sqrt (triangleMesh ℝ) := by
  intro f hf
  have hf0 : f = 0 := by
    have : f < 1 := hf
    omega
  subst hf0
  simp [faceArea, norm, squaredNorm, cross, triangleMesh, newSolver]

/-- C7 at the one-triangle mesh with the real square root, entry (0, 1). -/
theorem C7_offdiagonal_weight_is_half_cotangent_sum_witness :
    FacesDistinct (triangleMesh ℝ) ∧ FacesPositiveArea Real.sqrt (triangleMesh ℝ) ∧
    (0 : Nat) ≠ 1 ∧
    PrecomputeWeight Real.sqrt (triangleMesh ℝ) 0 1 = cotangentWeight Real.sqrt (triangleMesh ℝ) 0 1 ∧
    ((∀ f, f < (triangleMesh ℝ).face_num →
        ¬ (faceContains (triangleMesh ℝ) f 0 ∧ faceContains (triangleMesh ℝ) f 1)) →
      PrecomputeWeight Real.sqrt (triangleMesh ℝ) 0 1 = 0) :=
  ⟨by decide, triangleMesh_positiveArea, by decide,
    C7_offdiagonal_weight_is_half_cotangent_sum Real.sqrt (triangleMesh ℝ) (by decide)
      triangleMesh_positiveArea 0 1 (by decide)⟩

theorem mem_insertNeighbor (nb : Nat → List Nat) (v k u x : Nat) :
    x ∈ insertNeighbor nb v k u ↔ x ∈ nb u ∨ (u = v ∧ x = k) := by
  unfold insertNeighbor
  by_cases huv : u = v
  · by_cases hk : k ∈ nb u
    · simp only [huv, if_true]
      rw [← huv, if_pos hk]
      constructor
      · exact fun h => Or.inl h
      · rintro (h | ⟨_, rfl⟩)
        · exact h
        · exact hk
    · rw [if_pos huv, if_neg hk]
      simp [huv]
  · simp [huv]

theorem nodup_insertNeighbor (nb : Nat → List Nat) (v k : Nat) (h : ∀ u, (nb u).Nodup) (u : Nat) :
    (insertNeighbor nb v k u).Nodup := by
  unfold insertNeighbor
  split_ifs with h1 h2
  · exact h u
  · exact List.Nodup.append (h u) (List.nodup_singleton k) (by simpa using h2)
  · exact h u

theorem foldl_mem_neighbors {α : Type} (step : (Nat → List Nat) → α → Nat → List Nat)
    (P : α → Nat → Nat → Prop)
    (hstep : ∀ nb a u x, x ∈ step nb a u ↔ x ∈ nb u ∨ P a u x)
    (l : List α) (nb0 : Nat → List Nat) (u x : Nat) :
    x ∈ (l.foldl step nb0) u ↔ x ∈ nb0 u ∨ ∃ a ∈ l, P a u x := by
  induction l generalizing nb0 with
  | nil => simp
  | cons a as ih =>
    rw [List.foldl_cons, ih, hstep]
    simp only [List.mem_cons, exists_eq_or_imp, or_assoc]

theorem foldl_nodup_neighbors {α : Type} (step : (Nat → List Nat) → α → Nat → List Nat)
    (hstep : ∀ nb a, (∀ u, (nb u).Nodup) → ∀ u, (step nb a u).Nodup)
    (l : List α) (nb0 : Nat → List Nat) (h0 : ∀ u, (nb0 u).Nodup) (u : Nat) :
    ((l.foldl step nb0) u).Nodup := by
  induction l generalizing nb0 with
  | nil => exact h0 u
  | cons a as ih =>
    rw [List.foldl_cons]
    exact ih _ (hstep nb0 a h0)

theorem mem_neighborsFace (s : ArapSolver K) (nb : Nat → List Nat) (f u x : Nat) :
    x ∈ neighborsFace s nb f u ↔ x ∈ nb u ∨ ∃ k : Fin 3, edgeJoins s f k u x := by
  unfold neighborsFace
  rw [foldl_mem_neighbors _ (fun k u x => edgeJoins s f k u x)]
  · simp
  · intro nb k u x
    simp only [mem_insertNeighbor, edgeJoins, or_assoc]

theorem mem_PrecomputeNeighbors (s : ArapSolver K) (u x : Nat) :
    x ∈ PrecomputeNeighbors s u ↔ ∃ f, f < s.face_num ∧ ∃ k : Fin 3, edgeJoins s f k u x := by
  unfold PrecomputeNeighbors
  rw [foldl_mem_neighbors _ (fun f u x => ∃ k : Fin 3, edgeJoins s f k u x) (mem_neighborsFace s)]
  simp

theorem nodup_PrecomputeNeighbors (s : ArapSolver K) (u : Nat) :
    (PrecomputeNeighbors s u).Nodup := by
  unfold PrecomputeNeighbors
  apply foldl_nodup_neighbors
  · intro nb f h
    unfold neighborsFace
    apply foldl_nodup_neighbors
    · intro nb k h u
      exact nodup_insertNeighbor _ _ _ (nodup_insertNeighbor _ _ _ h) u
    · exact h
  · intro u
    exact List.nodup_nil

theorem edgeContrib_of_not_joined (first second : Nat) (half_cot : K) (a b : Nat) (hab : a ≠ b)
    (h : ¬ ((a = first ∧ b = second) ∨ (a = second ∧ b = first))) :
    edgeContrib first second half_cot a b = 0 := by
  unfold edgeContrib
  have h1 : ¬ (a = first ∧ b = second) := fun h1 => h (Or.inl h1)
  have h2 : ¬ (a = second ∧ b = first) := fun h2 => h (Or.inr h2)
  have h3 : ¬ (a = first ∧ b = first) := fun h3 => hab (h3.1.trans h3.2.symm)
  have h4 : ¬ (a = second ∧ b = second) := fun h4 => hab (h4.1.trans h4.2.symm)
  simp [h1, h2, h3, h4]

theorem edgeContrib_diag_of_not_corner (first second : Nat) (half_cot : K) (a : Nat)
    (h1 : a ≠ first) (h2 : a ≠ second) :
    edgeContrib first second half_cot a a = 0 := by
  unfold edgeContrib
  simp [h1, h2]

theorem PrecomputeWeight_of_not_neighbor (sqrt : K → K) (s : ArapSolver K) (a b : Nat)
    (hab : a ≠ b) (h : b ∉ PrecomputeNeighbors s a) : PrecomputeWeight sqrt s a b = 0 := by
  rw [PrecomputeWeight_apply]
  apply List.sum_eq_zero
  intro x hx
  obtain ⟨f, hf, rfl⟩ := List.mem_map.mp hx
  unfold faceContrib
  apply List.sum_eq_zero
  intro y hy
  obtain ⟨k, _, rfl⟩ := List.mem_map.mp hy
  apply edgeContrib_of_not_joined _ _ _ _ _ hab
  intro hj
  exact h ((mem_PrecomputeNeighbors s a b).mpr ⟨f, List.mem_range.mp hf, k, hj⟩)

theorem PrecomputeWeight_diag_out_of_range (sqrt : K → K) (s : ArapSolver K)
    (hr : FacesInRange s) (a : Nat) (ha : s.vertex_num ≤ a) : PrecomputeWeight sqrt s a a = 0 := by
  rw [PrecomputeWeight_apply]
  apply List.sum_eq_zero
  intro x hx
  obtain ⟨f, hf, rfl⟩ := List.mem_map.mp hx
  unfold faceContrib
  apply List.sum_eq_zero
  intro y hy
  obtain ⟨k, _, rfl⟩ := List.mem_map.mp hy
  have h1 := hr f (List.mem_range.mp hf) (index_map k 0)
  have h2 := hr f (List.mem_range.mp hf) (index_map k 1)
  exact edgeContrib_diag_of_not_corner _ _ _ _ (by omega) (by omega)

theorem PrecomputeNeighbors_lt (s : ArapSolver K) (hr : FacesInRange s) (u x : Nat)
    (h : x ∈ PrecomputeNeighbors s u) : x < s.vertex_num := by
  obtain ⟨f, hf, k, hj⟩ := (mem_PrecomputeNeighbors s u x).mp h
  rcases hj with ⟨_, rfl⟩ | ⟨_, rfl⟩
  · exact hr f hf _
  · exact hr f hf _


theorem coeffRefAdd_apply (m : SparseMatrix K) (r c : Nat) (v : K) (a b : Nat) :
    coeffRefAdd m r c v a b = if a = r ∧ b = c then m a b + v else m a b := rfl

theorem lbNeighbor_apply (s : ArapSolver K) (i pos : Nat) (lb : SparseMatrix K) (n a b : Nat) :
    lbNeighbor s i pos lb n a b = lb a b + lbNeighborContrib s i pos n a b := by
  unfold lbNeighbor lbNeighborContrib
  by_cases h1 : (s.vertex_info_ n).type = VertexType.Free
  · simp only [h1, if_true, true_and, coeffRefAdd_apply]
    split_ifs <;> ring
  · simp only [h1, if_false, false_and, coeffRefAdd_apply]
    split_ifs <;> ring

theorem lbRow_apply (s : ArapSolver K) (lb : SparseMatrix K) (i a b : Nat) :
    lbRow s lb i a b = lb a b
      + ((s.neighbors_ (s.free_.getD i 0)).map
          (fun n => lbNeighborContrib s i (s.free_.getD i 0) n a b)).sum := by
  unfold lbRow
  exact foldl_sparse_add _ (fun n a b => lbNeighborContrib s i (s.free_.getD i 0) n a b)
    (fun lb n a b => lbNeighbor_apply s i _ lb n a b) _ lb a b

theorem PrecomputeLbOperator_apply (s : ArapSolver K) (a b : Nat) :
    PrecomputeLbOperator s a b
      = ∑ i in Finset.range s.free_.length,
          ((s.neighbors_ (s.free_.getD i 0)).map
            (fun n => lbNeighborContrib s i (s.free_.getD i 0) n a b)).sum := by
  unfold PrecomputeLbOperator
  rw [foldl_sparse_add _
    (fun i a b => ((s.neighbors_ (s.free_.getD i 0)).map
            (fun n => lbNeighborContrib s i (s.free_.getD i 0) n a b)).sum)
    (fun lb i a b => lbRow_apply s lb i a b), list_range_sum]
  simp

theorem PrecomputeLbOperator_row (s : ArapSolver K) (i j : Nat) (hi : i < s.free_.length) :
    PrecomputeLbOperator s i j
      = ((s.neighbors_ (s.free_.getD i 0)).map
            (fun n => lbNeighborContrib s i (s.free_.getD i 0) n i j)).sum := by
  rw [PrecomputeLbOperator_apply, Finset.sum_eq_single i]
  · intro r _ hr
    apply List.sum_eq_zero
    intro x hx
    obtain ⟨n, _, rfl⟩ := List.mem_map.mp hx
    unfold lbNeighborContrib
    simp [Ne.symm hr]
  · intro h
    exact absurd (Finset.mem_range.mpr hi) h

theorem free_role_iff (s : ArapSolver K) (hc : VertexInfoConsistent s) (n j : Nat)
    (hn : n < s.vertex_num) (hj : j < s.free_.length) :
    ((s.vertex_info_ n).type = VertexType.Free ∧ j = (s.vertex_info_ n).pos)
      ↔ n = s.free_.getD j 0 := by
  constructor
  · rintro ⟨ht, hp⟩
    have hmem : n ∈ s.free_ := by
      by_contra hnot
      have := hc.2 n hn hnot
      rw [ht] at this
      exact absurd this (by decide)
    obtain ⟨m, hm, rfl⟩ := List.getElem_of_mem hmem
    have hinfo := hc.1 m hm
    rw [List.getD_eq_getElem _ _ hm] at hinfo
    rw [hinfo] at hp
    subst hp
    rw [List.getD_eq_getElem _ _ hm]
  · rintro rfl
    rw [hc.1 j hj]
    exact ⟨rfl, rfl⟩

theorem free_getD_injective (s : ArapSolver K) (hc : VertexInfoConsistent s) (i j : Nat)
    (hi : i < s.free_.length) (hj : j < s.free_.length)
    (h : s.free_.getD i 0 = s.free_.getD j 0) : i = j := by
  have h1 := hc.1 i hi
  rw [h, hc.1 j hj] at h1
  exact (congrArg VertexInfo.pos h1).symm

theorem neighbor_weight_sum (sqrt : K → K) (s : ArapSolver K) (hr : FacesInRange s) (p : Nat) :
    ∑ n in (PrecomputeNeighbors s p).toFinset, PrecomputeWeight sqrt s p n
      = (if p ∈ PrecomputeNeighbors s p then PrecomputeWeight sqrt s p p else 0)
        - PrecomputeWeight sqrt s p p := by
  have hsub : (PrecomputeNeighbors s p).toFinset ⊆ Finset.range s.vertex_num := by
    intro n hn
    exact Finset.mem_range.mpr (PrecomputeNeighbors_lt s hr p n (List.mem_toFinset.mp hn))
  have hrow := PrecomputeWeight_rowSum sqrt s hr p
  rw [← Finset.sum_sdiff hsub] at hrow
  have hrest : ∑ n in Finset.range s.vertex_num \ (PrecomputeNeighbors s p).toFinset,
      PrecomputeWeight sqrt s p n
      = if p ∈ Finset.range s.vertex_num \ (PrecomputeNeighbors s p).toFinset
        then PrecomputeWeight sqrt s p p else 0 := by
    rw [← Finset.sum_ite_eq' _ p (fun n => PrecomputeWeight sqrt s p n)]
    apply Finset.sum_congr rfl
    intro n hn
    by_cases hnp : n = p
    · simp [hnp]
    · rw [if_neg hnp]
      apply PrecomputeWeight_of_not_neighbor sqrt s p n (Ne.symm hnp)
      intro hmem
      exact (Finset.mem_sdiff.mp hn).2 (List.mem_toFinset.mpr hmem)
  rw [hrest] at hrow
  by_cases hp : p ∈ PrecomputeNeighbors s p
  · have : p ∉ Finset.range s.vertex_num \ (PrecomputeNeighbors s p).toFinset := by
      intro h
      exact (Finset.mem_sdiff.mp h).2 (List.mem_toFinset.mpr hp)
    rw [if_neg this] at hrow
    rw [if_pos hp]
    linarith
  · rw [if_neg hp]
    by_cases hlt : p < s.vertex_num
    · have : p ∈ Finset.range s.vertex_num \ (PrecomputeNeighbors s p).toFinset :=
        Finset.mem_sdiff.mpr ⟨Finset.mem_range.mpr hlt, fun h => hp (List.mem_toFinset.mp h)⟩
      rw [if_pos this] at hrow
      linarith
    · have : p ∉ Finset.range s.vertex_num \ (PrecomputeNeighbors s p).toFinset := by
        intro h
        exact hlt (Finset.mem_range.mp (Finset.mem_sdiff.mp h).1)
      rw [if_neg this] at hrow
      have hz := PrecomputeWeight_diag_out_of_range sqrt s hr p (by omega)
      linarith

theorem PrecomputeTables_lb (sqrt : K → K) (s : ArapSolver K) (hr : FacesInRange s)
    (hc : VertexInfoConsistent s) (i j : Nat) (hi : i < s.free_.length)
    (hj : j < s.free_.length) :
    (PrecomputeTables sqrt s).lb_operator_ i j
      = - (PrecomputeTables sqrt s).weight_ (s.free_.getD i 0) (s.free_.getD j 0) := by
  have hlb : (PrecomputeTables sqrt s).lb_operator_
      = PrecomputeLbOperator { s with weight_ := PrecomputeWeight sqrt s,
                                      neighbors_ := PrecomputeNeighbors s } := rfl
  have hw : (PrecomputeTables sqrt s).weight_ = PrecomputeWeight sqrt s := rfl
  have hrow := PrecomputeLbOperator_row
    ({ s with weight_ := PrecomputeWeight sqrt s,
              neighbors_ := PrecomputeNeighbors s } : ArapSolver K) i j hi
  rw [hlb, hw, hrow]
  simp only [lbNeighborContrib, true_and]
  generalize hp : s.free_.getD i 0 = p
  generalize hq : s.free_.getD j 0 = q
  rw [← List.sum_toFinset _ (nodup_PrecomputeNeighbors s p)]
  have hterm : ∀ n ∈ (PrecomputeNeighbors s p).toFinset,
      ((if j = i then PrecomputeWeight sqrt s p n else 0)
        + (if (s.vertex_info_ n).type = VertexType.Free ∧ j = (s.vertex_info_ n).pos
           then - PrecomputeWeight sqrt s p n else 0))
      = (if j = i then PrecomputeWeight sqrt s p n else 0)
        + (if q = n then - PrecomputeWeight sqrt s p n else 0) := by
    intro n hn
    have hnlt := PrecomputeNeighbors_lt s hr p n (List.mem_toFinset.mp hn)
    have hiff := free_role_iff s hc n j hnlt hj
    rw [hq] at hiff
    have hiff2 : ((s.vertex_info_ n).type = VertexType.Free ∧ j = (s.vertex_info_ n).pos)
        ↔ q = n := hiff.trans eq_comm
    simp only [hiff2]
  rw [Finset.sum_congr rfl hterm, Finset.sum_add_distrib, Finset.sum_ite_eq]
  by_cases hji : j = i
  · subst hji
    rw [hp] at hq
    subst hq
    simp only [if_true, List.mem_toFinset]
    rw [neighbor_weight_sum sqrt s hr p]
    split_ifs <;> ring
  · have hpq : p ≠ q := by
      intro h
      rw [← hp, ← hq] at h
      exact hji (free_getD_injective s hc i j hi hj h).symm
    simp only [hji, if_false, Finset.sum_const_zero, zero_add, List.mem_toFinset]
    split_ifs with hmem
    · rfl
    · rw [PrecomputeWeight_of_not_neighbor sqrt s p q hpq hmem, neg_zero]

/-- C3: with in-range face indices and vertex_info_ consistent with free_,
the system matrix built by Precompute is the free x free block of the negative
weight matrix: lb_operator_(i, j) = -weight_(free_(i), free_(j)) for all free
indices i and j, the diagonal and the pairs that are not neighbours included. -/
theorem C3_lb_operator_is_negative_weight_block (sqrt : K → K) (s : ArapSolver K)
    (hr : FacesInRange s) (hc : VertexInfoConsistent s) (i j : Nat)
    (hi : i < s.free_.length) (hj : j < s.free_.length) :
    (PrecomputeTables sqrt s).lb_operator_ i j
      = - (PrecomputeTables sqrt s).weight_ (s.free_.getD i 0) (s.free_.getD j 0) :=
  PrecomputeTables_lb sqrt s hr hc i j hi hj

/-- C3 at the two-triangle square with the real square root, entry (0, 1). -/
theorem C3_lb_operator_is_negative_weight_block_witness :
    FacesInRange (squareMesh ℝ) ∧ VertexInfoConsistent (squareMesh ℝ) ∧
    0 < (squareMesh ℝ).free_.length ∧ 1 < (squareMesh ℝ).free_.length ∧
    (PrecomputeTables Real.sqrt (squareMesh ℝ)).lb_operator_ 0 1
      = - (PrecomputeTables Real.sqrt (squareMesh ℝ)).weight_
          ((squareMesh ℝ).free_.getD 0 0) ((squareMesh ℝ).free_.getD 1 0) :=
  ⟨by decide, by decide, by decide, by decide,
    C3_lb_operator_is_negative_weight_block Real.sqrt (squareMesh ℝ) (by decide) (by decide)
      0 1 (by decide) (by decide)⟩

/-- C9: with in-range face indices and vertex_info_ consistent with free_, the
system matrix built by Precompute is symmetric on the free indices. -/
theorem C9_lb_operator_symmetric (sqrt : K → K) (s : ArapSolver K)
    (hr : FacesInRange s) (hc : VertexInfoConsistent s) (i j : Nat)
    (hi : i < s.free_.length) (hj : j < s.free_.length) :
    (PrecomputeTables sqrt s).lb_operator_ i j = (PrecomputeTables sqrt s).lb_operator_ j i := by
  rw [PrecomputeTables_lb sqrt s hr hc i j hi hj, PrecomputeTables_lb sqrt s hr hc j i hj hi]
  have hw : (PrecomputeTables sqrt s).weight_ = PrecomputeWeight sqrt s := rfl
  rw [hw, PrecomputeWeight_symm]

/-- C9 at the two-triangle square with the real square root, entries (0, 1)
and (1, 0). -/
theorem C9_lb_operator_symmetric_witness :
    FacesInRange (squareMesh ℝ) ∧ VertexInfoConsistent (squareMesh ℝ) ∧
    0 < (squareMesh ℝ).free_.length ∧ 1 < (squareMesh ℝ).free_.length ∧
    (PrecomputeTables Real.sqrt (squareMesh ℝ)).lb_operator_ 0 1
      = (PrecomputeTables Real.sqrt (squareMesh ℝ)).lb_operator_ 1 0 :=
  ⟨by decide, by decide, by decide, by decide,
    C9_lb_operator_symmetric Real.sqrt (squareMesh ℝ) (by decide) (by decide)
      0 1 (by decide) (by decide)⟩

theorem foldl_update_of_not_mem {β : Type} (idx : Nat → Nat) (val : (Nat → β) → Nat → β)
    (l : List Nat) (vu : Nat → β) (v : Nat) (h : ∀ i ∈ l, idx i ≠ v) :
    (l.foldl (fun vu i => Function.update vu (idx i) (val vu i)) vu) v = vu v := by
  induction l generalizing vu with
  | nil => rfl
  | cons a as ih =>
    rw [List.foldl_cons, ih _ (fun i hi => h i (List.mem_cons_of_mem _ hi))]
    exact Function.update_noteq (Ne.symm (h a (List.mem_cons_self _ _))) _ _

theorem getD_mem_of_lt (l : List Nat) (i : Nat) (h : i < l.length) : l.getD i 0 ∈ l := by
  rw [List.getD_eq_getElem _ _ h]
  exact List.getElem_mem h

theorem writeBackFree_of_not_mem (free : List Nat) (solution vu : MatrixX3 K) (v : Nat)
    (h : v ∉ free) : writeBackFree free solution vu v = vu v := by
  unfold writeBackFree
  apply foldl_update_of_not_mem (fun i => free.getD i 0) (fun _ i => solution i)
  intro i hi hv
  exact h (hv ▸ getD_mem_of_lt free i (List.mem_range.mp hi))

theorem SolveOneIteration_frame (polar : Matrix3 K → Matrix3 K) (s t : ArapSolver K)
    (h : SolveOneIteration polar s = Outcome.returned t) :
    (∀ v, v ∉ s.free_ → t.vertices_updated_ v = s.vertices_updated_ v) ∧
    t.vertex_num = s.vertex_num ∧ t.vertices_ = s.vertices_ ∧
    t.face_num = s.face_num ∧ t.faces_ = s.faces_ ∧
    t.fixed_ = s.fixed_ ∧ t.free_ = s.free_ ∧ t.vertex_info_ = s.vertex_info_ ∧
    t.weight_ = s.weight_ ∧ t.neighbors_ = s.neighbors_ ∧
    t.lb_operator_ = s.lb_operator_ ∧ t.fixed_vertices_ = s.fixed_vertices_ := by
  unfold SolveOneIteration at h
  dsimp only at h
  split at h
  · exact absurd h (by simp)
  · rename_i solution _
    injection h with h
    subst h
    refine ⟨fun v hv => ?_, rfl, rfl, rfl, rfl, rfl, rfl, rfl, rfl, rfl, rfl, rfl⟩
    exact writeBackFree_of_not_mem _ _ _ v hv

/-- C5: a SolveOneIteration call that returns leaves every row of
vertices_updated_ whose index is not in free_ as it was, and leaves the mesh,
the index vectors, weight_, neighbors_, lb_operator_ and fixed_vertices_
unchanged. -/
theorem C5_iteration_changes_only_free_rows (polar : Matrix3 K → Matrix3 K)
    (s t : ArapSolver K) (h : SolveOneIteration polar s = Outcome.returned t) :
    (∀ v, v ∉ s.free_ → t.vertices_updated_ v = s.vertices_updated_ v) ∧
    t.vertex_num = s.vertex_num ∧ t.vertices_ = s.vertices_ ∧
    t.face_num = s.face_num ∧ t.faces_ = s.faces_ ∧
    t.fixed_ = s.fixed_ ∧ t.free_ = s.free_ ∧ t.vertex_info_ = s.vertex_info_ ∧
    t.weight_ = s.weight_ ∧ t.neighbors_ = s.neighbors_ ∧
    t.lb_operator_ = s.lb_operator_ ∧ t.fixed_vertices_ = s.fixed_vertices_ :=
  SolveOneIteration_frame polar s t h

/-- C5 at the precomputed square mesh with an exact solver: the call returns,
and the fixed rows 0 and 1 and the tables are as before. -/
theorem C5_iteration_changes_only_free_rows_witness :
    ∃ t, SolveOneIteration (fun _ => 1) (squareSolver Real.sqrt) = Outcome.returned t ∧
      (∀ v, v ∉ (squareSolver Real.sqrt).free_ →
        t.vertices_updated_ v = (squareSolver Real.sqrt).vertices_updated_ v) ∧
      t.weight_ = (squareSolver Real.sqrt).weight_ ∧
      t.lb_operator_ = (squareSolver Real.sqrt).lb_operator_ :=
  ⟨_, rfl,
    (C5_iteration_changes_only_free_rows (fun _ => 1) (squareSolver Real.sqrt) _ rfl).1,
    (C5_iteration_changes_only_free_rows (fun _ => 1) (squareSolver Real.sqrt) _ rfl).2.2.2.2.2.2.2.2.1,
    (C5_iteration_changes_only_free_rows (fun _ => 1) (squareSolver Real.sqrt) _ rfl).2.2.2.2.2.2.2.2.2.2.1⟩

theorem degenerateMesh_weight (i j : Nat) (hi : i = 2 ∨ i = 3) (hj : j = 2 ∨ j = 3) :
    PrecomputeWeight Real.sqrt (degenerateMesh ℝ) i j = if i = j then -1 else 1 / 2 := by
  have h3 : List.range 3 = [0, 1, 2] := rfl
  rw [PrecomputeWeight_apply]
  have hf : (degenerateMesh ℝ).face_num = 3 := rfl
  rw [hf, h3]
  simp only [List.map_cons, List.map_nil, List.sum_cons, List.sum_nil, faceContrib_expand]
  rcases hi with rfl | rfl <;> rcases hj with rfl | rfl <;>
    simp [edgeContrib, degenerateMesh, newSolver, ComputeCotangent, squaredNorm, cross, norm] <;>
    norm_num

/-- C6, counterexample: the mesh degenerateMesh has the face (0, 1, 4) whose
corners 0 and 4 lie at the same position, its area is 0, and Precompute with an
exact factorisation returns normally instead of signalling an error. -/
theorem C6_degenerate_mesh_is_not_rejected :
    (degenerateMesh ℝ).vertices_ ((degenerateMesh ℝ).faces_ 2 0)
      = (degenerateMesh ℝ).vertices_ ((degenerateMesh ℝ).faces_ 2 2) ∧
    faceArea Real.sqrt (degenerateMesh ℝ) 2 = 0 ∧
    ∃ t, Precompute Real.sqrt cramerLU (degenerateMesh ℝ) = Outcome.returned t := by
  refine ⟨by simp [degenerateMesh, newSolver], ?_, ?_⟩
  · simp [faceArea, degenerateMesh, newSolver, norm, cross, squaredNorm]
  · have hr : FacesInRange (degenerateMesh ℝ) := by decide
    have hc : VertexInfoConsistent (degenerateMesh ℝ) := by decide
    have hlen : (degenerateMesh ℝ).free_.length = 2 := rfl
    have hw : (PrecomputeTables Real.sqrt (degenerateMesh ℝ)).weight_
        = PrecomputeWeight Real.sqrt (degenerateMesh ℝ) := rfl
    have h00 := PrecomputeTables_lb Real.sqrt (degenerateMesh ℝ) hr hc 0 0 (by decide) (by decide)
    have h01 := PrecomputeTables_lb Real.sqrt (degenerateMesh ℝ) hr hc 0 1 (by decide) (by decide)
    have h10 := PrecomputeTables_lb Real.sqrt (degenerateMesh ℝ) hr hc 1 0 (by decide) (by decide)
    have h11 := PrecomputeTables_lb Real.sqrt (degenerateMesh ℝ) hr hc 1 1 (by decide) (by decide)
    have g0 : (degenerateMesh ℝ).free_.getD 0 0 = 2 := rfl
    have g1 : (degenerateMesh ℝ).free_.getD 1 0 = 3 := rfl
    simp only [hw, g0, g1] at h00 h01 h10 h11
    rw [degenerateMesh_weight 2 2 (by decide) (by decide)] at h00
    rw [degenerateMesh_weight 2 3 (by decide) (by decide)] at h01
    rw [degenerateMesh_weight 3 2 (by decide) (by decide)] at h10
    rw [degenerateMesh_weight 3 3 (by decide) (by decide)] at h11
    have hdet : (PrecomputeTables Real.sqrt (degenerateMesh ℝ)).lb_operator_ 0 0
          * (PrecomputeTables Real.sqrt (degenerateMesh ℝ)).lb_operator_ 1 1
        - (PrecomputeTables Real.sqrt (degenerateMesh ℝ)).lb_operator_ 0 1
          * (PrecomputeTables Real.sqrt (degenerateMesh ℝ)).lb_operator_ 1 0 ≠ 0 := by
      rw [h00, h01, h10, h11]
      norm_num
    have hlu : cramerLU (PrecomputeTables Real.sqrt (degenerateMesh ℝ)).free_.length
        (PrecomputeTables Real.sqrt (degenerateMesh ℝ)).lb_operator_
        = some (cramerHandle (PrecomputeTables Real.sqrt (degenerateMesh ℝ)).lb_operator_) := by
      unfold cramerLU
      exact if_pos ⟨hlen, hdet⟩
    unfold Precompute
    simp only [hlu]
    exact ⟨_, rfl⟩

/-- C6, amended: Precompute has no degeneracy check; for every mesh, with or
without zero-area faces, the weight loop completes and Precompute ends the
process exactly when the factorisation of lb_operator_ reports failure. -/
theorem C6_precompute_exits_only_on_factorisation_failure (sqrt : K → K) (lu : SparseLU K)
    (s : ArapSolver K) :
    Precompute sqrt lu s = Outcome.exited
      ↔ lu s.free_.length (PrecomputeTables sqrt s).lb_operator_ = none := by
  unfold Precompute
  have hfree : (PrecomputeTables sqrt s).free_ = s.free_ := rfl
  simp only [hfree]
  cases lu s.free_.length (PrecomputeTables sqrt s).lb_operator_ <;> simp

/-- C10: ComputeEnergy returns the solver it was called on unchanged, stores
the accumulated total under the label Total, and a second call right after the
first returns the same value under that label. -/
theorem C10_compute_energy_is_pure (s : ArapSolver K) :
    (ComputeEnergy s).1 = s ∧
    Energy.GetEnergy (ComputeEnergy s).2 "Total" = some (energyTotal s) ∧
    Energy.GetEnergy (ComputeEnergy (ComputeEnergy s).1).2 "Total"
      = Energy.GetEnergy (ComputeEnergy s).2 "Total" := by
  refine ⟨rfl, ?_, rfl⟩
  simp [ComputeEnergy, Energy.GetEnergy, Energy.AddEnergyType]

theorem squareMesh_weight (i j : Nat) (hi : i < 4) (hj : j < 4) :
    PrecomputeWeight Real.sqrt (squareMesh ℝ) i j
      = if i = j then -1 else if i + j = 2 ∨ i + j = 4 then 0 else 1 / 2 := by
  have h2 : List.range 2 = [0, 1] := rfl
  rw [PrecomputeWeight_apply]
  have hf : (squareMesh ℝ).face_num = 2 := rfl
  rw [hf, h2]
  simp only [List.map_cons, List.map_nil, List.sum_cons, List.sum_nil, faceContrib_expand]
  interval_cases i <;> interval_cases j <;>
    simp [edgeContrib, squareMesh, newSolver, ComputeCotangent, squaredNorm, cross, norm] <;>
    norm_num


theorem square_naiveLeft (s : ArapSolver ℝ)
    (hw : s.weight_ = PrecomputeWeight Real.sqrt (squareMesh ℝ)) (hn : s.vertex_num = 4)
    (hfree : s.free_ = [2, 3]) (i j : Nat) (hi : i < 2) (hj : j < 2) :
    naiveLeft s i j = if i = j then 3 / 2 else -1 := by
  simp only [naiveLeft, sliceFree]
  simp only [hw, hn, hfree]
  interval_cases i <;> interval_cases j <;>
    simp [Finset.sum_range_succ, squareMesh_weight] <;> norm_num

theorem square_naiveRight (s : ArapSolver ℝ)
    (hw : s.weight_ = PrecomputeWeight Real.sqrt (squareMesh ℝ)) (hn : s.vertex_num = 4)
    (hfree : s.free_ = [2, 3]) (hfixed : s.fixed_ = [0, 1])
    (hv : s.vertices_ = (squareMesh ℝ).vertices_) (hfv : s.fixed_vertices_ = squareTargets ℝ)
    (i : Nat) (hi : i < 2) :
    naiveRight s 0 i = if i = 0 then 5 / 2 else -3 / 2 := by
  simp only [naiveRight, naiveB, sliceFree, sliceFixed]
  simp only [hw, hn, hfree, hfixed, hv, hfv]
  interval_cases i <;>
    simp [Finset.sum_range_succ, squareMesh_weight] <;>
    simp [squareMesh, newSolver, squareTargets] <;>
    norm_num

theorem SolvePreprocess_returns_early (lu : SparseLU K) (polar : Matrix3 K → Matrix3 K)
    (s : ArapSolver K) (fixed_vertices : MatrixX3 K) (h : LUHandle K) (x : Nat → K)
    (hlu : lu s.free_.length (naiveLeft { s with fixed_vertices_ := fixed_vertices }) = some h)
    (hx : h.solveVec (naiveRight { s with fixed_vertices_ := fixed_vertices } 0) = some x)
    (hres : naiveResidual { s with fixed_vertices_ := fixed_vertices } 0 x
      > kMatrixDiffThreshold) :
    SolvePreprocess lu polar s fixed_vertices
      = Outcome.returned { s with fixed_vertices_ := fixed_vertices } := by
  have h3 : List.finRange 3 = 0 :: [1, 2] := rfl
  unfold SolvePreprocess
  rw [h3]
  simp only [hlu, naiveColumns, hx, if_pos hres]

theorem square_preprocess_returns_early :
    SolvePreprocess (inexactLU 1) (fun _ => 1) (squareSolver Real.sqrt) (squareTargets ℝ)
      = Outcome.returned { squareSolver Real.sqrt with fixed_vertices_ := squareTargets ℝ } := by
  have hL := square_naiveLeft { squareSolver Real.sqrt with fixed_vertices_ := squareTargets ℝ }
    rfl rfl rfl
  have hR := square_naiveRight { squareSolver Real.sqrt with fixed_vertices_ := squareTargets ℝ }
    rfl rfl rfl rfl rfl rfl
  have h00 := hL 0 0 (by norm_num) (by norm_num)
  have h01 := hL 0 1 (by norm_num) (by norm_num)
  have h10 := hL 1 0 (by norm_num) (by norm_num)
  have h11 := hL 1 1 (by norm_num) (by norm_num)
  have r0 := hR 0 (by norm_num)
  have r1 := hR 1 (by norm_num)
  norm_num at h00 h01 h10 h11 r0 r1
  apply SolvePreprocess_returns_early (inexactLU 1) (fun _ => 1) (squareSolver Real.sqrt)
    (squareTargets ℝ)
    (displaced 1 (cramerHandle
      (naiveLeft { squareSolver Real.sqrt with fixed_vertices_ := squareTargets ℝ })))
    (fun i => (if i = 0 then (3 / 2 * (5 / 2) - (-1) * (-3 / 2)) / (5 / 4)
      else if i = 1 then (3 / 2 * (-3 / 2) - (-1) * (5 / 2)) / (5 / 4) else 0) + 1)
  · unfold inexactLU cramerLU
    rw [if_pos]
    · rfl
    · refine ⟨rfl, ?_⟩
      rw [h00, h01, h10, h11]
      norm_num
  · simp only [displaced, cramerHandle, Option.map_some', h00, h01, h10, h11, r0, r1]
    norm_num
  · have hlen : ({ squareSolver Real.sqrt with fixed_vertices_ := squareTargets ℝ }
        : ArapSolver ℝ).free_.length = 2 := rfl
    simp only [naiveResidual, hlen, Finset.sum_range_succ, Finset.sum_range_zero, h00, h01, h10,
      h11, r0, r1, kMatrixDiffThreshold]
    norm_num


theorem foldl_update_of_mem {β : Type} (idx : Nat → Nat) (val : Nat → β)
    (l : List Nat) (hnd : l.Nodup) (hinj : ∀ a ∈ l, ∀ b ∈ l, idx a = idx b → a = b)
    (vu : Nat → β) (i : Nat) (hi : i ∈ l) :
    (l.foldl (fun vu k => Function.update vu (idx k) (val k)) vu) (idx i) = val i := by
  induction l generalizing vu with
  | nil => exact absurd hi (List.not_mem_nil i)
  | cons a as ih =>
    rw [List.foldl_cons]
    have hnd2 := List.nodup_cons.mp hnd
    by_cases hia : i ∈ as
    · exact ih hnd2.2 (fun x hx y hy => hinj x (List.mem_cons_of_mem _ hx) y
        (List.mem_cons_of_mem _ hy)) _ hia
    · have hai : i = a := by
        rcases List.mem_cons.mp hi with h | h
        · exact h
        · exact absurd h hia
      subst hai
      rw [foldl_update_of_not_mem idx (fun _ k => val k) as _ (idx i)]
      · exact Function.update_same _ _ _
      · intro k hk hidx
        have := hinj k (List.mem_cons_of_mem _ hk) i (List.mem_cons_self _ _) hidx
        exact hnd2.1 (this ▸ hk)

theorem writeBackFixed_apply (fixed : List Nat) (fixed_vertices vu : MatrixX3 K)
    (hnd : fixed.Nodup) (i : Nat) (hi : i < fixed.length) :
    writeBackFixed fixed fixed_vertices vu (fixed.getD i 0) = fixed_vertices i := by
  unfold writeBackFixed
  apply foldl_update_of_mem (fun k => fixed.getD k 0) (fun k => fixed_vertices k)
    (List.range fixed.length) (List.nodup_range _)
  · intro a ha b hb hab
    have ha2 := List.mem_range.mp ha
    have hb2 := List.mem_range.mp hb
    rw [List.getD_eq_getElem _ _ ha2, List.getD_eq_getElem _ _ hb2] at hab
    exact (List.Nodup.getElem_inj_iff hnd).mp hab
  · exact List.mem_range.mpr hi

theorem SolvePreprocess_completed (lu : SparseLU K) (polar : Matrix3 K → Matrix3 K)
    (s : ArapSolver K) (fixed_vertices : MatrixX3 K) (h : LUHandle K) (vu : MatrixX3 K)
    (hlu : lu s.free_.length (naiveLeft { s with fixed_vertices_ := fixed_vertices }) = some h)
    (hcols : naiveColumns { s with fixed_vertices_ := fixed_vertices } h (List.finRange 3)
      s.vertices_updated_ = ColumnLoop.completed vu) :
    ∃ t, SolvePreprocess lu polar s fixed_vertices = Outcome.returned t ∧
      t.vertices_updated_ = writeBackFixed s.fixed_ fixed_vertices vu ∧
      t.fixed_ = s.fixed_ ∧ t.free_ = s.free_ := by
  unfold SolvePreprocess
  simp only [hlu, hcols]
  exact ⟨_, rfl, rfl, rfl, rfl⟩

theorem iterate_frame (polar : Matrix3 K → Matrix3 K) (n : Nat) (s t : ArapSolver K)
    (h : iterate polar n s = Outcome.returned t) :
    (∀ v, v ∉ s.free_ → t.vertices_updated_ v = s.vertices_updated_ v) ∧
    t.fixed_ = s.fixed_ ∧ t.free_ = s.free_ := by
  induction n generalizing s with
  | zero =>
    unfold iterate at h
    injection h with h
    subst h
    exact ⟨fun _ _ => rfl, rfl, rfl⟩
  | succ n ih =>
    unfold iterate at h
    split at h
    · exact absurd h (by simp)
    · rename_i u hu
      have hf := SolveOneIteration_frame polar s u hu
      have hi := ih u h
      have hfree : u.free_ = s.free_ := hf.2.2.2.2.2.2.1
      have hfixed : u.fixed_ = s.fixed_ := hf.2.2.2.2.2.1
      refine ⟨fun v hv => ?_, hi.2.1.trans hfixed, hi.2.2.trans hfree⟩
      rw [hi.1 v (by rw [hfree]; exact hv), hf.1 v hv]

/-- Fixed-vertex invariance on the path of SolvePreprocess that passes every
residual check: with fixed_ duplicate-free and disjoint from free_, after
SolvePreprocess and n calls of SolveOneIteration that return, row fixed_(i) of
vertices_updated_ is row i of the targets. -/
theorem fixed_rows_after_completed_preprocess (lu : SparseLU K)
    (polar : Matrix3 K → Matrix3 K) (s : ArapSolver K) (fixed_vertices : MatrixX3 K)
    (h : LUHandle K) (vu : MatrixX3 K)
    (hlu : lu s.free_.length (naiveLeft { s with fixed_vertices_ := fixed_vertices }) = some h)
    (hcols : naiveColumns { s with fixed_vertices_ := fixed_vertices } h (List.finRange 3)
      s.vertices_updated_ = ColumnLoop.completed vu)
    (hnd : s.fixed_.Nodup) (hdisj : ∀ v, v ∈ s.fixed_ → v ∉ s.free_)
    (t u : ArapSolver K) (ht : SolvePreprocess lu polar s fixed_vertices = Outcome.returned t)
    (n : Nat) (hu : iterate polar n t = Outcome.returned u)
    (i : Nat) (hi : i < s.fixed_.length) :
    u.vertices_updated_ (s.fixed_.getD i 0) = fixed_vertices i := by
  obtain ⟨t2, ht2, hvu, _, hfree⟩ := SolvePreprocess_completed lu polar s fixed_vertices h vu hlu hcols
  rw [ht2] at ht
  injection ht with ht
  subst ht
  have hmem : s.fixed_.getD i 0 ∉ t2.free_ := by
    rw [hfree]
    exact hdisj _ (getD_mem_of_lt _ _ hi)
  rw [(iterate_frame polar n t2 u hu).1 _ hmem, hvu]
  exact writeBackFixed_apply _ _ _ hnd i hi

/-- C4, the failing input: the square mesh with vertex 1 pinned to (2,0,0) and
a solve whose result is off by 1.  The residual of the first coordinate is
1/2 > 1e-6, SolvePreprocess returns at line 141, and row fixed_(1) = 1 of
vertices_updated_ still holds the x coordinate 1, not the target 2. -/
theorem C4_fixed_row_not_written_on_early_return :
    ∃ t, SolvePreprocess (inexactLU 1) (fun _ => 1) (squareSolver Real.sqrt) (squareTargets ℝ)
        = Outcome.returned t ∧
      (squareSolver Real.sqrt).fixed_.getD 1 0 = 1 ∧
      t.vertices_updated_ 1 0 = 1 ∧ squareTargets ℝ 1 0 = 2 := by
  refine ⟨_, square_preprocess_returns_early, rfl, ?_, ?_⟩
  · show (squareMesh ℝ).vertices_ 1 0 = 1
    simp [squareMesh, newSolver]
  · simp [squareTargets]

theorem exists_edgeJoins_iff (s : ArapSolver K) (f u x : Nat) :
    (∃ k : Fin 3, edgeJoins s f k u x)
      ↔ ∃ a b : Fin 3, a ≠ b ∧ s.faces_ f a = u ∧ s.faces_ f b = x := by
  constructor
  · rintro ⟨k, hk⟩
    fin_cases k <;> rcases hk with ⟨h1, h2⟩ | ⟨h1, h2⟩
    · exact ⟨1, 2, by decide, h1.symm, h2.symm⟩
    · exact ⟨2, 1, by decide, h1.symm, h2.symm⟩
    · exact ⟨2, 0, by decide, h1.symm, h2.symm⟩
    · exact ⟨0, 2, by decide, h1.symm, h2.symm⟩
    · exact ⟨0, 1, by decide, h1.symm, h2.symm⟩
    · exact ⟨1, 0, by decide, h1.symm, h2.symm⟩
  · rintro ⟨a, b, hab, ha, hb⟩
    fin_cases a <;> fin_cases b
    · exact absurd rfl hab
    · exact ⟨2, Or.inl ⟨ha.symm, hb.symm⟩⟩
    · exact ⟨1, Or.inr ⟨ha.symm, hb.symm⟩⟩
    · exact ⟨2, Or.inr ⟨ha.symm, hb.symm⟩⟩
    · exact absurd rfl hab
    · exact ⟨0, Or.inl ⟨ha.symm, hb.symm⟩⟩
    · exact ⟨1, Or.inl ⟨ha.symm, hb.symm⟩⟩
    · exact ⟨0, Or.inr ⟨ha.symm, hb.symm⟩⟩
    · exact absurd rfl hab

theorem mem_PrecomputeNeighbors_iff_sharesEdge (s : ArapSolver K) (i j : Nat) :
    j ∈ PrecomputeNeighbors s i ↔ sharesEdge s i j := by
  rw [mem_PrecomputeNeighbors]
  unfold sharesEdge
  simp only [exists_edgeJoins_iff]

theorem sharesEdge_symm (s : ArapSolver K) (i j : Nat) : sharesEdge s i j ↔ sharesEdge s j i := by
  constructor <;>
  · rintro ⟨f, hf, a, b, hab, ha, hb⟩
    exact ⟨f, hf, b, a, Ne.symm hab, hb, ha⟩

theorem not_sharesEdge_self (s : ArapSolver K) (hd : FacesDistinct s) (i : Nat) :
    ¬ sharesEdge s i i := by
  rintro ⟨f, hf, a, b, hab, ha, hb⟩
  obtain ⟨h01, h12, h02⟩ := hd f hf
  have hEq : s.faces_ f a = s.faces_ f b := ha.trans hb.symm
  fin_cases a <;> fin_cases b <;> simp_all

/-- C16: the neighbour maps built by Precompute are symmetric, j is a key of
neighbors_[i] exactly when some face lists i and j at two different corner
slots, and with three distinct indices in every face no vertex is its own
neighbour. -/
theorem C16_neighbors_are_the_face_edges (sqrt : K → K) (s : ArapSolver K) (i j : Nat) :
    (j ∈ (PrecomputeTables sqrt s).neighbors_ i ↔ i ∈ (PrecomputeTables sqrt s).neighbors_ j) ∧
    (j ∈ (PrecomputeTables sqrt s).neighbors_ i ↔ sharesEdge s i j) ∧
    (FacesDistinct s → i ∉ (PrecomputeTables sqrt s).neighbors_ i) := by
  have hn : (PrecomputeTables sqrt s).neighbors_ = PrecomputeNeighbors s := rfl
  rw [hn]
  refine ⟨?_, mem_PrecomputeNeighbors_iff_sharesEdge s i j, fun hd h => ?_⟩
  · rw [mem_PrecomputeNeighbors_iff_sharesEdge, mem_PrecomputeNeighbors_iff_sharesEdge]
    exact sharesEdge_symm s i j
  · exact not_sharesEdge_self s hd i ((mem_PrecomputeNeighbors_iff_sharesEdge s i i).mp h)

/-- C16 at the two-triangle square, vertices 0 and 2 (the diagonal). -/
theorem C16_neighbors_are_the_face_edges_witness :
    FacesDistinct (squareMesh ℝ) ∧
    ((2 ∈ (PrecomputeTables Real.sqrt (squareMesh ℝ)).neighbors_ 0
        ↔ 0 ∈ (PrecomputeTables Real.sqrt (squareMesh ℝ)).neighbors_ 2) ∧
     (2 ∈ (PrecomputeTables Real.sqrt (squareMesh ℝ)).neighbors_ 0 ↔ sharesEdge (squareMesh ℝ) 0 2) ∧
     0 ∉ (PrecomputeTables Real.sqrt (squareMesh ℝ)).neighbors_ 0) :=
  ⟨by decide,
    (C16_neighbors_are_the_face_edges Real.sqrt (squareMesh ℝ) 0 2).1,
    (C16_neighbors_are_the_face_edges Real.sqrt (squareMesh ℝ) 0 2).2.1,
    (C16_neighbors_are_the_face_edges Real.sqrt (squareMesh ℝ) 0 0).2.2 (by decide)⟩

theorem foldl_add_eq_sum {α : Type} (g : α → K) (l : List α) (a : K) :
    l.foldl (fun acc x => acc + g x) a = a + (l.map g).sum := by
  induction l generalizing a with
  | nil => simp
  | cons x xs ih =>
    rw [List.foldl_cons, ih, List.map_cons, List.sum_cons]
    ring

theorem energyTotal_eq_sum (s : ArapSolver K) :
    energyTotal s
      = ((List.range s.vertex_num).map
          (fun i => ((s.neighbors_ i).map (fun j => edgeEnergy s i j)).sum)).sum := by
  unfold energyTotal
  have h : ∀ (total : K) (i : Nat),
      (s.neighbors_ i).foldl (fun total j => total + edgeEnergy s i j) total
        = total + ((s.neighbors_ i).map (fun j => edgeEnergy s i j)).sum :=
    fun total i => foldl_add_eq_sum _ _ _
  simp only [h]
  rw [foldl_add_eq_sum, zero_add]

theorem squaredNorm_nonneg (v : Vector3 K) : 0 ≤ squaredNorm v := by
  unfold squaredNorm
  nlinarith [mul_self_nonneg (v 0), mul_self_nonneg (v 1), mul_self_nonneg (v 2)]

theorem squaredNorm_zero : squaredNorm (0 : Vector3 K) = 0 := by
  simp [squaredNorm]

theorem edgeEnergy_self (s : ArapSolver K) (i : Nat) : edgeEnergy s i i = 0 := by
  simp [edgeEnergy, squaredNorm_zero]

theorem edgeEnergy_rigid (s : ArapSolver K) (R : Matrix3 K) (t : Vector3 K) (i j : Nat)
    (hi : s.vertices_updated_ i = Matrix.mulVec R (s.vertices_ i) + t)
    (hj : s.vertices_updated_ j = Matrix.mulVec R (s.vertices_ j) + t)
    (hR : s.rotations_.getD i 0 = R) : edgeEnergy s i j = 0 := by
  unfold edgeEnergy
  simp only [hi, hj, hR, Matrix.mulVec_sub]
  have : (Matrix.mulVec R (s.vertices_ i) + t - (Matrix.mulVec R (s.vertices_ j) + t)
      - (Matrix.mulVec R (s.vertices_ i) - Matrix.mulVec R (s.vertices_ j))) = (0 : Vector3 K) := by
    abel
  rw [this, squaredNorm_zero, mul_zero]

theorem energyTotal_nonneg (s : ArapSolver K)
    (hw : ∀ i, i < s.vertex_num → ∀ j, j ∈ s.neighbors_ i → i ≠ j → 0 ≤ s.weight_ i j) :
    0 ≤ energyTotal s := by
  rw [energyTotal_eq_sum]
  apply List.sum_nonneg
  intro a ha
  obtain ⟨i, hi, rfl⟩ := List.mem_map.mp ha
  apply List.sum_nonneg
  intro b hb
  obtain ⟨j, hj, rfl⟩ := List.mem_map.mp hb
  by_cases hij : i = j
  · subst hij
    rw [edgeEnergy_self]
  · exact mul_nonneg (hw i (List.mem_range.mp hi) j hj hij) (squaredNorm_nonneg _)

theorem energyTotal_rigid (s : ArapSolver K) (R : Matrix3 K) (t : Vector3 K)
    (hn : NeighborsInRange s)
    (hpos : ∀ v, v < s.vertex_num → s.vertices_updated_ v = Matrix.mulVec R (s.vertices_ v) + t)
    (hrot : ∀ v, v < s.vertex_num → s.rotations_.getD v 0 = R) :
    energyTotal s = 0 := by
  rw [energyTotal_eq_sum]
  apply List.sum_eq_zero
  intro a ha
  obtain ⟨i, hi, rfl⟩ := List.mem_map.mp ha
  apply List.sum_eq_zero
  intro b hb
  obtain ⟨j, hj, rfl⟩ := List.mem_map.mp hb
  have hi2 := List.mem_range.mp hi
  exact edgeEnergy_rigid s R t i j (hpos i hi2) (hpos j (hn i hi2 j hj)) (hrot i hi2)

theorem square_neighborsInRange (s : ArapSolver ℝ)
    (hn : s.neighbors_ = PrecomputeNeighbors (squareMesh ℝ)) (hv : s.vertex_num = 4) :
    NeighborsInRange s := by
  intro i _ j hj
  rw [hn] at hj
  rw [hv]
  exact PrecomputeNeighbors_lt (squareMesh ℝ) (by decide) i j hj

theorem square_weights_nonneg (s : ArapSolver ℝ)
    (hw : s.weight_ = PrecomputeWeight Real.sqrt (squareMesh ℝ))
    (hn : s.neighbors_ = PrecomputeNeighbors (squareMesh ℝ)) (hv : s.vertex_num = 4) :
    ∀ i, i < s.vertex_num → ∀ j, j ∈ s.neighbors_ i → i ≠ j → 0 ≤ s.weight_ i j := by
  intro i hi j hj hij
  have hj4 : j < 4 := by
    rw [hn] at hj
    exact PrecomputeNeighbors_lt (squareMesh ℝ) (by decide) i j hj
  rw [hv] at hi
  rw [hw, squareMesh_weight i j hi hj4, if_neg hij]
  split_ifs <;> norm_num

/-- C13: when weight_(i, j) >= 0 for every neighbour pair i != j, the total
that ComputeEnergy stores under the label Total is >= 0, whatever the current
positions and the rotations are. -/
theorem C13_energy_nonnegative_for_nonnegative_weights (s : ArapSolver K)
    (hw : ∀ i, i < s.vertex_num → ∀ j, j ∈ s.neighbors_ i → i ≠ j → 0 ≤ s.weight_ i j) :
    Energy.GetEnergy (ComputeEnergy s).2 "Total" = some (energyTotal s) ∧
    0 ≤ energyTotal s := by
  refine ⟨?_, energyTotal_nonneg s hw⟩
  simp [ComputeEnergy, Energy.GetEnergy, Energy.AddEnergyType]

/-- C13 at the precomputed unit square (side edges of weight 1/2, diagonal of
weight 0) with every vertex moved by (1, 2, 3). -/
theorem C13_energy_nonnegative_for_nonnegative_weights_witness :
    (∀ i, i < (squareTranslated Real.sqrt ![1, 2, 3]).vertex_num →
      ∀ j, j ∈ (squareTranslated Real.sqrt ![1, 2, 3]).neighbors_ i → i ≠ j →
        0 ≤ (squareTranslated Real.sqrt ![1, 2, 3]).weight_ i j) ∧
    Energy.GetEnergy (ComputeEnergy (squareTranslated Real.sqrt ![1, 2, 3])).2 "Total"
      = some (energyTotal (squareTranslated Real.sqrt ![1, 2, 3])) ∧
    0 ≤ energyTotal (squareTranslated Real.sqrt ![1, 2, 3]) :=
  ⟨square_weights_nonneg _ rfl rfl rfl,
    C13_energy_nonnegative_for_nonnegative_weights (squareTranslated Real.sqrt ![1, 2, 3])
      (square_weights_nonneg _ rfl rfl rfl)⟩

/-- C18: when every neighbour key is a vertex index, every current position is
R * (original position) + t and every rotation is R, ComputeEnergy stores the
total 0 under the label Total. -/
theorem C18_energy_vanishes_on_rigid_motions (s : ArapSolver K) (R : Matrix3 K)
    (t : Vector3 K) (hn : NeighborsInRange s)
    (hpos : ∀ v, v < s.vertex_num → s.vertices_updated_ v = Matrix.mulVec R (s.vertices_ v) + t)
    (hrot : ∀ v, v < s.vertex_num → s.rotations_.getD v 0 = R) :
    Energy.GetEnergy (ComputeEnergy s).2 "Total" = some 0 ∧ energyTotal s = 0 := by
  have h0 := energyTotal_rigid s R t hn hpos hrot
  refine ⟨?_, h0⟩
  simp [ComputeEnergy, Energy.GetEnergy, Energy.AddEnergyType, h0]

theorem squareTranslated_rotations (sqrt : K → K) (t : Vector3 K) (v : Nat) (hv : v < 4) :
    (squareTranslated sqrt t).rotations_.getD v 0 = 1 := by
  have h : (squareTranslated sqrt t).rotations_ = [1, 1, 1, 1] := rfl
  rw [h]
  interval_cases v <;> rfl

/-- C18 at the precomputed unit square moved by the translation (1, 2, 3), with
R the identity. -/
theorem C18_energy_vanishes_on_rigid_motions_witness :
    NeighborsInRange (squareTranslated Real.sqrt ![1, 2, 3]) ∧
    (∀ v, v < (squareTranslated Real.sqrt ![1, 2, 3]).vertex_num →
      (squareTranslated Real.sqrt ![1, 2, 3]).vertices_updated_ v
        = Matrix.mulVec 1 ((squareTranslated Real.sqrt ![1, 2, 3]).vertices_ v) + ![1, 2, 3]) ∧
    (∀ v, v < (squareTranslated Real.sqrt ![1, 2, 3]).vertex_num →
      (squareTranslated Real.sqrt ![1, 2, 3]).rotations_.getD v 0 = 1) ∧
    Energy.GetEnergy (ComputeEnergy (squareTranslated Real.sqrt ![1, 2, 3])).2 "Total" = some 0 ∧
    energyTotal (squareTranslated Real.sqrt ![1, 2, 3]) = 0 :=
  ⟨square_neighborsInRange _ rfl rfl, fun _ _ => rfl,
    fun v hv => squareTranslated_rotations Real.sqrt _ v hv,
    C18_energy_vanishes_on_rigid_motions (squareTranslated Real.sqrt ![1, 2, 3]) 1 ![1, 2, 3]
      (square_neighborsInRange _ rfl rfl) (fun _ _ => rfl)
      (fun v hv => squareTranslated_rotations Real.sqrt _ v hv)⟩

theorem foldl_add_eq_sum_of_monoid {α M : Type} [AddCommMonoid M] (g : α → M) (l : List α)
    (a : M) : l.foldl (fun acc x => acc + g x) a = a + (l.map g).sum := by
  induction l generalizing a with
  | nil => simp
  | cons x xs ih =>
    rw [List.foldl_cons, ih, List.map_cons, List.sum_cons, add_assoc]

theorem edgeProductAt_eq_rotationCovariance (s : ArapSolver K) (v : Nat) :
    edgeProductAt s v = rotationCovariance s v := by
  unfold edgeProductAt rotationCovariance
  rw [foldl_add_eq_sum_of_monoid, zero_add]

theorem edgeProduct_length (s : ArapSolver K) : (edgeProduct s).length = s.vertex_num := by
  simp [edgeProduct]

theorem edgeProduct_getD (s : ArapSolver K) (v : Nat) (hv : v < s.vertex_num) :
    (edgeProduct s).getD v 0 = rotationCovariance s v := by
  unfold edgeProduct
  rw [List.getD_eq_getElem _ _ (by simpa using hv)]
  simp [edgeProductAt_eq_rotationCovariance]

theorem foldl_set_range {β : Type} (g : Nat → β) (n : Nat) (L : List β) :
    ((List.range n).foldl (fun rot v => rot.set v (g v)) L).length = L.length ∧
    ∀ v, ((List.range n).foldl (fun rot v => rot.set v (g v)) L)[v]?
      = if v < n ∧ v < L.length then some (g v) else L[v]? := by
  induction n with
  | zero => simp
  | succ n ih =>
    rw [List.range_succ, List.foldl_append]
    simp only [List.foldl_cons, List.foldl_nil, List.length_set]
    refine ⟨ih.1, fun v => ?_⟩
    rw [List.getElem?_set, ih.1, ih.2 v]
    by_cases hvn : n = v
    · subst hvn
      by_cases hL : n < L.length
      · simp [hL]
      · simp [hL]
        omega
    · rw [if_neg hvn]
      have : (v < n + 1 ∧ v < L.length) ↔ (v < n ∧ v < L.length) := by
        constructor
        · rintro ⟨h1, h2⟩
          exact ⟨by omega, h2⟩
        · rintro ⟨h1, h2⟩
          exact ⟨by omega, h2⟩
      simp only [this]

theorem fitRotations_getD (polar : Matrix3 K → Matrix3 K) (s : ArapSolver K)
    (hlen : s.vertex_num ≤ s.rotations_.length) (v : Nat) (hv : v < s.vertex_num) :
    (fitRotations polar s).getD v 0 = (polar (rotationCovariance s v)).transpose := by
  unfold fitRotations
  rw [List.getD_eq_getElem?_getD,
    (foldl_set_range (fun v => (polar ((edgeProduct s).getD v 0)).transpose) _ _).2 v,
    if_pos ⟨hv, by omega⟩, Option.getD_some, edgeProduct_getD s v hv]

theorem fitRotations_of_seeded (polar : Matrix3 K → Matrix3 K) (s : ArapSolver K)
    (hseed : s.rotations_ = (edgeProduct s).map (fun e => (polar e).transpose)) :
    fitRotations polar s = s.rotations_ := by
  apply List.ext_getElem?
  intro v
  unfold fitRotations
  rw [(foldl_set_range (fun v => (polar ((edgeProduct s).getD v 0)).transpose) _ _).2 v]
  split_ifs with h
  · rw [hseed, List.getElem?_map, List.getD_eq_getElem?_getD]
    have hv : v < (edgeProduct s).length := by
      rw [edgeProduct_length]
      exact h.1
    rw [List.getElem?_eq_getElem hv]
    rfl
  · rfl

theorem SolvePreprocess_seeds_rotations (lu : SparseLU K) (polar : Matrix3 K → Matrix3 K)
    (s : ArapSolver K) (fixed_vertices : MatrixX3 K) (t : ArapSolver K)
    (hpass : ∃ h vu,
      lu s.free_.length (naiveLeft { s with fixed_vertices_ := fixed_vertices }) = some h ∧
      naiveColumns { s with fixed_vertices_ := fixed_vertices } h (List.finRange 3)
        s.vertices_updated_ = ColumnLoop.completed vu)
    (ht : SolvePreprocess lu polar s fixed_vertices = Outcome.returned t) :
    t.rotations_ = (edgeProduct t).map (fun e => (polar e).transpose) := by
  obtain ⟨h, vu, hlu, hcols⟩ := hpass
  unfold SolvePreprocess at ht
  simp only [hlu, hcols] at ht
  injection ht with ht
  subst ht
  rfl

theorem cramerHandle_exact (m : SparseMatrix K) (b x : Nat → K)
    (hdet : m 0 0 * m 1 1 - m 0 1 * m 1 0 ≠ 0)
    (hx : (cramerHandle m).solveVec b = some x) :
    m 0 0 * x 0 + m 0 1 * x 1 = b 0 ∧ m 1 0 * x 0 + m 1 1 * x 1 = b 1 := by
  simp only [cramerHandle, Option.some.injEq] at hx
  subst hx
  simp only [if_true, one_ne_zero, if_false]
  constructor <;>
  · field_simp
    ring

theorem naiveResidual_cramer (s : ArapSolver K) (c : Fin 3) (x : Nat → K)
    (hlen : s.free_.length = 2)
    (hdet : naiveLeft s 0 0 * naiveLeft s 1 1 - naiveLeft s 0 1 * naiveLeft s 1 0 ≠ 0)
    (hx : (cramerHandle (naiveLeft s)).solveVec (naiveRight s c) = some x) :
    naiveResidual s c x = 0 := by
  obtain ⟨h0, h1⟩ := cramerHandle_exact (naiveLeft s) (naiveRight s c) x hdet hx
  unfold naiveResidual
  rw [hlen]
  simp only [Finset.sum_range_succ, Finset.sum_range_zero, zero_add, h0, h1, sub_self]
  norm_num

theorem naiveColumns_completes (s : ArapSolver K) (h : LUHandle K)
    (hall : ∀ c, ∃ x, h.solveVec (naiveRight s c) = some x
      ∧ ¬ naiveResidual s c x > kMatrixDiffThreshold)
    (cols : List (Fin 3)) (vu : MatrixX3 K) :
    ∃ vu2, naiveColumns s h cols vu = ColumnLoop.completed vu2 := by
  induction cols generalizing vu with
  | nil => exact ⟨vu, rfl⟩
  | cons c rest ih =>
    obtain ⟨x, hx, hres⟩ := hall c
    simp only [naiveColumns, hx, if_neg hres]
    exact ih _

theorem kMatrixDiffThreshold_pos : (0 : K) < kMatrixDiffThreshold := by
  unfold kMatrixDiffThreshold
  positivity

theorem square_naive_passes (s : ArapSolver ℝ)
    (hw : s.weight_ = PrecomputeWeight Real.sqrt (squareMesh ℝ)) (hn : s.vertex_num = 4)
    (hfree : s.free_ = [2, 3]) (vu0 : MatrixX3 ℝ) :
    ∃ h vu, cramerLU s.free_.length (naiveLeft s) = some h ∧
      naiveColumns s h (List.finRange 3) vu0 = ColumnLoop.completed vu := by
  have hL := square_naiveLeft s hw hn hfree
  have h00 := hL 0 0 (by norm_num) (by norm_num)
  have h01 := hL 0 1 (by norm_num) (by norm_num)
  have h10 := hL 1 0 (by norm_num) (by norm_num)
  have h11 := hL 1 1 (by norm_num) (by norm_num)
  norm_num at h00 h01 h10 h11
  have hlen : s.free_.length = 2 := by rw [hfree]; rfl
  have hdet : naiveLeft s 0 0 * naiveLeft s 1 1 - naiveLeft s 0 1 * naiveLeft s 1 0 ≠ 0 := by
    rw [h00, h01, h10, h11]
    norm_num
  have hlu : cramerLU s.free_.length (naiveLeft s) = some (cramerHandle (naiveLeft s)) := by
    unfold cramerLU
    exact if_pos ⟨hlen, hdet⟩
  obtain ⟨vu, hvu⟩ := naiveColumns_completes s (cramerHandle (naiveLeft s))
    (fun c => ⟨_, rfl, by
      rw [naiveResidual_cramer s c _ hlen hdet rfl]
      exact not_lt.mpr (le_of_lt kMatrixDiffThreshold_pos)⟩)
    (List.finRange 3) vu0
  exact ⟨_, vu, hlu, hvu⟩

theorem square_preprocess_passes (fixed_vertices : MatrixX3 ℝ) :
    ∃ h vu,
      cramerLU (squareSolver Real.sqrt).free_.length
        (naiveLeft { squareSolver Real.sqrt with fixed_vertices_ := fixed_vertices }) = some h ∧
      naiveColumns { squareSolver Real.sqrt with fixed_vertices_ := fixed_vertices } h
        (List.finRange 3) (squareSolver Real.sqrt).vertices_updated_
        = ColumnLoop.completed vu :=
  square_naive_passes { squareSolver Real.sqrt with fixed_vertices_ := fixed_vertices }
    rfl rfl rfl _

theorem square_preprocess_returns (polar : Matrix3 ℝ → Matrix3 ℝ) (fixed_vertices : MatrixX3 ℝ) :
    ∃ t, SolvePreprocess cramerLU polar (squareSolver Real.sqrt) fixed_vertices
      = Outcome.returned t := by
  obtain ⟨h, vu, hlu, hcols⟩ := square_preprocess_passes fixed_vertices
  obtain ⟨t, ht, _⟩ := SolvePreprocess_completed cramerLU polar (squareSolver Real.sqrt)
    fixed_vertices h vu hlu hcols
  exact ⟨t, ht⟩

/-- C15: a SolvePreprocess that passes every residual check stores, for every
vertex v, rotations_[v] = transpose(polar(S_v)) with S_v the covariance of the
specification; step 1 of SolveOneIteration stores the same for every vertex of a
solver whose rotations_ has an entry per vertex; so step 1, and a
SolveOneIteration call that returns, made directly after that SolvePreprocess
leave rotations_ unchanged. -/
theorem C15_preprocess_seeds_the_rotation_fit (lu : SparseLU K)
    (polar : Matrix3 K → Matrix3 K) (s : ArapSolver K) (fixed_vertices : MatrixX3 K)
    (t u : ArapSolver K)
    (hpass : ∃ h vu,
      lu s.free_.length (naiveLeft { s with fixed_vertices_ := fixed_vertices }) = some h ∧
      naiveColumns { s with fixed_vertices_ := fixed_vertices } h (List.finRange 3)
        s.vertices_updated_ = ColumnLoop.completed vu)
    (ht : SolvePreprocess lu polar s fixed_vertices = Outcome.returned t)
    (hu : u.vertex_num ≤ u.rotations_.length) :
    t.rotations_.length = t.vertex_num ∧
    (∀ v, v < t.vertex_num →
      t.rotations_.getD v 0 = (polar (rotationCovariance t v)).transpose) ∧
    (∀ v, v < u.vertex_num →
      (fitRotations polar u).getD v 0 = (polar (rotationCovariance u v)).transpose) ∧
    fitRotations polar t = t.rotations_ ∧
    (∀ t2, SolveOneIteration polar t = Outcome.returned t2 → t2.rotations_ = t.rotations_) := by
  have hseed := SolvePreprocess_seeds_rotations lu polar s fixed_vertices t hpass ht
  have hfit := fitRotations_of_seeded polar t hseed
  have hlen : t.rotations_.length = t.vertex_num := by
    rw [hseed, List.length_map, edgeProduct_length]
  refine ⟨hlen, fun v hv => ?_, fun v hv => fitRotations_getD polar u hu v hv, hfit,
    fun t2 ht2 => ?_⟩
  · rw [← hfit]
    exact fitRotations_getD polar t (le_of_eq hlen.symm) v hv
  · unfold SolveOneIteration at ht2
    dsimp only at ht2
    split at ht2
    · exact absurd ht2 (by simp)
    · injection ht2 with ht2
      subst ht2
      exact hfit

/-- C15 at the precomputed unit square with an exact solver, vertex 1 pinned to
(2,0,0), and the identity as rotation fit. -/
theorem C15_preprocess_seeds_the_rotation_fit_witness :
    ∃ t, SolvePreprocess cramerLU (fun _ => 1) (squareSolver Real.sqrt) (squareTargets ℝ)
        = Outcome.returned t ∧
      (squareSolver Real.sqrt).vertex_num ≤ (squareSolver Real.sqrt).rotations_.length ∧
      t.rotations_.length = t.vertex_num ∧
      (∀ v, v < t.vertex_num →
        t.rotations_.getD v 0
          = ((fun _ => 1 : Matrix3 ℝ → Matrix3 ℝ) (rotationCovariance t v)).transpose) ∧
      fitRotations (fun _ => 1) t = t.rotations_ := by
  obtain ⟨t, ht⟩ := square_preprocess_returns (fun _ => 1) (squareTargets ℝ)
  have h := C15_preprocess_seeds_the_rotation_fit cramerLU (fun _ => 1) (squareSolver Real.sqrt)
    (squareTargets ℝ) t (squareSolver Real.sqrt) (square_preprocess_passes (squareTargets ℝ)) ht
    (by decide)
  exact ⟨t, ht, by decide, h.1, h.2.1, h.2.2.2.1⟩

theorem writeBackColumn_other_column (free : List Nat) (c a : Fin 3) (x : Nat → K)
    (vu : MatrixX3 K) (v : Nat) (hac : a ≠ c) : writeBackColumn free c x vu v a = vu v a := by
  unfold writeBackColumn
  generalize List.range free.length = l
  induction l generalizing vu with
  | nil => rfl
  | cons i is ih =>
    rw [List.foldl_cons, ih]
    by_cases hv : v = free.getD i 0
    · subst hv
      rw [Function.update_same, Function.update_noteq hac]
    · rw [Function.update_noteq hv]

theorem writeBackColumn_of_not_mem (free : List Nat) (c : Fin 3) (x : Nat → K)
    (vu : MatrixX3 K) (v : Nat) (hv : v ∉ free) : writeBackColumn free c x vu v = vu v := by
  unfold writeBackColumn
  apply @foldl_update_of_not_mem (Fin 3 → K) (fun i => free.getD i 0)
    (fun (vu : Nat → Fin 3 → K) i => Function.update (vu (free.getD i 0)) c (x i))
  intro i hi h
  exact hv (h ▸ getD_mem_of_lt free i (List.mem_range.mp hi))

theorem foldl_update_column_of_mem (idx : Nat → Nat) (c : Fin 3) (x : Nat → K)
    (l : List Nat) (hnd : l.Nodup) (hinj : ∀ a ∈ l, ∀ b ∈ l, idx a = idx b → a = b)
    (vu : MatrixX3 K) (i : Nat) (hi : i ∈ l) :
    (l.foldl (fun vu k => Function.update vu (idx k) (Function.update (vu (idx k)) c (x k))) vu)
      (idx i) c = x i := by
  induction l generalizing vu with
  | nil => exact absurd hi (List.not_mem_nil i)
  | cons a as ih =>
    rw [List.foldl_cons]
    have hnd2 := List.nodup_cons.mp hnd
    by_cases hia : i ∈ as
    · exact ih hnd2.2 (fun p hp q hq => hinj p (List.mem_cons_of_mem _ hp) q
        (List.mem_cons_of_mem _ hq)) _ hia
    · have hai : i = a := by
        rcases List.mem_cons.mp hi with h | h
        · exact h
        · exact absurd h hia
      subst hai
      rw [@foldl_update_of_not_mem (Fin 3 → K) idx
        (fun (vu : Nat → Fin 3 → K) k => Function.update (vu (idx k)) c (x k)) as _ (idx i)]
      · rw [Function.update_same, Function.update_same]
      · intro k hk hidx
        have := hinj k (List.mem_cons_of_mem _ hk) i (List.mem_cons_self _ _) hidx
        exact hnd2.1 (this ▸ hk)

theorem writeBackColumn_apply (free : List Nat) (c : Fin 3) (x : Nat → K) (vu : MatrixX3 K)
    (hnd : free.Nodup) (i : Nat) (hi : i < free.length) :
    writeBackColumn free c x vu (free.getD i 0) c = x i := by
  unfold writeBackColumn
  apply foldl_update_column_of_mem (fun k => free.getD k 0) c x
    (List.range free.length) (List.nodup_range _)
  · intro a ha b hb hab
    have ha2 := List.mem_range.mp ha
    have hb2 := List.mem_range.mp hb
    rw [List.getD_eq_getElem _ _ ha2, List.getD_eq_getElem _ _ hb2] at hab
    exact (List.Nodup.getElem_inj_iff hnd).mp hab
  · exact List.mem_range.mpr hi

theorem writeBackColumns_other_column (free : List Nat) (x : Fin 3 → Nat → K)
    (cols : List (Fin 3)) (vu : MatrixX3 K) (v : Nat) (a : Fin 3) (ha : a ∉ cols) :
    writeBackColumns free x cols vu v a = vu v a := by
  unfold writeBackColumns
  induction cols generalizing vu with
  | nil => rfl
  | cons b rest ih =>
    rw [List.foldl_cons, ih _ (fun h => ha (List.mem_cons_of_mem _ h))]
    exact writeBackColumn_other_column free b a (x b) vu v
      (fun h => ha (h ▸ List.mem_cons_self _ _))

theorem writeBackColumns_of_not_mem (free : List Nat) (x : Fin 3 → Nat → K)
    (cols : List (Fin 3)) (vu : MatrixX3 K) (v : Nat) (hv : v ∉ free) :
    writeBackColumns free x cols vu v = vu v := by
  unfold writeBackColumns
  induction cols generalizing vu with
  | nil => rfl
  | cons b rest ih =>
    rw [List.foldl_cons, ih, writeBackColumn_of_not_mem free b (x b) vu v hv]

theorem writeBackColumns_apply (free : List Nat) (x : Fin 3 → Nat → K)
    (cols : List (Fin 3)) (vu : MatrixX3 K) (hnd : free.Nodup) (i : Nat)
    (hi : i < free.length) (a : Fin 3) (ha : a ∈ cols) :
    writeBackColumns free x cols vu (free.getD i 0) a = x a i := by
  induction cols generalizing vu with
  | nil => exact absurd ha (List.not_mem_nil a)
  | cons b rest ih =>
    have hstep : writeBackColumns free x (b :: rest) vu
        = writeBackColumns free x rest (writeBackColumn free b (x b) vu) := rfl
    rw [hstep]
    by_cases har : a ∈ rest
    · exact ih _ har
    · have hab : a = b := by
        rcases List.mem_cons.mp ha with h | h
        · exact h
        · exact absurd h har
      subst hab
      rw [writeBackColumns_other_column free x rest _ _ a har]
      exact writeBackColumn_apply free a (x a) vu hnd i hi

theorem naiveColumns_returns_early (s : ArapSolver K) (h : LUHandle K)
    (x : Fin 3 → Nat → K) (pre : List (Fin 3)) (c : Fin 3) (post : List (Fin 3))
    (hpre : ∀ a ∈ pre, h.solveVec (naiveRight s a) = some (x a)
      ∧ ¬ naiveResidual s a (x a) > kMatrixDiffThreshold)
    (hc : h.solveVec (naiveRight s c) = some (x c))
    (hfail : naiveResidual s c (x c) > kMatrixDiffThreshold) (vu : MatrixX3 K) :
    naiveColumns s h (pre ++ c :: post) vu
      = ColumnLoop.returnedEarly (writeBackColumns s.free_ x pre vu) := by
  induction pre generalizing vu with
  | nil =>
    simp only [List.nil_append, naiveColumns, hc, if_pos hfail]
    rfl
  | cons b rest ih =>
    obtain ⟨hb, hres⟩ := hpre b (List.mem_cons_self _ _)
    simp only [List.cons_append, naiveColumns, hb, if_neg hres]
    exact ih (fun a ha => hpre a (List.mem_cons_of_mem _ ha)) _

theorem finRange_three_split (c : Fin 3) :
    ∃ pre post, List.finRange 3 = pre ++ c :: post ∧ ∀ a, a ∈ pre ↔ a < c := by
  fin_cases c
  · exact ⟨[], [1, 2], rfl, by decide⟩
  · exact ⟨[0], [2], rfl, by decide⟩
  · exact ⟨[0, 1], [], rfl, by decide⟩

theorem SolvePreprocess_early_return (lu : SparseLU K) (polar : Matrix3 K → Matrix3 K)
    (s : ArapSolver K) (fixed_vertices : MatrixX3 K) (h : LUHandle K) (c : Fin 3)
    (x : Fin 3 → Nat → K)
    (hlu : lu s.free_.length (naiveLeft { s with fixed_vertices_ := fixed_vertices }) = some h)
    (hsolve : ∀ a, a ≤ c →
      h.solveVec (naiveRight { s with fixed_vertices_ := fixed_vertices } a) = some (x a))
    (hpass : ∀ a, a < c →
      ¬ naiveResidual { s with fixed_vertices_ := fixed_vertices } a (x a)
        > kMatrixDiffThreshold)
    (hfail : naiveResidual { s with fixed_vertices_ := fixed_vertices } c (x c)
      > kMatrixDiffThreshold) :
    ∃ pre, (∀ a, a ∈ pre ↔ a < c) ∧
      SolvePreprocess lu polar s fixed_vertices
        = Outcome.returned { s with fixed_vertices_ := fixed_vertices,
                                    vertices_updated_ :=
                                      writeBackColumns s.free_ x pre s.vertices_updated_ } := by
  obtain ⟨pre, post, hsplit, hmem⟩ := finRange_three_split c
  refine ⟨pre, hmem, ?_⟩
  have hearly := naiveColumns_returns_early { s with fixed_vertices_ := fixed_vertices } h x
    pre c post
    (fun a ha => ⟨hsolve a (le_of_lt ((hmem a).mp ha)), hpass a ((hmem a).mp ha)⟩)
    (hsolve c (le_refl c)) hfail s.vertices_updated_
  unfold SolvePreprocess
  rw [hsplit]
  simp only [hlu, hearly]

theorem square_inexact_fails_first_axis :
    ∃ h x,
      inexactLU 1 (squareSolver Real.sqrt).free_.length
        (naiveLeft { squareSolver Real.sqrt with fixed_vertices_ := squareTargets ℝ }) = some h ∧
      h.solveVec (naiveRight { squareSolver Real.sqrt with fixed_vertices_ := squareTargets ℝ } 0)
        = some x ∧
      naiveResidual { squareSolver Real.sqrt with fixed_vertices_ := squareTargets ℝ } 0 x
        > kMatrixDiffThreshold := by
  have hL := square_naiveLeft { squareSolver Real.sqrt with fixed_vertices_ := squareTargets ℝ }
    rfl rfl rfl
  have hR := square_naiveRight { squareSolver Real.sqrt with fixed_vertices_ := squareTargets ℝ }
    rfl rfl rfl rfl rfl rfl
  have h00 := hL 0 0 (by norm_num) (by norm_num)
  have h01 := hL 0 1 (by norm_num) (by norm_num)
  have h10 := hL 1 0 (by norm_num) (by norm_num)
  have h11 := hL 1 1 (by norm_num) (by norm_num)
  have r0 := hR 0 (by norm_num)
  have r1 := hR 1 (by norm_num)
  norm_num at h00 h01 h10 h11 r0 r1
  refine ⟨displaced 1 (cramerHandle
      (naiveLeft { squareSolver Real.sqrt with fixed_vertices_ := squareTargets ℝ })),
    (fun i => (if i = 0 then (3 / 2 * (5 / 2) - (-1) * (-3 / 2)) / (5 / 4)
      else if i = 1 then (3 / 2 * (-3 / 2) - (-1) * (5 / 2)) / (5 / 4) else 0) + 1), ?_, ?_, ?_⟩
  · unfold inexactLU cramerLU
    rw [if_pos]
    · rfl
    · refine ⟨rfl, ?_⟩
      rw [h00, h01, h10, h11]
      norm_num
  · simp only [displaced, cramerHandle, Option.map_some', h00, h01, h10, h11, r0, r1]
    norm_num
  · have hlen : ({ squareSolver Real.sqrt with fixed_vertices_ := squareTargets ℝ }
        : ArapSolver ℝ).free_.length = 2 := rfl
    simp only [naiveResidual, hlen, Finset.sum_range_succ, Finset.sum_range_zero, h00, h01, h10,
      h11, r0, r1, kMatrixDiffThreshold]
    norm_num

/-- C14: when the factorisation and the solves of the coordinates up to c
succeed, the residuals of the coordinates before c are not above 1e-6 and the
residual of c is strictly above it, SolvePreprocess returns with rotations_ as
before the call, no entry of coordinate c or of a later one changed, every row
outside free_ (the fixed rows among them) unchanged, and the free rows holding
the solutions of the coordinates before c; a residual equal to 1e-6 makes the
loop write the coordinate back and go on. -/
theorem C14_early_return_on_failed_residual_check (lu : SparseLU K)
    (polar : Matrix3 K → Matrix3 K) (s : ArapSolver K) (fixed_vertices : MatrixX3 K)
    (h : LUHandle K) (c : Fin 3) (x : Fin 3 → Nat → K)
    (hlu : lu s.free_.length (naiveLeft { s with fixed_vertices_ := fixed_vertices }) = some h)
    (hsolve : ∀ a, a ≤ c →
      h.solveVec (naiveRight { s with fixed_vertices_ := fixed_vertices } a) = some (x a))
    (hpass : ∀ a, a < c →
      ¬ naiveResidual { s with fixed_vertices_ := fixed_vertices } a (x a)
        > kMatrixDiffThreshold)
    (hfail : naiveResidual { s with fixed_vertices_ := fixed_vertices } c (x c)
      > kMatrixDiffThreshold) :
    (∃ t, SolvePreprocess lu polar s fixed_vertices = Outcome.returned t ∧
      t.rotations_ = s.rotations_ ∧
      (∀ v a, c ≤ a → t.vertices_updated_ v a = s.vertices_updated_ v a) ∧
      (∀ v, v ∉ s.free_ → t.vertices_updated_ v = s.vertices_updated_ v) ∧
      (s.free_.Nodup → ∀ i, i < s.free_.length → ∀ a, a < c →
        t.vertices_updated_ (s.free_.getD i 0) a = x a i)) ∧
    (∀ (a : Fin 3) (rest : List (Fin 3)) (vu : MatrixX3 K) (y : Nat → K),
      h.solveVec (naiveRight { s with fixed_vertices_ := fixed_vertices } a) = some y →
      naiveResidual { s with fixed_vertices_ := fixed_vertices } a y = kMatrixDiffThreshold →
      naiveColumns { s with fixed_vertices_ := fixed_vertices } h (a :: rest) vu
        = naiveColumns { s with fixed_vertices_ := fixed_vertices } h rest
            (writeBackColumn s.free_ a y vu)) := by
  obtain ⟨pre, hmem, hret⟩ := SolvePreprocess_early_return lu polar s fixed_vertices h c x hlu
    hsolve hpass hfail
  refine ⟨⟨_, hret, rfl, fun v a hca => ?_, fun v hv => ?_, fun hnd i hi a hac => ?_⟩, ?_⟩
  · exact writeBackColumns_other_column s.free_ x pre _ v a
      (fun hin => absurd ((hmem a).mp hin) (not_lt.mpr hca))
  · exact writeBackColumns_of_not_mem s.free_ x pre _ v hv
  · exact writeBackColumns_apply s.free_ x pre _ hnd i hi a ((hmem a).mpr hac)
  · intro a rest vu y hy hres
    have hnot : ¬ naiveResidual { s with fixed_vertices_ := fixed_vertices } a y
        > kMatrixDiffThreshold := by
      rw [hres]
      exact lt_irrefl _
    simp only [naiveColumns, hy, if_neg hnot]

/-- C14 at the precomputed unit square with vertex 1 pinned to (2,0,0) and a
solve that is off by 1: the residual of the first coordinate is above 1e-6. -/
theorem C14_early_return_on_failed_residual_check_witness :
    ∃ t, SolvePreprocess (inexactLU 1) (fun _ => 1) (squareSolver Real.sqrt) (squareTargets ℝ)
        = Outcome.returned t ∧
      t.rotations_ = (squareSolver Real.sqrt).rotations_ ∧
      (∀ v a, (0 : Fin 3) ≤ a →
        t.vertices_updated_ v a = (squareSolver Real.sqrt).vertices_updated_ v a) ∧
      (∀ v, v ∉ (squareSolver Real.sqrt).free_ →
        t.vertices_updated_ v = (squareSolver Real.sqrt).vertices_updated_ v) := by
  obtain ⟨h, x, hlu, hx, hfail⟩ := square_inexact_fails_first_axis
  obtain ⟨t, ht, hrot, hcol, hrow, _⟩ :=
    (C14_early_return_on_failed_residual_check (inexactLU 1) (fun _ => 1)
      (squareSolver Real.sqrt) (squareTargets ℝ) h 0 (fun _ => x) hlu
      (fun a ha => by
        have h0 : a = 0 := le_antisymm ha (Fin.zero_le a)
        rw [h0]
        exact hx)
      (fun a ha => absurd ha (Fin.not_lt_zero a)) hfail).1
  exact ⟨t, ht, hrot, hcol, hrow⟩

theorem rhsNeighbor_eq (s : ArapSolver K) (i_pos : Nat) (row : Vector3 K) (j_pos : Nat) :
    rhsNeighbor s i_pos row j_pos = row + rhsContrib s i_pos j_pos := by
  unfold rhsNeighbor rhsContrib
  split_ifs
  · rw [add_assoc]
  · rw [add_zero]

theorem buildRhs_eq_sum (s : ArapSolver K) (i : Nat) (hi : i < s.free_.length) :
    buildRhs s i
      = ((s.neighbors_ (s.free_.getD i 0)).map (rhsContrib s (s.free_.getD i 0))).sum := by
  unfold buildRhs
  rw [if_pos hi]
  have h : (fun row j => rhsNeighbor s (s.free_.getD i 0) row j)
      = (fun row j => row + rhsContrib s (s.free_.getD i 0) j) := by
    funext row j
    exact rhsNeighbor_eq s _ row j
  show List.foldl (fun row j => rhsNeighbor s (s.free_.getD i 0) row j) 0 _ = _
  rw [h, foldl_add_eq_sum_of_monoid, zero_add]

theorem list_sum_apply {α : Type} (l : List α) (g : α → Vector3 K) (c : Fin 3) :
    (l.map g).sum c = (l.map (fun a => g a c)).sum := by
  induction l with
  | nil => rfl
  | cons a as ih => simp [ih]

theorem sum_range_list_sum_mul {α : Type} (l : List α) (g : α → Nat → K) (y : Nat → K)
    (n : Nat) :
    ∑ k in Finset.range n, (l.map (fun a => g a k)).sum * y k
      = (l.map (fun a => ∑ k in Finset.range n, g a k * y k)).sum := by
  induction l with
  | nil => simp
  | cons a as ih => simp [add_mul, Finset.sum_add_distrib, ih]

theorem free_pos_of_role (s : ArapSolver K) (hc : VertexInfoConsistent s) (n : Nat)
    (hn : n < s.vertex_num) (ht : (s.vertex_info_ n).type = VertexType.Free) :
    (s.vertex_info_ n).pos < s.free_.length ∧ s.free_.getD (s.vertex_info_ n).pos 0 = n := by
  have hmem : n ∈ s.free_ := by
    by_contra hnot
    have := hc.2 n hn hnot
    rw [ht] at this
    exact absurd this (by decide)
  obtain ⟨m, hm, rfl⟩ := List.getElem_of_mem hmem
  have hinfo := hc.1 m hm
  rw [List.getD_eq_getElem _ _ hm] at hinfo
  rw [hinfo]
  exact ⟨hm, List.getD_eq_getElem _ _ hm⟩

theorem not_mem_free_of_fixed (s : ArapSolver K) (hc : VertexInfoConsistent s) (n : Nat)
    (ht : (s.vertex_info_ n).type = VertexType.Fixed) : n ∉ s.free_ := by
  intro hmem
  obtain ⟨m, hm, rfl⟩ := List.getElem_of_mem hmem
  have hinfo := hc.1 m hm
  rw [List.getD_eq_getElem _ _ hm] at hinfo
  rw [hinfo] at ht
  exact absurd ht (by simp)

theorem lbTimes_eq_sum (s : ArapSolver K) (hlb : s.lb_operator_ = PrecomputeLbOperator s)
    (hc : VertexInfoConsistent s) (hn : NeighborsInRange s) (hf : FreeInRange s)
    (X : MatrixX3 K) (i : Nat) (hi : i < s.free_.length) (c : Fin 3) :
    lbTimes s X i c
      = ((s.neighbors_ (s.free_.getD i 0)).map (fun n =>
          s.weight_ (s.free_.getD i 0) n * X i c
            - (if (s.vertex_info_ n).type = VertexType.Free
               then s.weight_ (s.free_.getD i 0) n * X (s.vertex_info_ n).pos c else 0))).sum := by
  unfold lbTimes
  have hrow : ∀ k, s.lb_operator_ i k
      = ((s.neighbors_ (s.free_.getD i 0)).map
          (fun n => lbNeighborContrib s i (s.free_.getD i 0) n i k)).sum := by
    intro k
    rw [hlb]
    exact PrecomputeLbOperator_row s i k hi
  simp only [hrow]
  rw [sum_range_list_sum_mul (s.neighbors_ (s.free_.getD i 0))
    (fun n k => lbNeighborContrib s i (s.free_.getD i 0) n i k) (fun k => X k c)]
  apply congrArg
  apply List.map_congr_left
  intro n hnmem
  have hp : s.free_.getD i 0 < s.vertex_num := hf _ (getD_mem_of_lt _ _ hi)
  have hnlt : n < s.vertex_num := hn _ hp n hnmem
  simp only [lbNeighborContrib, true_and, add_mul, Finset.sum_add_distrib, ite_mul, zero_mul]
  rw [Finset.sum_ite_eq' (Finset.range s.free_.length) i, if_pos (Finset.mem_range.mpr hi)]
  by_cases ht : (s.vertex_info_ n).type = VertexType.Free
  · obtain ⟨hpos, _⟩ := free_pos_of_role s hc n hnlt ht
    simp only [ht, true_and, if_true]
    rw [Finset.sum_ite_eq' (Finset.range s.free_.length) (s.vertex_info_ n).pos,
      if_pos (Finset.mem_range.mpr hpos)]
    ring
  · simp only [ht, false_and, if_false, Finset.sum_const_zero]
    ring

theorem writeBackFree_apply (free : List Nat) (solution vu : MatrixX3 K)
    (hnd : free.Nodup) (i : Nat) (hi : i < free.length) :
    writeBackFree free solution vu (free.getD i 0) = solution i := by
  unfold writeBackFree
  apply foldl_update_of_mem (fun k => free.getD k 0) (fun k => solution k)
    (List.range free.length) (List.nodup_range _)
  · intro a ha b hb hab
    have ha2 := List.mem_range.mp ha
    have hb2 := List.mem_range.mp hb
    rw [List.getD_eq_getElem _ _ ha2, List.getD_eq_getElem _ _ hb2] at hab
    exact (List.Nodup.getElem_inj_iff hnd).mp hab
  · exact List.mem_range.mpr hi

theorem free_nodup_of_consistent (s : ArapSolver K) (hc : VertexInfoConsistent s) :
    s.free_.Nodup := by
  rw [List.nodup_iff_injective_get]
  intro a b hab
  apply Fin.ext
  have h := free_getD_injective s hc a.val b.val a.isLt b.isLt
  apply h
  rw [List.getD_eq_getElem _ _ a.isLt, List.getD_eq_getElem _ _ b.isLt]
  exact hab

theorem SolveOneIteration_returned (polar : Matrix3 K → Matrix3 K) (s t : ArapSolver K)
    (h : SolveOneIteration polar s = Outcome.returned t) :
    ∃ X, s.solver_.solveMat (buildRhs { s with rotations_ := fitRotations polar s }) = some X ∧
      t = { s with rotations_ := fitRotations polar s,
                   vertices_updated_ := writeBackFree s.free_ X s.vertices_updated_ } := by
  unfold SolveOneIteration at h
  dsimp only at h
  split at h
  · exact absurd h (by simp)
  · rename_i X hX
    injection h with h
    exact ⟨X, hX, h.symm⟩

theorem stationarity_of_exact_solve (s : ArapSolver K) (X : MatrixX3 K)
    (hlb : s.lb_operator_ = PrecomputeLbOperator s)
    (hc : VertexInfoConsistent s) (hn : NeighborsInRange s) (hf : FreeInRange s)
    (hX : ∀ i, i < s.free_.length → ∀ c, lbTimes s X i c = buildRhs s i c)
    (i : Nat) (hi : i < s.free_.length) :
    ((s.neighbors_ (s.free_.getD i 0)).map (fun j =>
        s.weight_ (s.free_.getD i 0) j
          • (writeBackFree s.free_ X s.vertices_updated_ (s.free_.getD i 0)
              - writeBackFree s.free_ X s.vertices_updated_ j))).sum
      = ((s.neighbors_ (s.free_.getD i 0)).map (fun j =>
          Matrix.mulVec ((s.weight_ (s.free_.getD i 0) j / 2)
              • (s.rotations_.getD (s.free_.getD i 0) 0 + s.rotations_.getD j 0))
            (s.vertices_ (s.free_.getD i 0) - s.vertices_ j))).sum := by
  have hnd := free_nodup_of_consistent s hc
  have hp : s.free_.getD i 0 < s.vertex_num := hf _ (getD_mem_of_lt _ _ hi)
  funext c
  have hXi := hX i hi c
  rw [lbTimes_eq_sum s hlb hc hn hf X i hi c, buildRhs_eq_sum s i hi, list_sum_apply] at hXi
  rw [list_sum_apply, list_sum_apply]
  generalize hpdef : s.free_.getD i 0 = p at *
  have hfix : (s.neighbors_ p).map (fun n =>
        s.weight_ p n * X i c
          - (if (s.vertex_info_ n).type = VertexType.Free
             then s.weight_ p n * X (s.vertex_info_ n).pos c else 0))
      = (s.neighbors_ p).map (fun n =>
          (s.weight_ p n • (writeBackFree s.free_ X s.vertices_updated_ p
              - writeBackFree s.free_ X s.vertices_updated_ n)) c
          + (if (s.vertex_info_ n).type = VertexType.Fixed
             then s.weight_ p n * s.vertices_updated_ n c else 0)) := by
    apply List.map_congr_left
    intro n hnmem
    have hnlt : n < s.vertex_num := hn p hp n hnmem
    have hwp : writeBackFree s.free_ X s.vertices_updated_ p = X i := by
      rw [← hpdef]
      exact writeBackFree_apply s.free_ X _ hnd i hi
    rw [hwp]
    cases htype : (s.vertex_info_ n).type with
    | Fixed =>
      have hnot := not_mem_free_of_fixed s hc n htype
      rw [writeBackFree_of_not_mem s.free_ X _ n hnot]
      simp only [Pi.smul_apply, Pi.sub_apply, smul_eq_mul, if_true]
      rw [if_neg (by simp)]
      ring
    | Free =>
      obtain ⟨hpos, hget⟩ := free_pos_of_role s hc n hnlt htype
      have hwn : writeBackFree s.free_ X s.vertices_updated_ n = X (s.vertex_info_ n).pos := by
        conv_lhs => rw [← hget]
        exact writeBackFree_apply s.free_ X _ hnd _ hpos
      rw [hwn]
      simp only [Pi.smul_apply, Pi.sub_apply, smul_eq_mul, if_true]
      rw [if_neg (by simp)]
      ring
  have hrhs : (s.neighbors_ p).map (fun a => rhsContrib s p a c)
      = (s.neighbors_ p).map (fun n =>
          Matrix.mulVec ((s.weight_ p n / 2)
              • (s.rotations_.getD p 0 + s.rotations_.getD n 0))
            (s.vertices_ p - s.vertices_ n) c
          + (if (s.vertex_info_ n).type = VertexType.Fixed
             then s.weight_ p n * s.vertices_updated_ n c else 0)) := by
    apply List.map_congr_left
    intro n _
    unfold rhsContrib
    split_ifs <;> simp
  rw [hfix, hrhs, List.sum_map_add, List.sum_map_add] at hXi
  exact add_right_cancel hXi

theorem cramerHandle_exact_mat (m : SparseMatrix K) (b X : MatrixX3 K)
    (hdet : m 0 0 * m 1 1 - m 0 1 * m 1 0 ≠ 0)
    (hX : (cramerHandle m).solveMat b = some X) (c : Fin 3) :
    m 0 0 * X 0 c + m 0 1 * X 1 c = b 0 c ∧ m 1 0 * X 0 c + m 1 1 * X 1 c = b 1 c := by
  simp only [cramerHandle, Option.some.injEq] at hX
  subst hX
  simp only [if_true, one_ne_zero, if_false]
  constructor <;>
  · field_simp
    ring

theorem squareSolver_lb (i j : Nat) (hi : i < 2) (hj : j < 2) :
    (squareSolver Real.sqrt).lb_operator_ i j = if i = j then 1 else -(1 / 2) := by
  have h := PrecomputeTables_lb Real.sqrt (squareMesh ℝ) (by decide) (by decide) i j hi hj
  have hlb : (squareSolver Real.sqrt).lb_operator_
      = (PrecomputeTables Real.sqrt (squareMesh ℝ)).lb_operator_ := rfl
  have hw : (PrecomputeTables Real.sqrt (squareMesh ℝ)).weight_
      = PrecomputeWeight Real.sqrt (squareMesh ℝ) := rfl
  have g0 : (squareMesh ℝ).free_.getD 0 0 = 2 := rfl
  have g1 : (squareMesh ℝ).free_.getD 1 0 = 3 := rfl
  rw [hlb, h, hw]
  interval_cases i <;> interval_cases j <;> simp only [g0, g1] <;>
    rw [squareMesh_weight _ _ (by norm_num) (by norm_num)] <;> norm_num

theorem squareSolver_det :
    (squareSolver Real.sqrt).lb_operator_ 0 0 * (squareSolver Real.sqrt).lb_operator_ 1 1
      - (squareSolver Real.sqrt).lb_operator_ 0 1 * (squareSolver Real.sqrt).lb_operator_ 1 0
      ≠ 0 := by
  rw [squareSolver_lb 0 0 (by norm_num) (by norm_num),
    squareSolver_lb 0 1 (by norm_num) (by norm_num),
    squareSolver_lb 1 0 (by norm_num) (by norm_num),
    squareSolver_lb 1 1 (by norm_num) (by norm_num)]
  norm_num

theorem square_solverExact (s : ArapSolver ℝ)
    (hlb : s.lb_operator_ = (squareSolver Real.sqrt).lb_operator_)
    (hsol : s.solver_ = cramerHandle (squareSolver Real.sqrt).lb_operator_)
    (hfree : s.free_ = [2, 3]) : SolverExact s := by
  intro rhs X hX i hi c
  rw [hsol] at hX
  obtain ⟨h0, h1⟩ := cramerHandle_exact_mat _ rhs X squareSolver_det hX c
  have hlen : s.free_.length = 2 := by rw [hfree]; rfl
  rw [hlen] at hi
  unfold lbTimes
  rw [hlen, hlb]
  simp only [Finset.sum_range_succ, Finset.sum_range_zero, zero_add]
  interval_cases i
  · exact h0
  · exact h1

theorem square_lbNonsingular (s : ArapSolver ℝ)
    (hlb : s.lb_operator_ = (squareSolver Real.sqrt).lb_operator_)
    (hfree : s.free_ = [2, 3]) : LbNonsingular s := by
  intro Y Z h i hi c
  have hlen : s.free_.length = 2 := by rw [hfree]; rfl
  rw [hlen] at hi h
  have e0 := h 0 (by norm_num) c
  have e1 := h 1 (by norm_num) c
  unfold lbTimes at e0 e1
  rw [hlen, hlb] at e0 e1
  simp only [Finset.sum_range_succ, Finset.sum_range_zero, zero_add,
    squareSolver_lb 0 0 (by norm_num) (by norm_num),
    squareSolver_lb 0 1 (by norm_num) (by norm_num),
    squareSolver_lb 1 0 (by norm_num) (by norm_num),
    squareSolver_lb 1 1 (by norm_num) (by norm_num)] at e0 e1
  norm_num at e0 e1
  interval_cases i
  · linarith
  · linarith

/-- C11: for a solver whose lb_operator_ is the one Precompute builds from its
weight_ and neighbors_, with vertex_info_ consistent with free_, neighbour keys
and free_ entries in range and an exact solve, the positions p' and rotations R
held after a SolveOneIteration call that returns satisfy at every free vertex i
sum_j weight_(i,j) (p'_i - p'_j) = sum_j (weight_(i,j)/2) (R_i + R_j) (p_i - p_j),
j running over all neighbours of i. -/
theorem C11_global_step_enforces_stationarity (polar : Matrix3 K → Matrix3 K)
    (s t : ArapSolver K) (hlb : s.lb_operator_ = PrecomputeLbOperator s)
    (hc : VertexInfoConsistent s) (hn : NeighborsInRange s) (hf : FreeInRange s)
    (hex : SolverExact s) (ht : SolveOneIteration polar s = Outcome.returned t)
    (i : Nat) (hi : i < s.free_.length) :
    ((s.neighbors_ (s.free_.getD i 0)).map (fun j =>
        s.weight_ (s.free_.getD i 0) j
          • (t.vertices_updated_ (s.free_.getD i 0) - t.vertices_updated_ j))).sum
      = ((s.neighbors_ (s.free_.getD i 0)).map (fun j =>
          Matrix.mulVec ((s.weight_ (s.free_.getD i 0) j / 2)
              • (t.rotations_.getD (s.free_.getD i 0) 0 + t.rotations_.getD j 0))
            (s.vertices_ (s.free_.getD i 0) - s.vertices_ j))).sum := by
  obtain ⟨X, hX, rfl⟩ := SolveOneIteration_returned polar s t ht
  exact stationarity_of_exact_solve { s with rotations_ := fitRotations polar s } X hlb hc hn hf
    (fun k hk c => hex _ X hX k hk c) i hi

/-- C11 at the precomputed unit square with the Cramer solver, free vertex 2
(free index 0). -/
theorem C11_global_step_enforces_stationarity_witness :
    ∃ t, SolveOneIteration (fun _ => 1) (squareSolver Real.sqrt) = Outcome.returned t ∧
      (squareSolver Real.sqrt).lb_operator_ = PrecomputeLbOperator (squareSolver Real.sqrt) ∧
      VertexInfoConsistent (squareSolver Real.sqrt) ∧ NeighborsInRange (squareSolver Real.sqrt) ∧
      FreeInRange (squareSolver Real.sqrt) ∧ SolverExact (squareSolver Real.sqrt) ∧
      (((squareSolver Real.sqrt).neighbors_ 2).map (fun j =>
          (squareSolver Real.sqrt).weight_ 2 j
            • (t.vertices_updated_ 2 - t.vertices_updated_ j))).sum
        = (((squareSolver Real.sqrt).neighbors_ 2).map (fun j =>
            Matrix.mulVec (((squareSolver Real.sqrt).weight_ 2 j / 2)
                • (t.rotations_.getD 2 0 + t.rotations_.getD j 0))
              ((squareSolver Real.sqrt).vertices_ 2 - (squareSolver Real.sqrt).vertices_ j))).sum :=
  ⟨_, rfl, rfl, by decide, square_neighborsInRange _ rfl rfl, by decide,
    square_solverExact _ rfl rfl rfl,
    C11_global_step_enforces_stationarity (fun _ => 1) (squareSolver Real.sqrt) _ rfl
      (by decide) (square_neighborsInRange _ rfl rfl) (by decide)
      (square_solverExact _ rfl rfl rfl) rfl 0 (by decide)⟩

theorem rigid_edge_identity (R : Matrix3 K) (a b tr : Vector3 K) (w : K) (c : Fin 3) :
    w * ((Matrix.mulVec R a + tr) c - (Matrix.mulVec R b + tr) c)
      = Matrix.mulVec ((w / 2) • (R + R)) (a - b) c := by
  rw [Matrix.smul_mulVec_assoc, Matrix.add_mulVec, Matrix.mulVec_sub]
  simp only [Pi.add_apply, Pi.smul_apply, Pi.sub_apply, smul_eq_mul]
  ring

theorem writeBackFree_same (free : List Nat) (solution vu : MatrixX3 K)
    (h : ∀ i, i < free.length → solution i = vu (free.getD i 0)) :
    writeBackFree free solution vu = vu := by
  unfold writeBackFree
  have hl : ∀ i ∈ List.range free.length, solution i = vu (free.getD i 0) :=
    fun i hi => h i (List.mem_range.mp hi)
  generalize List.range free.length = l at hl
  induction l with
  | nil => rfl
  | cons a as ih =>
    rw [List.foldl_cons, hl a (List.mem_cons_self _ _), Function.update_eq_self]
    exact ih (fun i hi => hl i (List.mem_cons_of_mem _ hi))

theorem rigid_positions_solve_system (s : ArapSolver K) (R : Matrix3 K) (tr : Vector3 K)
    (hlb : s.lb_operator_ = PrecomputeLbOperator s)
    (hc : VertexInfoConsistent s) (hn : NeighborsInRange s) (hf : FreeInRange s)
    (hpos : ∀ v, v < s.vertex_num →
      s.vertices_updated_ v = Matrix.mulVec R (s.vertices_ v) + tr)
    (hrot : ∀ v, v < s.vertex_num → s.rotations_.getD v 0 = R)
    (i : Nat) (hi : i < s.free_.length) (c : Fin 3) :
    lbTimes s (fun k => s.vertices_updated_ (s.free_.getD k 0)) i c = buildRhs s i c := by
  have hp : s.free_.getD i 0 < s.vertex_num := hf _ (getD_mem_of_lt _ _ hi)
  rw [lbTimes_eq_sum s hlb hc hn hf _ i hi c, buildRhs_eq_sum s i hi, list_sum_apply]
  apply congrArg
  apply List.map_congr_left
  intro n hnmem
  have hnlt : n < s.vertex_num := hn _ hp n hnmem
  have hedge := rigid_edge_identity R (s.vertices_ (s.free_.getD i 0)) (s.vertices_ n) tr
    (s.weight_ (s.free_.getD i 0) n) c
  rw [← hpos _ hp, ← hpos n hnlt] at hedge
  unfold rhsContrib
  rw [hrot _ hp, hrot n hnlt]
  cases htype : (s.vertex_info_ n).type with
  | Fixed =>
    simp only [if_true, Pi.add_apply, Pi.smul_apply, smul_eq_mul]
    rw [if_neg (by simp), ← hedge]
    ring
  | Free =>
    obtain ⟨_, hget⟩ := free_pos_of_role s hc n hnlt htype
    simp only [if_true, Pi.add_apply]
    rw [if_neg (by simp), hget, ← hedge]
    simp only [Pi.zero_apply]
    ring

/-- C17: let lb_operator_ be the matrix Precompute builds from weight_ and
neighbors_, vertex_info_ be consistent with free_, neighbour keys and free_
entries be in range, every current position be R * (original position) + t and
every rotation held after step 1 be R.  Then the current free positions solve
lb_operator_ * X = rhs for the rhs of step 2, and with an exact solve and a
non-singular lb_operator_ a SolveOneIteration call that returns leaves
vertices_updated_ as it was. -/
theorem C17_rigid_motion_is_fixed_point_of_global_step (polar : Matrix3 K → Matrix3 K)
    (s : ArapSolver K) (R : Matrix3 K) (tr : Vector3 K)
    (hlb : s.lb_operator_ = PrecomputeLbOperator s)
    (hc : VertexInfoConsistent s) (hn : NeighborsInRange s) (hf : FreeInRange s)
    (hpos : ∀ v, v < s.vertex_num →
      s.vertices_updated_ v = Matrix.mulVec R (s.vertices_ v) + tr)
    (hrot : ∀ v, v < s.vertex_num → (fitRotations polar s).getD v 0 = R) :
    (∀ i, i < s.free_.length → ∀ c,
      lbTimes s (fun k => s.vertices_updated_ (s.free_.getD k 0)) i c
        = buildRhs { s with rotations_ := fitRotations polar s } i c) ∧
    (SolverExact s → LbNonsingular s →
      ∀ t, SolveOneIteration polar s = Outcome.returned t →
        t.vertices_updated_ = s.vertices_updated_) := by
  have hsys : ∀ i, i < s.free_.length → ∀ c,
      lbTimes s (fun k => s.vertices_updated_ (s.free_.getD k 0)) i c
        = buildRhs { s with rotations_ := fitRotations polar s } i c :=
    fun i hi c => rigid_positions_solve_system { s with rotations_ := fitRotations polar s }
      R tr hlb hc hn hf hpos hrot i hi c
  refine ⟨hsys, fun hex hns t ht => ?_⟩
  obtain ⟨X, hX, rfl⟩ := SolveOneIteration_returned polar s t ht
  have hXeq : ∀ i, i < s.free_.length → ∀ c,
      X i c = s.vertices_updated_ (s.free_.getD i 0) c :=
    hns X (fun k => s.vertices_updated_ (s.free_.getD k 0))
      (fun i hi c => (hex _ X hX i hi c).trans (hsys i hi c).symm)
  exact writeBackFree_same s.free_ X s.vertices_updated_
    (fun i hi => funext (fun c => hXeq i hi c))

/-- C17 at the precomputed unit square moved by the translation (1, 2, 3), with
R the identity, the identity as rotation fit and the Cramer solver. -/
theorem C17_rigid_motion_is_fixed_point_of_global_step_witness :
    (squareTranslated Real.sqrt ![1, 2, 3]).lb_operator_
      = PrecomputeLbOperator (squareTranslated Real.sqrt ![1, 2, 3]) ∧
    VertexInfoConsistent (squareTranslated Real.sqrt ![1, 2, 3]) ∧
    NeighborsInRange (squareTranslated Real.sqrt ![1, 2, 3]) ∧
    FreeInRange (squareTranslated Real.sqrt ![1, 2, 3]) ∧
    SolverExact (squareTranslated Real.sqrt ![1, 2, 3]) ∧
    LbNonsingular (squareTranslated Real.sqrt ![1, 2, 3]) ∧
    (∀ i, i < (squareTranslated Real.sqrt ![1, 2, 3]).free_.length → ∀ c,
      lbTimes (squareTranslated Real.sqrt ![1, 2, 3])
          (fun k => (squareTranslated Real.sqrt ![1, 2, 3]).vertices_updated_
            ((squareTranslated Real.sqrt ![1, 2, 3]).free_.getD k 0)) i c
        = buildRhs { squareTranslated Real.sqrt ![1, 2, 3] with
            rotations_ := fitRotations (fun _ => 1) (squareTranslated Real.sqrt ![1, 2, 3]) }
            i c) ∧
    ∃ t, SolveOneIteration (fun _ => 1) (squareTranslated Real.sqrt ![1, 2, 3])
        = Outcome.returned t ∧
      t.vertices_updated_ = (squareTranslated Real.sqrt ![1, 2, 3]).vertices_updated_ := by
  have hrot : ∀ v, v < (squareTranslated Real.sqrt ![1, 2, 3]).vertex_num →
      (fitRotations (fun _ => 1) (squareTranslated Real.sqrt ![1, 2, 3])).getD v 0
        = (1 : Matrix3 ℝ) := by
    intro v hv
    rw [fitRotations_getD (fun _ => 1) _ (by decide) v hv]
    exact Matrix.transpose_one
  have hex := square_solverExact (squareTranslated Real.sqrt ![1, 2, 3]) rfl rfl rfl
  have hns := square_lbNonsingular (squareTranslated Real.sqrt ![1, 2, 3]) rfl rfl
  have h := C17_rigid_motion_is_fixed_point_of_global_step (fun _ => 1)
    (squareTranslated Real.sqrt ![1, 2, 3]) 1 ![1, 2, 3] rfl (by decide)
    (square_neighborsInRange _ rfl rfl) (by decide) (fun _ _ => rfl) hrot
  exact ⟨rfl, by decide, square_neighborsInRange _ rfl rfl, by decide, hex, hns, h.1,
    _, rfl, h.2 hex hns _ rfl⟩

theorem sum_range_getD (l : List Nat) (g : Nat → K) :
    ∑ k in Finset.range l.length, g (l.getD k 0) = (l.map g).sum := by
  induction l with
  | nil => simp
  | cons a as ih =>
    rw [List.length_cons, Finset.sum_range_succ', List.map_cons, List.sum_cons, ← ih, add_comm]
    rfl

theorem sum_free_add_sum_fixed (s : ArapSolver K) (hpart : PartitionsVertices s)
    (g : Nat → K) :
    (∑ k in Finset.range s.free_.length, g (s.free_.getD k 0))
      + ∑ k in Finset.range s.fixed_.length, g (s.fixed_.getD k 0)
      = ∑ v in Finset.range s.vertex_num, g v := by
  rw [sum_range_getD, sum_range_getD, ← List.sum_append, ← List.map_append,
    (hpart.map g).sum_eq, list_range_sum]

theorem sliceFree_times_translatedGuess (s : ArapSolver K) (tr : Vector3 K)
    (fixed_vertices : MatrixX3 K) (hpart : PartitionsVertices s)
    (hrow : ∀ r, r < s.vertex_num → ∑ v in Finset.range s.vertex_num, s.weight_ r v = 0)
    (hfv : ∀ i, i < s.fixed_.length →
      fixed_vertices i = s.vertices_ (s.fixed_.getD i 0) + tr)
    (c : Fin 3) (r : Nat) (hr : r < s.vertex_num) :
    ∑ k in Finset.range s.free_.length, sliceFree s r k * translatedGuess s tr c k
      = naiveB { s with fixed_vertices_ := fixed_vertices } c r := by
  unfold naiveB sliceFree sliceFixed translatedGuess
  dsimp only
  have hfix : ∑ k in Finset.range s.fixed_.length,
        s.weight_ r (s.fixed_.getD k 0) * fixed_vertices k c
      = ∑ k in Finset.range s.fixed_.length,
        s.weight_ r (s.fixed_.getD k 0) * (s.vertices_ (s.fixed_.getD k 0) c + tr c) := by
    apply Finset.sum_congr rfl
    intro k hk
    rw [hfv k (Finset.mem_range.mp hk)]
    rfl
  rw [hfix, eq_sub_iff_add_eq,
    sum_free_add_sum_fixed s hpart (fun v => s.weight_ r v * (s.vertices_ v c + tr c))]
  simp only [mul_add, Finset.sum_add_distrib]
  rw [← Finset.sum_mul, hrow r hr, zero_mul, add_zero]

theorem naiveLeftTimes_eq (s : ArapSolver K) (x : Nat → K) (i : Nat) :
    naiveLeftTimes s x i
      = ∑ r in Finset.range s.vertex_num,
          sliceFree s r i * ∑ j in Finset.range s.free_.length, sliceFree s r j * x j := by
  unfold naiveLeftTimes naiveLeft
  simp only [Finset.sum_mul, Finset.mul_sum]
  rw [Finset.sum_comm]
  apply Finset.sum_congr rfl
  intro r _
  apply Finset.sum_congr rfl
  intro j _
  ring

theorem translatedGuess_normal_equations (s : ArapSolver K) (tr : Vector3 K)
    (fixed_vertices : MatrixX3 K) (hpart : PartitionsVertices s)
    (hrow : ∀ r, r < s.vertex_num → ∑ v in Finset.range s.vertex_num, s.weight_ r v = 0)
    (hfv : ∀ i, i < s.fixed_.length →
      fixed_vertices i = s.vertices_ (s.fixed_.getD i 0) + tr)
    (c : Fin 3) (i : Nat) :
    naiveLeftTimes { s with fixed_vertices_ := fixed_vertices } (translatedGuess s tr c) i
      = naiveRight { s with fixed_vertices_ := fixed_vertices } c i := by
  rw [naiveLeftTimes_eq]
  unfold naiveRight
  apply Finset.sum_congr rfl
  intro r hr
  have h := sliceFree_times_translatedGuess s tr fixed_vertices hpart hrow hfv c r
    (Finset.mem_range.mp hr)
  have h2 : ∑ j in Finset.range
        ({ s with fixed_vertices_ := fixed_vertices } : ArapSolver K).free_.length,
        sliceFree { s with fixed_vertices_ := fixed_vertices } r j * translatedGuess s tr c j
      = naiveB { s with fixed_vertices_ := fixed_vertices } c r := h
  rw [h2]

theorem naiveResidual_eq (s : ArapSolver K) (c : Fin 3) (x : Nat → K) :
    naiveResidual s c x
      = ∑ i in Finset.range s.free_.length, (naiveLeftTimes s x i - naiveRight s c i) ^ 2 := rfl

theorem naiveResidual_of_exact (s : ArapSolver K) (c : Fin 3) (x : Nat → K)
    (h : ∀ i, i < s.free_.length → naiveLeftTimes s x i = naiveRight s c i) :
    naiveResidual s c x = 0 := by
  rw [naiveResidual_eq]
  apply Finset.sum_eq_zero
  intro i hi
  rw [h i (Finset.mem_range.mp hi), sub_self]
  norm_num

theorem writeBackFixed_of_not_mem (fixed : List Nat) (fixed_vertices vu : MatrixX3 K) (v : Nat)
    (h : v ∉ fixed) : writeBackFixed fixed fixed_vertices vu v = vu v := by
  unfold writeBackFixed
  apply foldl_update_of_not_mem (fun i => fixed.getD i 0) (fun _ i => fixed_vertices i)
  intro i hi hv
  exact h (hv ▸ getD_mem_of_lt fixed i (List.mem_range.mp hi))

theorem naiveColumns_of_good_solves (s : ArapSolver K) (h : LUHandle K)
    (x : Fin 3 → Nat → K)
    (hgood : ∀ c y, h.solveVec (naiveRight s c) = some y →
      ¬ naiveResidual s c y > kMatrixDiffThreshold ∧ ∀ i, i < s.free_.length → y i = x c i)
    (hnd : s.free_.Nodup) (cols : List (Fin 3)) (vu : MatrixX3 K) :
    naiveColumns s h cols vu = ColumnLoop.exited ∨
    ∃ vu2, naiveColumns s h cols vu = ColumnLoop.completed vu2 ∧
      (∀ i, i < s.free_.length → ∀ c, c ∈ cols → vu2 (s.free_.getD i 0) c = x c i) ∧
      (∀ v c, c ∉ cols → vu2 v c = vu v c) := by
  induction cols generalizing vu with
  | nil => exact Or.inr ⟨vu, rfl, fun _ _ c hc => absurd hc (List.not_mem_nil c), fun _ _ _ => rfl⟩
  | cons c rest ih =>
    cases hsol : h.solveVec (naiveRight s c) with
    | none =>
      left
      simp only [naiveColumns, hsol]
    | some y =>
      obtain ⟨hres, hy⟩ := hgood c y hsol
      have hstep : naiveColumns s h (c :: rest) vu
          = naiveColumns s h rest (writeBackColumn s.free_ c y vu) := by
        simp only [naiveColumns, hsol, if_neg hres]
      rw [hstep]
      rcases ih (writeBackColumn s.free_ c y vu) with hex | ⟨vu2, hvu2, hin, hout⟩
      · exact Or.inl hex
      · refine Or.inr ⟨vu2, hvu2, fun i hi a ha => ?_, fun v a ha => ?_⟩
        · by_cases har : a ∈ rest
          · exact hin i hi a har
          · have hac : a = c := by
              rcases List.mem_cons.mp ha with h1 | h1
              · exact h1
              · exact absurd h1 har
            subst hac
            rw [hout _ a har, writeBackColumn_apply s.free_ a y vu hnd i hi, hy i hi]
        · rw [hout v a (fun h1 => ha (List.mem_cons_of_mem _ h1))]
          exact writeBackColumn_other_column s.free_ c a y vu v
            (fun h1 => ha (h1 ▸ List.mem_cons_self _ _))

theorem partition_free_nodup (s : ArapSolver K) (hpart : PartitionsVertices s) :
    s.free_.Nodup := by
  have h : (s.free_ ++ s.fixed_).Nodup := hpart.nodup_iff.mpr (List.nodup_range _)
  exact (List.nodup_append.mp h).1

theorem partition_free_not_fixed (s : ArapSolver K) (hpart : PartitionsVertices s) (v : Nat)
    (hv : v ∈ s.free_) : v ∉ s.fixed_ := by
  have h : (s.free_ ++ s.fixed_).Nodup := hpart.nodup_iff.mpr (List.nodup_range _)
  exact fun hfix => (List.nodup_append.mp h).2.2 hv hfix

theorem ComputeCotangentExt_of_ne_zero (sqrt : K → K) (s : ArapSolver K) (f : Nat)
    (h : faceArea sqrt s f ≠ 0) (k : Fin 3) :
    ComputeCotangentExt sqrt s f k = some (ComputeCotangent sqrt s f k) := by
  have h4 : 4 * (norm sqrt (cross
      (s.vertices_ (s.faces_ f 1) - s.vertices_ (s.faces_ f 0))
      (s.vertices_ (s.faces_ f 2) - s.vertices_ (s.faces_ f 0))) / 2) ≠ 0 :=
    mul_ne_zero (by norm_num) h
  unfold ComputeCotangentExt ComputeCotangent divExt
  fin_cases k <;> simp [h4]

theorem ComputeCotangentExt_of_eq_zero (sqrt : K → K) (s : ArapSolver K) (f : Nat)
    (h : faceArea sqrt s f = 0) (k : Fin 3) : ComputeCotangentExt sqrt s f k = none := by
  have h4 : 4 * (norm sqrt (cross
      (s.vertices_ (s.faces_ f 1) - s.vertices_ (s.faces_ f 0))
      (s.vertices_ (s.faces_ f 2) - s.vertices_ (s.faces_ f 0))) / 2) = 0 := by
    have : norm sqrt (cross
      (s.vertices_ (s.faces_ f 1) - s.vertices_ (s.faces_ f 0))
      (s.vertices_ (s.faces_ f 2) - s.vertices_ (s.faces_ f 0))) / 2 = 0 := h
    rw [this, mul_zero]
  unfold ComputeCotangentExt divExt
  fin_cases k <;> simp [h4]

theorem weightEdgeExt_some (w : SparseMatrix K) (first second : Nat) (half_cot : K) :
    weightEdgeExt (fun a b => some (w a b)) first second (some half_cot)
      = fun a b => some (weightEdge w first second half_cot a b) := by
  funext a b
  simp only [weightEdgeExt, weightEdge, coeffRefAddExt, coeffRefSubExt, coeffRefAdd, addExt,
    subExt]
  split_ifs <;> simp [addExt, subExt, sub_eq_add_neg]

theorem foldl_ext_link {α : Type} (stepE : (Nat → Nat → Option K) → α → Nat → Nat → Option K)
    (step : SparseMatrix K → α → SparseMatrix K) (l : List α)
    (hl : ∀ x ∈ l, ∀ w : SparseMatrix K,
      stepE (fun a b => some (w a b)) x = fun a b => some (step w x a b))
    (w0 : SparseMatrix K) :
    l.foldl stepE (fun a b => some (w0 a b)) = fun a b => some (l.foldl step w0 a b) := by
  induction l generalizing w0 with
  | nil => rfl
  | cons x xs ih =>
    rw [List.foldl_cons, List.foldl_cons, hl x (List.mem_cons_self _ _) w0]
    exact ih (fun y hy => hl y (List.mem_cons_of_mem _ hy)) _

theorem weightFaceExt_some (sqrt : K → K) (s : ArapSolver K) (f : Nat)
    (h : faceArea sqrt s f ≠ 0) (w : SparseMatrix K) :
    weightFaceExt sqrt s (fun a b => some (w a b)) f
      = fun a b => some (weightFace sqrt s w f a b) := by
  unfold weightFaceExt weightFace
  apply foldl_ext_link
  intro k _ w2
  simp only [ComputeCotangentExt_of_ne_zero sqrt s f h k, halfExt]
  exact weightEdgeExt_some w2 _ _ _

theorem PrecomputeWeightExt_some (sqrt : K → K) (s : ArapSolver K)
    (hpos : FacesPositiveArea sqrt s) (a b : Nat) :
    PrecomputeWeightExt sqrt s a b = some (PrecomputeWeight sqrt s a b) := by
  unfold PrecomputeWeightExt PrecomputeWeight
  have h := foldl_ext_link (weightFaceExt sqrt s) (weightFace sqrt s) (List.range s.face_num)
    (fun f hf w => weightFaceExt_some sqrt s f (ne_of_gt (hpos f (List.mem_range.mp hf))) w)
    (fun _ _ => 0)
  exact congrFun (congrFun h a) b

theorem foldl_addExt_some (g : Nat → K) (l : List Nat) (acc : K) :
    l.foldl (fun acc j => addExt acc (some (g j))) (some acc) = some (acc + (l.map g).sum) := by
  induction l generalizing acc with
  | nil => simp
  | cons j js ih =>
    rw [List.foldl_cons]
    show List.foldl _ (some (acc + g j)) js = _
    rw [ih, List.map_cons, List.sum_cons, add_assoc]

theorem foldl_addExt_none (g : Nat → Option K) (l : List Nat) (acc : Option K)
    (h : acc = none ∨ ∃ j ∈ l, g j = none) :
    l.foldl (fun acc j => addExt acc (g j)) acc = none := by
  induction l generalizing acc with
  | nil =>
    rcases h with h | ⟨j, hj, _⟩
    · exact h
    · exact absurd hj (List.not_mem_nil j)
  | cons j js ih =>
    rw [List.foldl_cons]
    apply ih
    rcases h with h | ⟨j2, hj2, hg⟩
    · left
      rw [h]
      rfl
    · rcases List.mem_cons.mp hj2 with h1 | h1
      · left
        rw [← h1, hg]
        cases acc <;> rfl
      · exact Or.inr ⟨j2, h1, hg⟩

theorem rowSumExt_of_positive_area (sqrt : K → K) (s : ArapSolver K) (hr : FacesInRange s)
    (hpos : FacesPositiveArea sqrt s) (i : Nat) : rowSumExt sqrt s i = some 0 := by
  unfold rowSumExt
  have h : (fun (acc : Option K) j => addExt acc (PrecomputeWeightExt sqrt s i j))
      = (fun acc j => addExt acc (some (PrecomputeWeight sqrt s i j))) := by
    funext acc j
    rw [PrecomputeWeightExt_some sqrt s hpos]
  rw [h, foldl_addExt_some, zero_add, list_range_sum, PrecomputeWeight_rowSum sqrt s hr i]

theorem addExt_none_right (a : Option K) : addExt a none = none := by
  cases a <;> rfl

theorem subExt_none_right (a : Option K) : subExt a none = none := by
  cases a <;> rfl

theorem subExt_none_left (b : Option K) : subExt none b = none := rfl

theorem weightEdgeExt_none_diag (w : Nat → Nat → Option K) (first second : Nat) :
    weightEdgeExt w first second none first first = none := by
  simp only [weightEdgeExt, coeffRefAddExt, coeffRefSubExt, addExt_none_right,
    subExt_none_right]
  split_ifs <;> first | rfl | simp_all

theorem weightFaceExt_none_diag (sqrt : K → K) (s : ArapSolver K) (f : Nat)
    (h : faceArea sqrt s f = 0) (w : Nat → Nat → Option K) :
    weightFaceExt sqrt s w f (s.faces_ f 0) (s.faces_ f 0) = none := by
  have h3 : List.finRange 3 = [0, 1, 2] := rfl
  unfold weightFaceExt
  rw [h3]
  simp only [List.foldl_cons, List.foldl_nil, ComputeCotangentExt_of_eq_zero sqrt s f h, halfExt]
  exact weightEdgeExt_none_diag _ _ _

theorem degenerateMesh_face_area : faceArea Real.sqrt (degenerateMesh ℝ) 2 = 0 := by
  simp [faceArea, degenerateMesh, newSolver, norm, cross, squaredNorm]

theorem degenerateMesh_weight_not_finite :
    PrecomputeWeightExt Real.sqrt (degenerateMesh ℝ) 0 0 = none := by
  have hrange : List.range (degenerateMesh ℝ).face_num = [0, 1] ++ [2] := rfl
  unfold PrecomputeWeightExt
  rw [hrange, List.foldl_append]
  exact weightFaceExt_none_diag Real.sqrt (degenerateMesh ℝ) 2 degenerateMesh_face_area _

/-- C1, counterexample: in the mesh degenerateMesh, whose face indices are in
range, the face (0, 1, 4) has area 0, ComputeCotangent divides by four_area = 0,
the entry weight_(0, 0) is not a finite number after the weight loop, and neither
is the sum of row 0: the row sum is not 0. -/
theorem C1_row_sum_not_zero_on_degenerate_mesh :
    FacesInRange (degenerateMesh ℝ) ∧
    faceArea Real.sqrt (degenerateMesh ℝ) 2 = 0 ∧
    PrecomputeWeightExt Real.sqrt (degenerateMesh ℝ) 0 0 = none ∧
    rowSumExt Real.sqrt (degenerateMesh ℝ) 0 ≠ some 0 := by
  refine ⟨by decide, degenerateMesh_face_area, degenerateMesh_weight_not_finite, ?_⟩
  have h : rowSumExt Real.sqrt (degenerateMesh ℝ) 0 = none := by
    unfold rowSumExt
    apply foldl_addExt_none
    exact Or.inr ⟨0, by decide, degenerateMesh_weight_not_finite⟩
  rw [h]
  exact fun h2 => Option.noConfusion h2

/-- C1, amended: with in-range face indices and every face of positive area,
after the weight loop of Precompute every entry of weight_ is finite, every row
of weight_ sums to zero over all columns (the diagonal included), and the
diagonal entry of a vertex is minus the sum of the other entries of its row. -/
theorem C1_weight_row_sums_zero_for_positive_area (sqrt : K → K) (s : ArapSolver K)
    (hr : FacesInRange s) (hpos : FacesPositiveArea sqrt s) (i : Nat) :
    (∀ j, PrecomputeWeightExt sqrt s i j = some (PrecomputeWeight sqrt s i j)) ∧
    rowSumExt sqrt s i = some 0 ∧
    (∑ j in Finset.range s.vertex_num, PrecomputeWeight sqrt s i j = 0) ∧
    (i < s.vertex_num → PrecomputeWeight sqrt s i i
      = - ∑ j in (Finset.range s.vertex_num).erase i, PrecomputeWeight sqrt s i j) := by
  have hrow := PrecomputeWeight_rowSum sqrt s hr i
  refine ⟨fun j => PrecomputeWeightExt_some sqrt s hpos i j,
    rowSumExt_of_positive_area sqrt s hr hpos i, hrow, fun hi => ?_⟩
  rw [← Finset.add_sum_erase _ _ (Finset.mem_range.mpr hi)] at hrow
  linarith

/-- C1, amended, at the one-triangle mesh with the real square root, row 0. -/
theorem C1_weight_row_sums_zero_for_positive_area_witness :
    FacesInRange (triangleMesh ℝ) ∧ FacesPositiveArea Real.sqrt (triangleMesh ℝ) ∧
    rowSumExt Real.sqrt (triangleMesh ℝ) 0 = some 0 ∧
    (∑ j in Finset.range (triangleMesh ℝ).vertex_num,
        PrecomputeWeight Real.sqrt (triangleMesh ℝ) 0 j = 0) :=
  ⟨by decide, triangleMesh_positiveArea,
    (C1_weight_row_sums_zero_for_positive_area Real.sqrt (triangleMesh ℝ) (by decide)
      triangleMesh_positiveArea 0).2.1,
    (C1_weight_row_sums_zero_for_positive_area Real.sqrt (triangleMesh ℝ) (by decide)
      triangleMesh_positiveArea 0).2.2.1⟩

theorem pullForm_add (x : Nat → K) (p : Nat → Nat) (n : Nat) (g1 g2 : Nat → Nat → K) :
    pullForm x p n (fun a b => g1 a b + g2 a b) = pullForm x p n g1 + pullForm x p n g2 := by
  unfold pullForm
  simp only [mul_add, add_mul, Finset.sum_add_distrib]

theorem pullForm_sub (x : Nat → K) (p : Nat → Nat) (n : Nat) (g1 g2 : Nat → Nat → K) :
    pullForm x p n (fun a b => g1 a b - g2 a b) = pullForm x p n g1 - pullForm x p n g2 := by
  unfold pullForm
  simp only [mul_sub, sub_mul, Finset.sum_sub_distrib]

theorem pullForm_neg (x : Nat → K) (p : Nat → Nat) (n : Nat) (g : Nat → Nat → K) :
    pullForm x p n (fun a b => - g a b) = - pullForm x p n g := by
  unfold pullForm
  simp only [mul_neg, neg_mul, Finset.sum_neg_distrib]

theorem pullForm_sum (x : Nat → K) (p : Nat → Nat) (n : Nat) (G : Nat → Nat → Nat → K)
    (m : Nat) :
    pullForm x p n (fun a b => ∑ f in Finset.range m, G f a b)
      = ∑ f in Finset.range m, pullForm x p n (G f) := by
  induction m with
  | zero => simp [pullForm]
  | succ m ih =>
    simp only [Finset.sum_range_succ]
    rw [pullForm_add, ih]

theorem pullForm_indicator (x : Nat → K) (p : Nat → Nat) (n : Nat) (u v : Nat) (h : K) :
    pullForm x p n (fun a b => if a = u ∧ b = v then h else 0)
      = h * vertexValue x p n u * vertexValue x p n v := by
  unfold pullForm vertexValue
  rw [mul_assoc, Finset.sum_mul_sum, Finset.mul_sum]
  apply Finset.sum_congr rfl
  intro i _
  rw [Finset.mul_sum]
  apply Finset.sum_congr rfl
  intro j _
  by_cases h1 : p i = u <;> by_cases h2 : p j = v <;> simp [h1, h2]
  ring

theorem pullForm_edgeContrib (x : Nat → K) (p : Nat → Nat) (n : Nat) (first second : Nat)
    (half_cot : K) :
    pullForm x p n (edgeContrib first second half_cot)
      = - (half_cot * (vertexValue x p n first - vertexValue x p n second) ^ 2) := by
  have h : edgeContrib first second half_cot
      = fun a b => (if a = first ∧ b = second then half_cot else 0)
          + (if a = second ∧ b = first then half_cot else 0)
          - (if a = first ∧ b = first then half_cot else 0)
          - (if a = second ∧ b = second then half_cot else 0) := by
    funext a b
    rfl
  rw [h, pullForm_sub, pullForm_sub, pullForm_add, pullForm_indicator, pullForm_indicator,
    pullForm_indicator, pullForm_indicator]
  ring

theorem face_form_nonneg (sqrt : K → K) (s : ArapSolver K) (f : Nat)
    (harea : 0 < faceArea sqrt s f) (u0 u1 u2 : K) :
    0 ≤ ComputeCotangent sqrt s f 0 / 2 * (u1 - u2) ^ 2
      + ComputeCotangent sqrt s f 1 / 2 * (u2 - u0) ^ 2
      + ComputeCotangent sqrt s f 2 / 2 * (u0 - u1) ^ 2 := by
  have h4 : 0 < 4 * (norm sqrt (cross
      (s.vertices_ (s.faces_ f 1) - s.vertices_ (s.faces_ f 0))
      (s.vertices_ (s.faces_ f 2) - s.vertices_ (s.faces_ f 0))) / 2) := by
    have : 0 < norm sqrt (cross
      (s.vertices_ (s.faces_ f 1) - s.vertices_ (s.faces_ f 0))
      (s.vertices_ (s.faces_ f 2) - s.vertices_ (s.faces_ f 0))) / 2 := harea
    linarith
  simp only [ComputeCotangent, Matrix.cons_val_zero, Matrix.cons_val_one, Matrix.head_cons,
    Matrix.cons_val_two, Matrix.tail_cons]
  generalize s.vertices_ (s.faces_ f 0) = A at *
  generalize s.vertices_ (s.faces_ f 1) = B at *
  generalize s.vertices_ (s.faces_ f 2) = C at *
  generalize 4 * (norm sqrt (cross (B - A) (C - A)) / 2) = d at *
  have key : (squaredNorm (C - A) + squaredNorm (A - B) - squaredNorm (B - C)) / d / 2
        * (u1 - u2) ^ 2
      + (squaredNorm (A - B) + squaredNorm (B - C) - squaredNorm (C - A)) / d / 2
        * (u2 - u0) ^ 2
      + (squaredNorm (B - C) + squaredNorm (C - A) - squaredNorm (A - B)) / d / 2
        * (u0 - u1) ^ 2
      = squaredNorm ((u2 - u0) • (B - A) - (u1 - u0) • (C - A)) / d := by
    field_simp
    simp only [squaredNorm, Pi.sub_apply, Pi.smul_apply, smul_eq_mul]
    ring
  rw [key]
  exact div_nonneg (squaredNorm_nonneg _) (le_of_lt h4)

theorem pullForm_faceContrib (sqrt : K → K) (s : ArapSolver K) (f : Nat) (x : Nat → K)
    (p : Nat → Nat) (n : Nat) :
    pullForm x p n (faceContrib sqrt s f)
      = - (ComputeCotangent sqrt s f 0 / 2
            * (vertexValue x p n (s.faces_ f 1) - vertexValue x p n (s.faces_ f 2)) ^ 2
          + ComputeCotangent sqrt s f 1 / 2
            * (vertexValue x p n (s.faces_ f 2) - vertexValue x p n (s.faces_ f 0)) ^ 2
          + ComputeCotangent sqrt s f 2 / 2
            * (vertexValue x p n (s.faces_ f 0) - vertexValue x p n (s.faces_ f 1)) ^ 2) := by
  have h : faceContrib sqrt s f
      = fun a b =>
          edgeContrib (s.faces_ f 1) (s.faces_ f 2) (ComputeCotangent sqrt s f 0 / 2) a b
          + edgeContrib (s.faces_ f 2) (s.faces_ f 0) (ComputeCotangent sqrt s f 1 / 2) a b
          + edgeContrib (s.faces_ f 0) (s.faces_ f 1) (ComputeCotangent sqrt s f 2 / 2) a b := by
    funext a b
    exact faceContrib_expand sqrt s f a b
  rw [h, pullForm_add, pullForm_add, pullForm_edgeContrib, pullForm_edgeContrib,
    pullForm_edgeContrib]
  ring

theorem pullForm_PrecomputeWeight_nonpos (sqrt : K → K) (s : ArapSolver K)
    (hpos : FacesPositiveArea sqrt s) (x : Nat → K) (p : Nat → Nat) (n : Nat) :
    pullForm x p n (PrecomputeWeight sqrt s) ≤ 0 := by
  have h : PrecomputeWeight sqrt s
      = fun a b => ∑ f in Finset.range s.face_num, faceContrib sqrt s f a b := by
    funext a b
    rw [PrecomputeWeight_apply, list_range_sum]
  rw [h, pullForm_sum]
  apply Finset.sum_nonpos
  intro f hf
  rw [pullForm_faceContrib]
  exact neg_nonpos.mpr (face_form_nonneg sqrt s f (hpos f (Finset.mem_range.mp hf)) _ _ _)

theorem quadForm_PrecomputeTables (sqrt : K → K) (s : ArapSolver K) (hr : FacesInRange s)
    (hc : VertexInfoConsistent s) (x : Nat → K) :
    quadForm (PrecomputeTables sqrt s) x
      = - pullForm x (fun i => s.free_.getD i 0) s.free_.length (PrecomputeWeight sqrt s) := by
  rw [← pullForm_neg]
  unfold quadForm pullForm
  apply Finset.sum_congr rfl
  intro i hi
  apply Finset.sum_congr rfl
  intro j hj
  have h := PrecomputeTables_lb sqrt s hr hc i j (Finset.mem_range.mp hi) (Finset.mem_range.mp hj)
  rw [h]
  rfl

/-- C12: for a mesh with in-range faces of positive area and vertex_info_
consistent with free_, the system matrix built by Precompute is positive
semi-definite: x^T * lb_operator_ * x >= 0 for every vector x over the free
indices, whatever the signs of the cotangents. -/
theorem C12_lb_operator_positive_semidefinite (sqrt : K → K) (s : ArapSolver K)
    (hr : FacesInRange s) (hpos : FacesPositiveArea sqrt s) (hc : VertexInfoConsistent s)
    (x : Nat → K) : 0 ≤ quadForm (PrecomputeTables sqrt s) x := by
  rw [quadForm_PrecomputeTables sqrt s hr hc x]
  exact neg_nonneg.mpr (pullForm_PrecomputeWeight_nonpos sqrt s hpos x _ _)

theorem obtuseMesh_positiveArea : FacesPositiveArea Real.sqrt (obtuseMesh ℝ) := by
  intro f hf
  have hf0 : f = 0 := by
    have : f < 1 := hf
    omega
  subst hf0
  simp [faceArea, norm, squaredNorm, cross, obtuseMesh, newSolver]

theorem obtuseMesh_weight_negative : PrecomputeWeight Real.sqrt (obtuseMesh ℝ) 1 2 = -(1 / 2) := by
  have h1 : List.range 1 = [0] := rfl
  rw [PrecomputeWeight_apply]
  have hf : (obtuseMesh ℝ).face_num = 1 := rfl
  rw [hf, h1]
  simp only [List.map_cons, List.map_nil, List.sum_cons, List.sum_nil, faceContrib_expand]
  simp [edgeContrib, obtuseMesh, newSolver, ComputeCotangent, squaredNorm, cross, norm]
  norm_num

/-- C12 at the obtuse triangle, whose edge (1, 2) has the negative weight -1/2,
with x = (1, -1). -/
theorem C12_lb_operator_positive_semidefinite_witness :
    FacesInRange (obtuseMesh ℝ) ∧ FacesPositiveArea Real.sqrt (obtuseMesh ℝ) ∧
    VertexInfoConsistent (obtuseMesh ℝ) ∧
    PrecomputeWeight Real.sqrt (obtuseMesh ℝ) 1 2 = -(1 / 2) ∧
    0 ≤ quadForm (PrecomputeTables Real.sqrt (obtuseMesh ℝ)) (fun i => if i = 0 then 1 else -1) :=
  ⟨by decide, obtuseMesh_positiveArea, by decide, obtuseMesh_weight_negative,
    C12_lb_operator_positive_semidefinite Real.sqrt (obtuseMesh ℝ) (by decide)
      obtuseMesh_positiveArea (by decide) (fun i => if i = 0 then 1 else -1)⟩

theorem naiveColumns_completed_of_good_solves (s : ArapSolver K) (h : LUHandle K)
    (x : Fin 3 → Nat → K)
    (hsolve : ∀ c, ∃ y, h.solveVec (naiveRight s c) = some y)
    (hgood : ∀ c y, h.solveVec (naiveRight s c) = some y →
      ¬ naiveResidual s c y > kMatrixDiffThreshold ∧ ∀ i, i < s.free_.length → y i = x c i)
    (hnd : s.free_.Nodup) (cols : List (Fin 3)) (vu : MatrixX3 K) :
    ∃ vu2, naiveColumns s h cols vu = ColumnLoop.completed vu2 ∧
      (∀ i, i < s.free_.length → ∀ c, c ∈ cols → vu2 (s.free_.getD i 0) c = x c i) ∧
      (∀ v c, c ∉ cols → vu2 v c = vu v c) := by
  induction cols generalizing vu with
  | nil => exact ⟨vu, rfl, fun _ _ c hc => absurd hc (List.not_mem_nil c), fun _ _ _ => rfl⟩
  | cons c rest ih =>
    obtain ⟨y, hsol⟩ := hsolve c
    obtain ⟨hres, hy⟩ := hgood c y hsol
    have hstep : naiveColumns s h (c :: rest) vu
        = naiveColumns s h rest (writeBackColumn s.free_ c y vu) := by
      simp only [naiveColumns, hsol, if_neg hres]
    rw [hstep]
    obtain ⟨vu2, hvu2, hin, hout⟩ := ih (writeBackColumn s.free_ c y vu)
    refine ⟨vu2, hvu2, fun i hi a ha => ?_, fun v a ha => ?_⟩
    · by_cases har : a ∈ rest
      · exact hin i hi a har
      · have hac : a = c := by
          rcases List.mem_cons.mp ha with h1 | h1
          · exact h1
          · exact absurd h1 har
        subst hac
        rw [hout _ a har, writeBackColumn_apply s.free_ a y vu hnd i hi, hy i hi]
    · rw [hout v a (fun h1 => ha (List.mem_cons_of_mem _ h1))]
      exact writeBackColumn_other_column s.free_ c a y vu v
        (fun h1 => ha (h1 ▸ List.mem_cons_self _ _))

theorem SolvePreprocess_writes_translated_mesh (s : ArapSolver K) (tr : Vector3 K)
    (fixed_vertices : MatrixX3 K) (hpart : PartitionsVertices s)
    (hnormal : ∀ c i,
      naiveLeftTimes { s with fixed_vertices_ := fixed_vertices } (translatedGuess s tr c) i
        = naiveRight { s with fixed_vertices_ := fixed_vertices } c i)
    (lu : SparseLU K) (polar : Matrix3 K → Matrix3 K) (h : LUHandle K)
    (hlu : lu s.free_.length (naiveLeft { s with fixed_vertices_ := fixed_vertices }) = some h)
    (hsolve : ∀ b, ∃ y, h.solveVec b = some y)
    (hexact : ∀ b y, h.solveVec b = some y → ∀ i, i < s.free_.length →
      naiveLeftTimes { s with fixed_vertices_ := fixed_vertices } y i = b i)
    (hns : ∀ y z : Nat → K,
      (∀ i, i < s.free_.length →
        naiveLeftTimes { s with fixed_vertices_ := fixed_vertices } y i
          = naiveLeftTimes { s with fixed_vertices_ := fixed_vertices } z i) →
      ∀ i, i < s.free_.length → y i = z i) :
    ∃ t, SolvePreprocess lu polar s fixed_vertices = Outcome.returned t ∧
      (∀ i, i < s.free_.length → ∀ c,
        t.vertices_updated_ (s.free_.getD i 0) c = s.vertices_ (s.free_.getD i 0) c + tr c) ∧
      (∀ i, i < s.fixed_.length → t.vertices_updated_ (s.fixed_.getD i 0) = fixed_vertices i) := by
  have hnd := partition_free_nodup s hpart
  have hndall : (s.free_ ++ s.fixed_).Nodup := hpart.nodup_iff.mpr (List.nodup_range _)
  have hgood : ∀ a y,
      h.solveVec (naiveRight { s with fixed_vertices_ := fixed_vertices } a) = some y →
      ¬ naiveResidual { s with fixed_vertices_ := fixed_vertices } a y > kMatrixDiffThreshold ∧
      ∀ k, k < ({ s with fixed_vertices_ := fixed_vertices } : ArapSolver K).free_.length →
        y k = translatedGuess s tr a k := by
    intro a y hy
    have hex := hexact _ y hy
    refine ⟨?_, hns y (translatedGuess s tr a) (fun k hk => (hex k hk).trans (hnormal a k).symm)⟩
    rw [naiveResidual_of_exact _ a y hex]
    exact not_lt.mpr (le_of_lt kMatrixDiffThreshold_pos)
  obtain ⟨vu2, hvu2, hin, _⟩ := naiveColumns_completed_of_good_solves
    { s with fixed_vertices_ := fixed_vertices } h (translatedGuess s tr)
    (fun c => hsolve _) hgood hnd (List.finRange 3) s.vertices_updated_
  obtain ⟨t, ht, hvu, _, _⟩ := SolvePreprocess_completed lu polar s fixed_vertices h vu2 hlu hvu2
  refine ⟨t, ht, fun i hi c => ?_, fun i hi => ?_⟩
  · rw [hvu, writeBackFixed_of_not_mem s.fixed_ fixed_vertices vu2 _
      (partition_free_not_fixed s hpart _ (getD_mem_of_lt _ _ hi))]
    exact hin i hi c (List.mem_finRange c)
  · rw [hvu]
    exact writeBackFixed_apply s.fixed_ fixed_vertices vu2 (List.nodup_append.mp hndall).2.1 i hi

theorem square_naive_solver (s : ArapSolver ℝ)
    (hw : s.weight_ = PrecomputeWeight Real.sqrt (squareMesh ℝ)) (hn : s.vertex_num = 4)
    (hfree : s.free_ = [2, 3]) :
    cramerLU s.free_.length (naiveLeft s) = some (cramerHandle (naiveLeft s)) ∧
    (∀ b y, (cramerHandle (naiveLeft s)).solveVec b = some y → ∀ i, i < s.free_.length →
      naiveLeftTimes s y i = b i) ∧
    (∀ y z : Nat → ℝ,
      (∀ i, i < s.free_.length → naiveLeftTimes s y i = naiveLeftTimes s z i) →
      ∀ i, i < s.free_.length → y i = z i) := by
  have hL := square_naiveLeft s hw hn hfree
  have h00 := hL 0 0 (by norm_num) (by norm_num)
  have h01 := hL 0 1 (by norm_num) (by norm_num)
  have h10 := hL 1 0 (by norm_num) (by norm_num)
  have h11 := hL 1 1 (by norm_num) (by norm_num)
  norm_num at h00 h01 h10 h11
  have hlen : s.free_.length = 2 := by rw [hfree]; rfl
  have hdet : naiveLeft s 0 0 * naiveLeft s 1 1 - naiveLeft s 0 1 * naiveLeft s 1 0 ≠ 0 := by
    rw [h00, h01, h10, h11]
    norm_num
  have htimes : ∀ y : Nat → ℝ, ∀ i,
      naiveLeftTimes s y i = naiveLeft s i 0 * y 0 + naiveLeft s i 1 * y 1 := by
    intro y i
    unfold naiveLeftTimes
    rw [hlen]
    simp only [Finset.sum_range_succ, Finset.sum_range_zero, zero_add]
  refine ⟨?_, ?_, ?_⟩
  · unfold cramerLU
    exact if_pos ⟨hlen, hdet⟩
  · intro b y hy i hi
    obtain ⟨e0, e1⟩ := cramerHandle_exact (naiveLeft s) b y hdet hy
    rw [hlen] at hi
    rw [htimes]
    interval_cases i
    · exact e0
    · exact e1
  · intro y z h i hi
    rw [hlen] at hi h
    have e0 := h 0 (by norm_num)
    have e1 := h 1 (by norm_num)
    rw [htimes, htimes, h00, h01] at e0
    rw [htimes, htimes, h10, h11] at e1
    interval_cases i
    · linarith
    · linarith

end Theorems

end demo
end arap
